import Mathlib

/-!
# consumer-price-index: a shallow embedding of `main.go`

The program keeps a daily series of inflation values in `inflation.csv`.  One run loads
the file into a map (`cur`), walks the daily frames from `dayzer` to today, copies the
confirmed cached values, asks the remote resolver `musapi` for the other frames while a
budget of `reqlim` new frames lasts, derives a value from the preceding day when the
resolver has none, and rewrites the file from the map built that way (`des`).

Modelling choices, all of them visible in the definitions below.

* `Time` is an instant in whole seconds since the Unix epoch, read in UTC.  Sub-second
  parts and the location pointer of Go's `time.Time` are not represented.
* `F64` stands for `float64`, bit for bit for the finite values and the infinities: a
  finite value is its sign bit, its exponent field and its fraction field, division and
  subtraction round to the nearest value, a tie to the even fraction, and there are two
  zeros.  The NaNs are one value.
* A Go map is a finite map with unique keys (`AList`).  Go iterates over a map in an
  unspecified order; the writer is therefore given the iteration order explicitly.
* The standard-library parsers `time.Parse` and `strconv.ParseFloat` are a parameter
  (`Parsers`) of the code that calls them, so that what is proved about that code does
  not depend on their grammar.  `goParsers` is an executable reference for the grammar
  the program itself writes; its `parseFloat` reads a decimal literal to the nearest
  `float64`, as `strconv.ParseFloat` does, and `fmt5`, the verb `%.5f`, rounds the exact
  value of a `float64` to five fractional digits.
* The remote API (HTTP GET followed by `json.Unmarshal`), the clock, the framer and the
  budget executor are inputs of the model.
* `log.Fatal`, `panic` and run-time panics end the run: they are values of `Abort`.
-/

namespace CPI

/-! ## float64 -/

/-- Rounding of a rational to the nearest integer, a tie going to the even one. -/
def roundHalfEven (x : ℚ) : Int :=
  let f := Int.floor x
  let r := x - f
  if r < 1 / 2 then f else if 1 / 2 < r then f + 1 else if f % 2 = 0 then f else f + 1

/-- Values of Go's `float64`, the binary64 format of IEEE 754.  A finite value is its
sign bit and its other 63 bits read as a number: the exponent field times 2^52 plus the
fraction field, below `0x7FF0000000000000`, where the infinities begin.  Both zeros are
there, `finite false 0` and `finite true 0`.  The NaNs are one value: the program cannot
tell them apart. -/
inductive F64 where
  | finite (neg : Bool) (bits : Fin 9218868437227405312)
  | inf (neg : Bool)
  | nan
deriving DecidableEq

namespace F64

/-- The power of two with an integer exponent. -/
def pow2 (e : Int) : ℚ :=
  if 0 ≤ e then ((2 ^ e.toNat : Nat) : ℚ) else 1 / ((2 ^ (-e).toNat : Nat) : ℚ)

/-- The magnitude the 63 bits `b` stand for: with the exponent field `b / 2^52` at zero
the fraction field times 2^-1074 (the subnormal values and zero), otherwise
`(2^52 + fraction) * 2^(exponent - 1075)`. -/
def mag (b : Nat) : ℚ :=
  if b / 4503599627370496 = 0 then (b : ℚ) * pow2 (-1074)
  else ((4503599627370496 + b % 4503599627370496 : Nat) : ℚ)
    * pow2 ((b / 4503599627370496 : Nat) - 1075)

/-- The exact value of a finite `float64`; zero for the others. -/
def toRat : F64 → ℚ
  | finite s b => if s then -mag b else mag b
  | _ => 0

/-- The number of binary digits of `n` less one, by halving; zero for zero. -/
def log2Aux : Nat → Nat → Nat
  | 0, _ => 0
  | fuel + 1, n => if n < 2 then 0 else log2Aux fuel (n / 2) + 1

/-- The integer part of the binary logarithm of a positive natural number. -/
def log2n (n : Nat) : Nat := log2Aux n n

/-- The integer part of the binary logarithm of a positive rational. -/
def ilog2 (x : ℚ) : Int :=
  let k : Int := (log2n x.num.natAbs : Int) - (log2n x.den : Int)
  if pow2 k ≤ x then k else k - 1

/-- The 63 bits of the `float64` magnitude nearest to `x`, for `x` not negative, a tie
going to the even fraction (the rounding of IEEE 754 that Go uses): `x` is brought onto
the grid of its binade, 53 significant bits, or onto the grid of the subnormal values,
and rounded there.  The result is `0x7FF0000000000000` or more when `x` is beyond the
finite values. -/
def roundBits (x : ℚ) : Nat :=
  if x ≤ 0 then 0
  else
    let ee := max (ilog2 x - 52) (-1074)
    (roundHalfEven (x / pow2 ee)).toNat + (ee + 1074).toNat * 4503599627370496

/-- The `float64` with the sign `neg` and the magnitude nearest to `x`, for `x` not
negative; the infinity when `x` is beyond the finite values. -/
def ofMag (neg : Bool) (x : ℚ) : F64 :=
  if h : roundBits x < 9218868437227405312 then finite neg ⟨roundBits x, h⟩ else inf neg

/-- The conversion of an exact value to `float64`, as Go does it for a constant: the
nearest value, `+0` for zero. -/
def fin (q : ℚ) : F64 := ofMag (decide (q < 0)) |q|

/-- The zero value of `float64`, what Go gives a variable without initialiser and a map
lookup of a missing key: `+0`. -/
def zero : F64 := finite false ⟨0, by decide⟩

/-- The constant `-1` the resolver returns for "no figure". -/
def minusOne : F64 := fin (-1)

/-- The sign bit of a value; for a NaN, which has none here, `false`. -/
def signBit : F64 → Bool
  | finite s _ => s
  | inf s => s
  | nan => false

/-- Unary minus: the sign bit is flipped. -/
def neg : F64 → F64
  | finite s b => finite (!s) b
  | inf b => inf (!b)
  | nan => nan

/-- Go's `math.Abs`: the sign bit is cleared. -/
def abs : F64 → F64
  | finite _ b => finite false b
  | inf _ => inf false
  | nan => nan

/-- Go's `<` on float64: false as soon as one side is NaN; the two zeros are equal. -/
def lt : F64 → F64 → Bool
  | finite s a, finite t b => decide (toRat (finite s a) < toRat (finite t b))
  | finite _ _, inf b => !b
  | inf a, finite _ _ => a
  | inf a, inf b => a && !b
  | _, _ => false

/-- Go's `>` on float64. -/
def gt (a b : F64) : Bool := lt b a

/-- Go's `==` on float64: NaN is not equal to itself, `-0` is equal to `+0`. -/
def eq : F64 → F64 → Bool
  | finite s a, finite t b => decide (toRat (finite s a) = toRat (finite t b))
  | inf a, inf b => a == b
  | _, _ => false

/-- Go's `/` on float64.  The sign of the result is the exclusive or of the signs.  A
value other than zero over a zero is an infinity, zero over zero and infinity over
infinity are NaN, a finite value over an infinity is a zero; the quotient of two finite
values is rounded to the nearest `float64`.  Nothing panics. -/
def div : F64 → F64 → F64
  | nan, _ => nan
  | _, nan => nan
  | inf _, inf _ => nan
  | inf s, finite t _ => inf (s != t)
  | finite s _, inf t => finite (s != t) ⟨0, by decide⟩
  | finite s a, finite t b =>
    if b.val = 0 then (if a.val = 0 then nan else inf (s != t))
    else ofMag (s != t) (mag a / mag b)

/-- Go's binary `-` on float64.  The difference of two finite values is rounded to the
nearest `float64`; when it is zero the result is `+0`, except `-0 - +0`, which is
`-0`. -/
def sub : F64 → F64 → F64
  | nan, _ => nan
  | _, nan => nan
  | inf a, inf b => if a = b then nan else inf a
  | inf a, finite _ _ => inf a
  | finite _ _, inf b => inf (!b)
  | finite s a, finite t b =>
    if toRat (finite s a) - toRat (finite t b) = 0 then finite (s && !t) ⟨0, by decide⟩
    else ofMag (decide (toRat (finite s a) - toRat (finite t b) < 0))
      |toRat (finite s a) - toRat (finite t b)|

end F64

/-! ## time.Time -/

/-- An instant: seconds since 1970-01-01T00:00:00Z. -/
abbrev Time := Int

/-- The length of a frame, `24 * time.Hour`, in seconds. -/
def dayLen : Int := 86400

/-- Whether a year of the proleptic Gregorian calendar is a leap year. -/
def isLeap (y : Int) : Bool := decide (y % 4 = 0 ∧ (y % 100 ≠ 0 ∨ y % 400 = 0))

/-- Days of the year before the first of a month, 1 to 12; 13 gives the length of the
year. -/
def daysBefore (leap : Bool) (m : Int) : Int :=
  let l : Int := if leap then 1 else 0
  if m ≤ 1 then 0 else if m = 2 then 31 else if m = 3 then 59 + l else if m = 4 then 90 + l
  else if m = 5 then 120 + l else if m = 6 then 151 + l else if m = 7 then 181 + l
  else if m = 8 then 212 + l else if m = 9 then 243 + l else if m = 10 then 273 + l
  else if m = 11 then 304 + l else if m = 12 then 334 + l else 365 + l

/-- The month of a day of the year, the days counted from zero. -/
def monthOf (leap : Bool) (yday : Int) : Int :=
  if yday < daysBefore leap 2 then 1 else if yday < daysBefore leap 3 then 2
  else if yday < daysBefore leap 4 then 3 else if yday < daysBefore leap 5 then 4
  else if yday < daysBefore leap 6 then 5 else if yday < daysBefore leap 7 then 6
  else if yday < daysBefore leap 8 then 7 else if yday < daysBefore leap 9 then 8
  else if yday < daysBefore leap 10 then 9 else if yday < daysBefore leap 11 then 10
  else if yday < daysBefore leap 12 then 11 else 12

/-- Year and day of the year, counted from zero, of a day number counted from
1970-01-01: the cycles of 400, 100, 4 and 1 years are cut off in turn, as in Go's
`time` package. -/
def yearDay (z : Int) : Int × Int :=
  let a := z + 719162
  let n400 := a / 146097
  let d := a % 146097
  let n100 := d / 36524 - d / 36524 / 4
  let d1 := d - 36524 * n100
  let n4 := d1 / 1461
  let d2 := d1 - 1461 * n4
  let n1 := d2 / 365 - d2 / 365 / 4
  (400 * n400 + 100 * n100 + 4 * n4 + n1 + 1, d2 - 365 * n1)

/-- Year, month and day of the proleptic Gregorian calendar for a day number counted
from 1970-01-01. -/
def daysToCivil (z : Int) : Int × Int × Int :=
  let y := (yearDay z).1
  let yday := (yearDay z).2
  let m := monthOf (isLeap y) yday
  (y, m, yday - daysBefore (isLeap y) m + 1)

/-- Day number counted from 1970-01-01 of a calendar date.  A day past the end of the
month runs on into the next month, which is how Go's `time.Date` normalises. -/
def civilToDays (y m d : Int) : Int :=
  365 * (y - 1) + (y - 1) / 4 - (y - 1) / 100 + (y - 1) / 400
    + daysBefore (isLeap y) m + d - 1 - 719162

/-- Go's `Time.Year`. -/
def Time.year (t : Time) : Int := (daysToCivil (t / 86400)).1

/-- Go's `Time.Month`, 1 to 12. -/
def Time.month (t : Time) : Int := (daysToCivil (t / 86400)).2.1

/-- Go's `Time.Day`. -/
def Time.day (t : Time) : Int := (daysToCivil (t / 86400)).2.2

/-- Go's `Time.AddDate(years, 0, 0)`: same month, day and time of day in another year,
normalised. -/
def Time.addYears (t : Time) (years : Int) : Time :=
  civilToDays (t.year + years) t.month t.day * 86400 + t % 86400

/-- Go's `Time.Add` with a duration in seconds. -/
def Time.add (t : Time) (secs : Int) : Time := t + secs

/-! ## Formatting and parsing -/

/-- A natural number in decimal, filled with zeros on the left up to a width. -/
def pad (w n : Nat) : String :=
  String.mk (List.replicate (w - (Nat.repr n).length) '0') ++ Nat.repr n

/-- Go's layout `"2006"`: the year, at least four digits, a minus sign in front of a
negative one. -/
def fmtYear (y : Int) : String :=
  if y < 0 then "-" ++ pad 4 (-y).toNat else pad 4 y.toNat

/-- Go's layout `"01"`: the month on two digits. -/
def fmtMonth (m : Int) : String := pad 2 m.toNat

/-- Go's `Format(time.RFC3339)` of a UTC instant. -/
def fmtTime (t : Time) : String :=
  let sod := (t % 86400).toNat
  fmtYear t.year ++ "-" ++ fmtMonth t.month ++ "-" ++ pad 2 t.day.toNat ++ "T" ++
    pad 2 (sod / 3600) ++ ":" ++ pad 2 (sod % 3600 / 60) ++ ":" ++ pad 2 (sod % 60) ++ "Z"

/-- Go's `fmt.Sprintf("%.5f", x)`: the sign when the sign bit is set, and the exact
magnitude rounded to five fractional digits, a tie going to the even digit. -/
def fmt5 : F64 → String
  | .finite s b =>
    let n := (roundHalfEven (F64.mag b * 100000)).toNat
    (if s then "-" else "") ++ Nat.repr (n / 100000) ++ "." ++ pad 5 (n % 100000)
  | .inf false => "+Inf"
  | .inf true => "-Inf"
  | .nan => "NaN"

/-- Go's `fmt.Sprintf("%d", n)`. -/
def fmtInt (n : Int) : String :=
  if n < 0 then "-" ++ Nat.repr (-n).toNat else Nat.repr n.toNat

/-- The value of a run of decimal digits; `none` when a character is not a digit. -/
def natOfDigits (cs : List Char) : Option Nat :=
  cs.foldlM (fun acc c => if c.isDigit then some (acc * 10 + (c.toNat - 48)) else none) 0

/-- A non-empty run of decimal digits. -/
def natOfDigits1 (cs : List Char) : Option Nat :=
  if cs.isEmpty then none else natOfDigits cs

/-- Number of days of a month. -/
def daysIn (y m : Int) : Int :=
  if m = 2 then (if y % 4 = 0 ∧ (y % 100 ≠ 0 ∨ y % 400 = 0) then 29 else 28)
  else if m = 4 ∨ m = 6 ∨ m = 9 ∨ m = 11 then 30 else 31

/-- Reference for `time.Parse(time.RFC3339, s)` on the form the program writes,
`YYYY-MM-DDThh:mm:ssZ`.  Fractions of a second and numeric zone offsets, which Go also
accepts, are outside this reference and are refused by it. -/
def parseTime (s : String) : Option Time :=
  let cs := s.data
  if cs.length = 20 ∧ cs.get? 4 = some '-' ∧ cs.get? 7 = some '-' ∧ cs.get? 10 = some 'T' ∧
      cs.get? 13 = some ':' ∧ cs.get? 16 = some ':' ∧ cs.get? 19 = some 'Z' then do
    let y ← natOfDigits (cs.take 4)
    let m ← natOfDigits ((cs.drop 5).take 2)
    let d ← natOfDigits ((cs.drop 8).take 2)
    let h ← natOfDigits ((cs.drop 11).take 2)
    let n ← natOfDigits ((cs.drop 14).take 2)
    let c ← natOfDigits ((cs.drop 17).take 2)
    if 1 ≤ m ∧ m ≤ 12 ∧ 1 ≤ d ∧ (d : Int) ≤ daysIn y m ∧ h < 24 ∧ n < 60 ∧ c < 60 then
      some (civilToDays y m d * 86400 + h * 3600 + n * 60 + c)
    else none
  else none

/-- The exponent part of a decimal float literal: empty, or `e` or `E`, an optional
sign and at least one digit. -/
def parseExp : List Char → Option Int
  | [] => some 0
  | c :: r =>
    if c = 'e' ∨ c = 'E' then
      match r with
      | '-' :: ds => (natOfDigits1 ds).map (fun n => -(n : Int))
      | '+' :: ds => (natOfDigits1 ds).map (fun n => (n : Int))
      | ds => (natOfDigits1 ds).map (fun n => (n : Int))
    else none

/-- An unsigned decimal float literal: digits, an optional point and digits, an
optional exponent; at least one digit in the mantissa. -/
def parseUnsigned (cs : List Char) : Option ℚ :=
  let ip := cs.takeWhile Char.isDigit
  let r1 := cs.dropWhile Char.isDigit
  let r2 := match r1 with
    | '.' :: r => r
    | r => r
  let fp := r2.takeWhile Char.isDigit
  let r3 := r2.dropWhile Char.isDigit
  if (ip ++ fp).isEmpty then none else do
    let m ← natOfDigits (ip ++ fp)
    let e ← parseExp r3
    some ((m : ℚ) / (10 : ℚ) ^ fp.length * (10 : ℚ) ^ e)

/-- The `float64` a decimal literal with the sign `neg` and the exact magnitude `q`
stands for: the nearest one; `none`, the range error of `strconv.ParseFloat`, when that
is an infinity.  A magnitude that rounds to zero gives the zero with the sign. -/
def ofLit (neg : Bool) (q : ℚ) : Option F64 :=
  match F64.ofMag neg q with
  | .inf _ => none
  | v => some v

/-- Reference for `strconv.ParseFloat(s, 64)`: the words `inf` and `infinity`, with or
without a sign, and `nan`, in upper or lower case, and the decimal literals, read to the
nearest `float64`.  Hexadecimal literals and underscores, which Go also accepts, are
outside this reference and are refused by it. -/
def parseFloat (s : String) : Option F64 :=
  let w := s.data.map Char.toLower
  if w = ['n', 'a', 'n'] then some .nan
  else if w = ['i', 'n', 'f'] ∨ w = ['+', 'i', 'n', 'f'] ∨
      w = ['i', 'n', 'f', 'i', 'n', 'i', 't', 'y'] ∨
      w = ['+', 'i', 'n', 'f', 'i', 'n', 'i', 't', 'y'] then some (.inf false)
  else if w = ['-', 'i', 'n', 'f'] ∨ w = ['-', 'i', 'n', 'f', 'i', 'n', 'i', 't', 'y'] then
    some (.inf true)
  else match s.data with
    | '-' :: cs => (parseUnsigned cs).bind (ofLit true)
    | '+' :: cs => (parseUnsigned cs).bind (ofLit false)
    | cs => (parseUnsigned cs).bind (ofLit false)

/-- The two standard-library parsers the program calls: `time.Parse(time.RFC3339, ·)`
and `strconv.ParseFloat(·, 64)`, `none` standing for a returned error. -/
structure Parsers where
  time : String → Option Time
  float : String → Option F64

/-- The reference parsers. -/
def goParsers : Parsers := ⟨parseTime, parseFloat⟩

/-! ## Aborting, maps, the cache loader -/

/-- The ways the process ends before its time: `log.Fatal`, the `panic` of `musapi`
with the response body, and the run-time panic of an index or a slice bound out of
range. -/
inductive Abort where
  | fatal
  | panicBody (byt : String)
  | outOfRange
deriving DecidableEq

/-- Equality of results can be decided, so that closed statements can be evaluated. -/
instance decEqExcept {ε α : Type} [DecidableEq ε] [DecidableEq α] :
    DecidableEq (Except ε α)
  | .ok a, .ok b =>
    if h : a = b then isTrue (by rw [h]) else isFalse (fun h2 => h (Except.ok.inj h2))
  | .error a, .error b =>
    if h : a = b then isTrue (by rw [h]) else isFalse (fun h2 => h (Except.error.inj h2))
  | .ok _, .error _ => isFalse (fun h => by cases h)
  | .error _, .ok _ => isFalse (fun h => by cases h)

/-- A value of type `map[time.Time]float64`. -/
abbrev GoMap := AList (fun _ : Time => F64)

/-- Two maps are equal when their entries are; this instance evaluates. -/
instance decEqGoMap : DecidableEq GoMap := fun a b =>
  decidable_of_iff (a.entries = b.entries) ⟨AList.ext, fun h => congrArg AList.entries h⟩

/-- The expression `m[k]` of Go: the zero value for a missing key. -/
def GoMap.get (m : GoMap) (k : Time) : F64 := (m.lookup k).getD F64.zero

/-- The second result of `v, ok := m[k]`. -/
def GoMap.has (m : GoMap) (k : Time) : Bool := (m.lookup k).isSome

/-- The assignment `m[k] = v`. -/
def GoMap.set (m : GoMap) (k : Time) (v : F64) : GoMap := m.insert k v

/-- The function `musf64`: parse or `log.Fatal`. -/
def musf64 (P : Parsers) (str : String) : Except Abort F64 :=
  match P.float str with
  | some f => .ok f
  | none => .error .fatal

/-- The function `mustim`: parse or `log.Fatal`. -/
def mustim (P : Parsers) (str : String) : Except Abort Time :=
  match P.time str with
  | some t => .ok t
  | none => .error .fatal

/-- The body of the loop that loads the cache (`main`, lines 82 to 90) for one row `x`:
the two `if` statements on `x[2]`, in their order.  In an assignment
`cur[mustim(x[0])] = -musf64(x[1])` Go calls `mustim` first. -/
def loadRow (P : Parsers) (cur : GoMap) : List String → Except Abort GoMap
  | x0 :: x1 :: x2 :: _ => do
    let cur1 ← if x2 = "0" then do
        let k ← mustim P x0
        let v ← musf64 P x1
        pure (cur.set k (F64.neg v))
      else pure cur
    let cur2 ← if x2 = "1" then do
        let k ← mustim P x0
        let v ← musf64 P x1
        pure (cur1.set k v)
      else pure cur1
    pure cur2
  | _ => .error .outOfRange

/-- The cache loader (`main`, lines 81 to 90): `row[1:]` drops the first row, which
panics on an empty `row`, and the loop runs over the others. -/
def load (P : Parsers) : List (List String) → Except Abort GoMap
  | [] => .error .outOfRange
  | _ :: rest => rest.foldlM (loadRow P) ∅

/-! ## The resolver `musapi` -/

/-- One data point of a series. -/
structure resstrdat where
  Period : String
  Value : String
  Year : String
deriving DecidableEq

/-- One series. -/
structure resstrser where
  Data : List resstrdat
deriving DecidableEq

/-- The `Results` object. -/
structure resstrres where
  Series : List resstrser
deriving DecidableEq

/-- The response envelope. -/
structure resstr where
  Results : resstrres
deriving DecidableEq

/-- What one HTTP request comes to: `cli.Get` fails, reading the body fails, the body
is there and `json.Unmarshal` refuses it, or the body is there with its decoded
envelope. -/
inductive Fetch where
  | getErr
  | readErr
  | badJson (byt : String)
  | ok (byt : String) (dat : resstr)
deriving DecidableEq

/-- The constant `apifmt` filled in by `fmt.Sprintf` with its two arguments. -/
def apifmt (sta en : String) : String :=
  "https://api.bls.gov/publicAPI/v2/timeseries/data/CUUR0000SA0?startyear=" ++ sta ++
    "&endyear=" ++ en

/-- What a call of `musapi` did: the URLs it requested, in order, and what it returned
or how it ended the process. -/
structure ApiRun where
  urls : List String
  out : Except Abort F64
deriving DecidableEq

/-- The body of the loop over the data points (`musapi`, lines 305 to 312); the pair is
`(pre, cur)`. -/
def scanStep (P : Parsers) (pry cyr mon : String) (acc : F64 × F64) (x : resstrdat) :
    Except Abort (F64 × F64) := do
  let pre ← if x.Year = pry ∧ x.Period = mon then musf64 P x.Value else pure acc.1
  let cur ← if x.Year = cyr ∧ x.Period = mon then musf64 P x.Value else pure acc.2
  pure (pre, cur)

/-- The loop over the data points, from `pre = 0` and `cur = 0`. -/
def scan (P : Parsers) (pry cyr mon : String) (dat : List resstrdat) :
    Except Abort (F64 × F64) :=
  dat.foldlM (scanStep P pry cyr mon) (F64.zero, F64.zero)

/-- The last statements of `musapi` (lines 314 to 318). -/
def ratio (pre cur : F64) : F64 :=
  if F64.eq pre F64.zero && F64.eq cur F64.zero then F64.minusOne
  else F64.sub (F64.div cur pre) (F64.fin 1)

/-- The function `musapi`.  `now` is what `time.Now()` returns, read like `des`;
`remote` answers a request for a URL. -/
def musapi (P : Parsers) (now : Time) (remote : String → Fetch) (des : Time) : ApiRun :=
  if now.month = des.month then ⟨[], .ok F64.minusOne⟩
  else
    let sta := fmtYear (des.addYears (-2)).year
    let en := fmtYear des.year
    let u := apifmt sta en
    match remote u with
    | .getErr => ⟨[u], .error .fatal⟩
    | .readErr => ⟨[u], .error .fatal⟩
    | .badJson _ => ⟨[u], .error .fatal⟩
    | .ok byt dat =>
      let pry := fmtYear (des.addYears (-1)).year
      let cyr := fmtYear des.year
      let mon := "M" ++ fmtMonth des.month
      match dat.Results.Series with
      | [ser] => ⟨[u], (scan P pry cyr mon ser.Data).map (fun pc => ratio pc.1 pc.2)⟩
      | _ => ⟨[u], .error (.panicBody byt)⟩

/-! ## The gap-filling loop -/

/-- The constant `reqlim`. -/
def reqlim : Nat := 10

/-- The constant `dayzer`. -/
def dayzer : String := "2020-12-01T00:00:00Z"

/-- The error `bud.Execute` returns, as `main` tells it apart: `nil`, one that
`budget.IsCancel` accepts, one that `budget.IsPassed` accepts, any other. -/
inductive BudErr where
  | nil
  | cancel
  | passed
  | other
deriving DecidableEq

/-- What a call `bud.Execute(act)` did: whether it ran the action, and the error it
returned.  The executor is a library; the action itself always returns `nil`. -/
structure Exec where
  ran : Bool
  err : BudErr
deriving DecidableEq

/-- What the loop meets outside the program: what `musapi` gives for a frame, and what
the executor does with the action of a frame. -/
structure World where
  api : Time → Except Abort F64
  bud : Time → Exec

/-- Where the loop stands: going on, left by `break`, or the process is gone. -/
inductive Status where
  | running
  | stopped
  | aborted (a : Abort)
deriving DecidableEq

/-- The variables of the loop, and a record of the frames for which the action ran,
that is for which `musapi` was called, the latest first. -/
structure State where
  cou : Nat
  des : GoMap
  calls : List Time
  status : Status
deriving DecidableEq

/-- The closure `act` (`main`, lines 139 to 163) for the frame starting at `sta`. -/
def act (api : Time → Except Abort F64) (des : GoMap) (sta : Time) : Except Abort GoMap := do
  let f64 ← api sta
  let pre := des.get (sta.add (-dayLen))
  let f1 := if F64.eq f64 F64.minusOne && F64.gt pre F64.zero then F64.neg pre else f64
  let f2 := if F64.eq f1 F64.minusOne && F64.lt pre F64.zero then pre else f1
  pure (des.set sta f2)

/-- The statements after `bud.Execute` returned (`main`, lines 168 to 174): `break` on
a cancel or a passed budget, `log.Fatal` on another error. -/
def afterErr (s : State) : BudErr → State
  | .nil => s
  | .cancel => { s with status := .stopped }
  | .passed => { s with status := .stopped }
  | .other => { s with status := .aborted .fatal }

/-- The call `bud.Execute(act)` and what follows it (`main`, lines 137 to 175) for the
frame starting at `sta`.  A `log.Fatal` or a panic inside the action ends the process
before `Execute` returns. -/
def execute (W : World) (s : State) (sta : Time) : State :=
  if (W.bud sta).ran then
    match act W.api s.des sta with
    | .error a => { s with calls := sta :: s.calls, status := .aborted a }
    | .ok des => afterErr { s with des := des, calls := sta :: s.calls } (W.bud sta).err
  else afterErr s (W.bud sta).err

/-- The body of the loop over the frames (`main`, lines 119 to 180) for the frame
starting at `sta`, with the limit `lim` in the place of `reqlim`. -/
def step (lim : Nat) (cur : GoMap) (W : World) (s : State) (sta : Time) : State :=
  match s.status with
  | .running =>
    if cur.has sta && F64.gt (cur.get sta) F64.zero then
      { s with des := s.des.set sta (cur.get sta) }
    else if s.cou < lim then
      execute W { s with cou := if !cur.has sta then s.cou + 1 else s.cou } sta
    else s
  | _ => s

/-- The state before the first frame. -/
def State.init : State := { cou := 0, des := ∅, calls := [], status := .running }

/-- The loop over `fra.List()` (`main`, lines 116 to 181); `fra` holds the starts of the
frames in the order of the list. -/
def fill (lim : Nat) (cur : GoMap) (W : World) (fra : List Time) : State :=
  fra.foldl (step lim cur W) State.init

/-! ## The writer -/

/-- The struct `csvrow`. -/
structure csvrow where
  Dat : Time
  Inflation : F64
  Updated : Int
deriving DecidableEq

/-- The body of the loop over `des` (`main`, lines 184 to 198) for one entry. -/
def toRow (e : Sigma (fun _ : Time => F64)) : csvrow :=
  { Dat := e.1, Inflation := F64.abs e.2, Updated := if F64.gt e.2 F64.zero then 1 else 0 }

/-- The call of `sort.SliceStable` with `Dat.Before`: a stable sort by date. -/
def sortRows (lis : List csvrow) : List csvrow :=
  lis.insertionSort (fun a b => a.Dat ≤ b.Dat)

/-- The first row of the file. -/
def header : List String := ["date", "inflation", "updated"]

/-- The strings written for one row (`main`, line 210). -/
def render (x : csvrow) : List String := [fmtTime x.Dat, fmt5 x.Inflation, fmtInt x.Updated]

/-- The rows handed to the CSV writer (`main`, lines 183 to 211) when the loop over the
map `des` meets its entries in the order `order`. -/
def rowsOf (order : List (Sigma (fun _ : Time => F64))) : List (List String) :=
  header :: (sortRows (order.map toRow)).map render

/-- The structs sorted for writing, before they are turned into strings. -/
def lisOf (order : List (Sigma (fun _ : Time => F64))) : List csvrow :=
  sortRows (order.map toRow)

/-- One run of `main` from the rows read to the rows written, with the frames `fra`. -/
def run (P : Parsers) (W : World) (fra : List Time) (row : List (List String)) :
    Except Abort (List (List String)) := do
  let cur ← load P row
  let s := fill reqlim cur W fra
  match s.status with
  | .aborted a => .error a
  | _ => pure (rowsOf s.des.entries)

/-! ## Worlds and caches for the examples -/

/-- A world in which the resolver has no figure for any frame and the executor runs
every action and returns `nil`. -/
def unavailableWorld : World :=
  { api := fun _ => .ok F64.minusOne, bud := fun _ => { ran := true, err := .nil } }

/-- The cache of the example of the specification: 2021-01-01 confirmed at 0.03. -/
def januaryCache : GoMap := AList.singleton 1609459200 (F64.fin (3 / 100))

/-- The executor that runs every action and returns `nil`. -/
def plainBud : Time → Exec := fun _ => { ran := true, err := .nil }

/-- A response with one series: the index at 198.0 for January 2021 and at 200.0 for
January 2020. -/
def deflationRemote : String → Fetch := fun _ =>
  .ok "" { Results := { Series := [{ Data :=
    [{ Period := "M01", Value := "198.0", Year := "2021" },
     { Period := "M01", Value := "200.0", Year := "2020" }] }] } }

/-- The world in which the resolver is `musapi`, called on 2021-02-10, in front of
`deflationRemote`. -/
def deflationWorld : World :=
  { api := fun t => (musapi goParsers 1612915200 deflationRemote t).out, bud := plainBud }

/-- The `float64` value `198.0 / 200.0 - 1`, what the resolver computes in front of
`deflationRemote`: about -0.01. -/
def deflationValue : F64 := F64.sub (F64.div (F64.fin 198) (F64.fin 200)) (F64.fin 1)

/-- A response with one series: the index at 206.0 for January 2021 and at 200.0 for
January 2020. -/
def inflationRemote : String → Fetch := fun _ =>
  .ok "" { Results := { Series := [{ Data :=
    [{ Period := "M01", Value := "206.0", Year := "2021" },
     { Period := "M01", Value := "200.0", Year := "2020" }] }] } }

/-- The `float64` value `206.0 / 200.0 - 1`, what the resolver computes in front of
`inflationRemote`: about 0.030000000000000027. -/
def inflationValue : F64 := F64.sub (F64.div (F64.fin 206) (F64.fin 200)) (F64.fin 1)

/-- A response with one series without data points. -/
def emptyRemote : String → Fetch := fun _ =>
  .ok "" { Results := { Series := [{ Data := [] }] } }

/-- A response with one series whose data point for January 2021 has the value `-`,
which is not a number. -/
def dashRemote : String → Fetch := fun _ =>
  .ok "" { Results := { Series := [{ Data :=
    [{ Period := "M01", Value := "-", Year := "2021" },
     { Period := "M01", Value := "200.0", Year := "2020" }] }] } }

/-- The value of a response for a year and a month, in the words of the specification:
the value of the data point with that year and that period, zero when there is none;
when there are several, the last one. -/
def pointValue (P : Parsers) (yr mon : String) (dat : List resstrdat) : F64 :=
  match (dat.filter (fun x => x.Year = yr ∧ x.Period = mon)).getLast? with
  | none => F64.zero
  | some x => (P.float x.Value).getD F64.zero

/-- The order of `sortRows` is total. -/
instance csvrowTotal : IsTotal csvrow (fun a b => a.Dat ≤ b.Dat) :=
  ⟨fun a b => le_total a.Dat b.Dat⟩

/-- The order of `sortRows` is transitive. -/
instance csvrowTrans : IsTrans csvrow (fun a b => a.Dat ≤ b.Dat) :=
  ⟨fun _ _ _ h1 h2 => le_trans h1 h2⟩

/-- An output map with two entries: 2021-01-01 confirmed at 0.03 and 2021-01-02
derived from it. -/
def twoDayOutput : GoMap := januaryCache.set 1609545600 (F64.fin (-3 / 100))

/-- An output map with one entry, 2021-01-01 confirmed at 0.000001. -/
def tinyOutput : GoMap := AList.singleton 1609459200 (F64.fin (1 / 1000000))

/-- The starts of the twelve frames from 2021-01-01 to 2021-01-12. -/
def twelveDays : List Time :=
  [1609459200, 1609545600, 1609632000, 1609718400, 1609804800, 1609891200, 1609977600,
   1610064000, 1610150400, 1610236800, 1610323200, 1610409600]

/-- A cache with one entry: 2021-01-12, not confirmed, at 0.03. -/
def staleCache : GoMap := AList.singleton 1610409600 (F64.fin (-3 / 100))

/-- A world in which the resolver has no figure for any frame and the executor runs
every action, returns `nil` for the frames other than 2021-01-02 and the error of a
passed budget for 2021-01-02. -/
def stopWorld : World :=
  { api := fun _ => .ok F64.minusOne,
    bud := fun t => if t = 1609545600 then { ran := true, err := .passed }
      else { ran := true, err := .nil } }

/-- A cache with one entry: 2021-01-03 confirmed at 0.03. -/
def laterCache : GoMap := AList.singleton 1609632000 (F64.fin (3 / 100))

/-- A response with one series that has the index for January 2021, 206.0, and nothing
for January 2020. -/
def noPreviousRemote : String → Fetch := fun _ =>
  .ok "" { Results := { Series := [{ Data :=
    [{ Period := "M01", Value := "206.0", Year := "2021" }] }] } }

/-- A response with one series that has the index for January 2021, 206.0, and `-0.0`
for January 2020. -/
def negZeroRemote : String → Fetch := fun _ =>
  .ok "" { Results := { Series := [{ Data :=
    [{ Period := "M01", Value := "206.0", Year := "2021" },
     { Period := "M01", Value := "-0.0", Year := "2020" }] }] } }

/-- A response with one series that has the index for January 2020, 200.0, and nothing
for January 2021. -/
def noCurrentRemote : String → Fetch := fun _ =>
  .ok "" { Results := { Series := [{ Data :=
    [{ Period := "M01", Value := "200.0", Year := "2020" }] }] } }

/-- A response with one series whose data point for January 2020 has the value `NaN`,
which `strconv.ParseFloat` reads as a NaN, and nothing for January 2021. -/
def nanRemote : String → Fetch := fun _ =>
  .ok "" { Results := { Series := [{ Data :=
    [{ Period := "M01", Value := "NaN", Year := "2020" }] }] } }

/-- A response with one series whose data point for March 2020 has the value `n/a`. -/
def notNumberRemote : String → Fetch := fun _ =>
  .ok "body" { Results := { Series := [{ Data :=
    [{ Period := "M03", Value := "n/a", Year := "2020" },
     { Period := "M03", Value := "264.877", Year := "2021" }] }] } }

/-- A response with two series. -/
def twoSeriesRemote : String → Fetch := fun _ =>
  .ok "body" { Results := { Series := [{ Data := [] }, { Data := [] }] } }

/-- A remote side that cannot be reached: `cli.Get` returns an error. -/
def downRemote : String → Fetch := fun _ => .getErr

/-- The world in which the resolver is `musapi`, called on 2021-02-10, in front of
`downRemote`. -/
def downWorld : World :=
  { api := fun t => (musapi goParsers 1612915200 downRemote t).out, bud := plainBud }

/-- Whether the loader can read a row: a row with at least three fields whose date and
magnitude parse when its flag is `0` or `1`. -/
def rowParses (P : Parsers) : List String → Bool
  | x0 :: x1 :: x2 :: _ =>
    if x2 = "0" ∨ x2 = "1" then (P.time x0).isSome && (P.float x1).isSome else true
  | _ => false

/-- What the loader reads from what `fmt5` writes for the magnitude of a value: the
`float64` nearest to the five fractional digits written for a finite value; an infinity
and NaN as they are written. -/
def round5 : F64 → F64
  | .finite _ b =>
    F64.ofMag false (((roundHalfEven (F64.mag b * 100000)).toNat : ℚ) / 100000)
  | .inf _ => .inf false
  | .nan => .nan

/-- The value the loader gives the row the writer builds for a value: what it reads from
the magnitude, as it is when the flag is 1, negated when the flag is 0. -/
def reread (v : F64) : F64 := if F64.gt v F64.zero then round5 v else F64.neg (round5 v)

/-- The value the loader gives the row written for a struct: what it reads from the
magnitude, as it is when the flag is 1, negated when it is 0. -/
def rereadRow (r : csvrow) : F64 :=
  if r.Updated = 1 then round5 r.Inflation else F64.neg (round5 r.Inflation)

/-- An output map with one entry: 2021-01-01 at the value the resolver computes in front
of `inflationRemote`. -/
def fetchedOutput : GoMap := AList.singleton 1609459200 inflationValue

/-- No two structs are before each other. -/
instance csvrowAntisymm : IsAntisymm csvrow (fun a b => a.Dat < b.Dat) :=
  ⟨fun _ _ h1 h2 => absurd h2 (lt_asymm h1)⟩

/-- The rows of a cache file with one entry, 2021-01-01 confirmed at 0.000001. -/
def tinyRows : List (List String) := [header, ["2021-01-01T00:00:00Z", "0.000001", "1"]]

/-! ## Facts about rounding to an integer -/

/-- The rounded value is within one half, and is even when it is exactly one half
away. -/
theorem roundHalfEven_spec (x : ℚ) :
    |(roundHalfEven x : ℚ) - x| ≤ 1 / 2 ∧
    (|(roundHalfEven x : ℚ) - x| = 1 / 2 → roundHalfEven x % 2 = 0) := by
  have hf1 : ((⌊x⌋ : Int) : ℚ) ≤ x := Int.floor_le x
  have hf2 : x < ((⌊x⌋ : Int) : ℚ) + 1 := Int.lt_floor_add_one x
  unfold roundHalfEven
  simp only
  split_ifs with h1 h2 h3
  · have e : |((⌊x⌋ : Int) : ℚ) - x| = x - ⌊x⌋ := by
      rw [abs_of_nonpos (by linarith)]
      ring
    rw [e]
    exact ⟨by linarith, fun h => by linarith⟩
  · have e : |(((⌊x⌋ + 1 : Int)) : ℚ) - x| = ⌊x⌋ + 1 - x := by
      push_cast
      rw [abs_of_nonneg (by linarith)]
    rw [e]
    exact ⟨by linarith, fun h => by linarith⟩
  · have e : |((⌊x⌋ : Int) : ℚ) - x| = x - ⌊x⌋ := by
      rw [abs_of_nonpos (by linarith)]
      ring
    rw [e]
    exact ⟨by linarith, fun _ => h3⟩
  · have e : |(((⌊x⌋ + 1 : Int)) : ℚ) - x| = ⌊x⌋ + 1 - x := by
      push_cast
      rw [abs_of_nonneg (by linarith)]
    rw [e]
    exact ⟨by linarith, fun _ => by omega⟩

/-- An integer within less than one half, or exactly one half away and even, is the
rounded value. -/
theorem roundHalfEven_unique (x : ℚ) (n : Int)
    (h : |(n : ℚ) - x| < 1 / 2 ∨ (|(n : ℚ) - x| = 1 / 2 ∧ n % 2 = 0)) :
    roundHalfEven x = n := by
  obtain ⟨h1, h2⟩ := roundHalfEven_spec x
  generalize roundHalfEven x = m at h1 h2
  have tri : |(m : ℚ) - n| ≤ |(m : ℚ) - x| + |(n : ℚ) - x| := by
    have := abs_sub_le (m : ℚ) x n
    rwa [abs_sub_comm x (n : ℚ)] at this
  have cast : ((|m - n| : Int) : ℚ) = |(m : ℚ) - n| := by push_cast; rfl
  rcases h with h | ⟨h, he⟩
  · have : ((|m - n| : Int) : ℚ) < 1 := by rw [cast]; linarith
    have h3 : |m - n| < 1 := by exact_mod_cast this
    have := abs_lt.mp h3
    omega
  · have : ((|m - n| : Int) : ℚ) ≤ 1 := by rw [cast]; linarith
    have h3 : |m - n| ≤ 1 := by exact_mod_cast this
    have h4 := abs_le.mp h3
    by_cases hm : |(m : ℚ) - x| = 1 / 2
    · have := h2 hm
      omega
    · have hlt : |(m : ℚ) - x| < 1 / 2 := lt_of_le_of_ne h1 hm
      have : ((|m - n| : Int) : ℚ) < 1 := by rw [cast]; linarith
      have h5 : |m - n| < 1 := by exact_mod_cast this
      have := abs_lt.mp h5
      omega

/-- No integer is nearer than the rounded value. -/
theorem roundHalfEven_nearest (x : ℚ) (j : Int) :
    |(roundHalfEven x : ℚ) - x| ≤ |(j : ℚ) - x| := by
  by_contra hc
  push_neg at hc
  have h1 := (roundHalfEven_spec x).1
  have := roundHalfEven_unique x j (Or.inl (by linarith))
  rw [this] at hc
  exact lt_irrefl _ hc

theorem roundHalfEven_nonneg (x : ℚ) (hx : 0 ≤ x) : 0 ≤ roundHalfEven x := by
  by_contra hc
  push_neg at hc
  have h0 := roundHalfEven_nearest x 0
  have hm : (roundHalfEven x : ℚ) ≤ -1 := by exact_mod_cast (by omega : roundHalfEven x ≤ -1)
  rw [abs_of_nonpos (by linarith)] at h0
  simp only [Int.cast_zero, zero_sub, abs_neg, abs_of_nonneg hx] at h0
  linarith

/-- The rounded value is the integer part or the next integer. -/
theorem roundHalfEven_floor (x : ℚ) :
    roundHalfEven x = ⌊x⌋ ∨ roundHalfEven x = ⌊x⌋ + 1 := by
  unfold roundHalfEven
  simp only
  split_ifs <;> simp

/-! ## Facts about the powers of two and the magnitudes -/

theorem F64.pow2_eq (e : Int) : F64.pow2 e = (2 : ℚ) ^ e := by
  unfold F64.pow2
  split
  · rename_i h
    obtain ⟨n, rfl⟩ := Int.eq_ofNat_of_zero_le h
    simp
  · rename_i h
    obtain ⟨n, hn⟩ := Int.eq_ofNat_of_zero_le (by omega : 0 ≤ -e)
    have he : e = -(n : Int) := by omega
    subst he
    simp

theorem F64.pow2_pos (e : Int) : 0 < F64.pow2 e := by
  rw [F64.pow2_eq]
  positivity

theorem F64.pow2_succ (e : Int) : F64.pow2 (e + 1) = 2 * F64.pow2 e := by
  rw [F64.pow2_eq, F64.pow2_eq, zpow_add_one₀ (by norm_num)]
  ring

theorem F64.pow2_le {a b : Int} (h : a ≤ b) : F64.pow2 a ≤ F64.pow2 b := by
  rw [F64.pow2_eq, F64.pow2_eq]
  exact zpow_le_zpow_right₀ (by norm_num) h

theorem F64.pow2_add (a b : Int) : F64.pow2 (a + b) = F64.pow2 a * F64.pow2 b := by
  rw [F64.pow2_eq, F64.pow2_eq, F64.pow2_eq, zpow_add₀ (by norm_num)]

theorem F64.pow2_natCast (n : Nat) : F64.pow2 (n : Int) = ((2 ^ n : Nat) : ℚ) := by
  rw [F64.pow2_eq]
  simp

/-- The magnitude of the bits `mt + j * 2^52`, for `mt` from `2^52` to `2^53`, or up to
`2^52` when `j` is zero, is `mt * 2^(j - 1074)`. -/
theorem F64.mag_encode (j mt : Nat)
    (h : (j = 0 ∧ mt ≤ 4503599627370496) ∨
      (4503599627370496 ≤ mt ∧ mt ≤ 9007199254740992)) :
    F64.mag (mt + j * 4503599627370496) = (mt : ℚ) * F64.pow2 ((j : Int) - 1074) := by
  unfold F64.mag
  by_cases h1 : mt < 4503599627370496
  · have hj : j = 0 := by omega
    subst hj
    have hd : (mt + 0 * 4503599627370496) / 4503599627370496 = 0 := by omega
    rw [if_pos hd]
    simp
  · by_cases h2 : mt = 9007199254740992
    · subst h2
      have hd : (9007199254740992 + j * 4503599627370496) / 4503599627370496 = j + 2 := by
        omega
      have hm : (9007199254740992 + j * 4503599627370496) % 4503599627370496 = 0 := by omega
      rw [if_neg (by omega), hd, hm]
      have e : (((j + 2 : Nat) : Int) - 1075) = ((j : Int) - 1074) + 1 := by
        push_cast
        ring
      rw [e, F64.pow2_succ]
      push_cast
      ring
    · have hd : (mt + j * 4503599627370496) / 4503599627370496 = j + 1 := by omega
      have hm : (mt + j * 4503599627370496) % 4503599627370496 = mt - 4503599627370496 := by
        omega
      rw [if_neg (by omega), hd, hm]
      have e : (((j + 1 : Nat) : Int) - 1075) = ((j : Int) - 1074) := by
        push_cast
        ring
      have e2 : 4503599627370496 + (mt - 4503599627370496) = mt := by omega
      rw [e, e2]

theorem F64.mag_zero : F64.mag 0 = 0 := by
  have := F64.mag_encode 0 0 (Or.inl ⟨rfl, by omega⟩)
  simpa using this

/-- The magnitudes grow with the bits. -/
theorem F64.mag_lt_succ (b : Nat) : F64.mag b < F64.mag (b + 1) := by
  by_cases h : b < 4503599627370496
  · have h1 := F64.mag_encode 0 b (Or.inl ⟨rfl, by omega⟩)
    have h2 := F64.mag_encode 0 (b + 1) (Or.inl ⟨rfl, by omega⟩)
    simp only [Nat.zero_mul, Nat.add_zero] at h1 h2
    rw [h1, h2]
    apply mul_lt_mul_of_pos_right _ (F64.pow2_pos _)
    push_cast
    linarith
  · have hb : b = (4503599627370496 + b % 4503599627370496)
        + (b / 4503599627370496 - 1) * 4503599627370496 := by omega
    have h1 := F64.mag_encode (b / 4503599627370496 - 1)
      (4503599627370496 + b % 4503599627370496) (Or.inr ⟨by omega, by omega⟩)
    have h2 := F64.mag_encode (b / 4503599627370496 - 1)
      (4503599627370496 + b % 4503599627370496 + 1) (Or.inr ⟨by omega, by omega⟩)
    have hb1 : b + 1 = (4503599627370496 + b % 4503599627370496 + 1)
        + (b / 4503599627370496 - 1) * 4503599627370496 := by omega
    rw [← hb] at h1
    rw [← hb1] at h2
    rw [h1, h2]
    apply mul_lt_mul_of_pos_right _ (F64.pow2_pos _)
    push_cast
    linarith

theorem F64.mag_mono {a b : Nat} (h : a ≤ b) : F64.mag a ≤ F64.mag b := by
  induction b with
  | zero =>
    have : a = 0 := by omega
    rw [this]
  | succ n ih =>
    by_cases hn : a = n + 1
    · rw [hn]
    · exact le_trans (ih (by omega)) (le_of_lt (F64.mag_lt_succ n))

theorem F64.mag_strict {a b : Nat} (h : a < b) : F64.mag a < F64.mag b :=
  lt_of_lt_of_le (F64.mag_lt_succ a) (F64.mag_mono h)

theorem F64.mag_nonneg (b : Nat) : 0 ≤ F64.mag b := by
  rw [← F64.mag_zero]
  exact F64.mag_mono (Nat.zero_le b)

theorem F64.mag_pos {b : Nat} (h : b ≠ 0) : 0 < F64.mag b := by
  rw [← F64.mag_zero]
  exact F64.mag_strict (Nat.pos_of_ne_zero h)

theorem F64.mag_eq_zero {b : Nat} (h : F64.mag b = 0) : b = 0 := by
  by_contra hb
  have := F64.mag_pos hb
  linarith

theorem F64.mag_inj {a b : Nat} (h : F64.mag a = F64.mag b) : a = b := by
  rcases Nat.lt_trichotomy a b with h1 | h1 | h1
  · have := F64.mag_strict h1
    linarith
  · exact h1
  · have := F64.mag_strict h1
    linarith

theorem F64.log2Aux_spec (fuel n : Nat) (hn : 0 < n) (hf : n ≤ fuel) :
    2 ^ F64.log2Aux fuel n ≤ n ∧ n < 2 ^ (F64.log2Aux fuel n + 1) := by
  induction fuel generalizing n with
  | zero => omega
  | succ f ih =>
    unfold F64.log2Aux
    split_ifs with h
    · have : n = 1 := by omega
      subst this
      simp
    · obtain ⟨a, b⟩ := ih (n / 2) (by omega) (by omega)
      rw [pow_succ] at b
      rw [pow_succ, pow_succ, pow_succ]
      generalize 2 ^ F64.log2Aux f (n / 2) = p at a b ⊢
      constructor <;> omega

theorem F64.log2n_spec (n : Nat) (hn : 0 < n) :
    2 ^ F64.log2n n ≤ n ∧ n < 2 ^ (F64.log2n n + 1) :=
  F64.log2Aux_spec n n hn (le_refl n)

/-- The integer part of the binary logarithm, for a positive rational: the power of
two at or below it. -/
theorem F64.ilog2_spec (x : ℚ) (hx : 0 < x) :
    F64.pow2 (F64.ilog2 x) ≤ x ∧ x < F64.pow2 (F64.ilog2 x + 1) := by
  have hnum : 0 < x.num := Rat.num_pos.mpr hx
  have hden : 0 < x.den := x.den_pos
  obtain ⟨a1, a2⟩ := F64.log2n_spec x.num.natAbs (by omega)
  obtain ⟨b1, b2⟩ := F64.log2n_spec x.den hden
  generalize hA : F64.log2n x.num.natAbs = A at a1 a2
  generalize hB : F64.log2n x.den = B at b1 b2
  have hxe : x = (x.num.natAbs : ℚ) / (x.den : ℚ) := by
    have h1 : ((x.num.natAbs : Nat) : ℚ) = (x.num : ℚ) := by
      rw [← Int.cast_natCast, Int.natAbs_of_nonneg hnum.le]
    rw [h1]
    exact (Rat.num_div_den x).symm
  have hdq : (0 : ℚ) < (x.den : ℚ) := by exact_mod_cast hden
  have qa1 : ((2 : ℚ) ^ A) ≤ (x.num.natAbs : ℚ) := by exact_mod_cast a1
  have qa2 : (x.num.natAbs : ℚ) < (2 : ℚ) ^ (A + 1) := by exact_mod_cast a2
  have qb1 : ((2 : ℚ) ^ B) ≤ (x.den : ℚ) := by exact_mod_cast b1
  have qb2 : (x.den : ℚ) < (2 : ℚ) ^ (B + 1) := by exact_mod_cast b2
  have pB : (0 : ℚ) < (2 : ℚ) ^ B := by positivity
  have pk : ∀ d : Int, F64.pow2 ((A : Int) - (B : Int) + d)
      = (2 : ℚ) ^ A / (2 : ℚ) ^ B * F64.pow2 d := by
    intro d
    rw [F64.pow2_add, F64.pow2_eq ((A : Int) - (B : Int)), zpow_sub₀ (by norm_num)]
    simp
  -- the bounds around the first guess
  have up : x < F64.pow2 ((A : Int) - (B : Int) + 1) := by
    rw [pk 1, F64.pow2_eq 1, hxe, div_lt_iff₀ hdq]
    have : (2 : ℚ) ^ A / (2 : ℚ) ^ B * (2 : ℚ) ^ (1 : Int) * (x.den : ℚ)
        = (2 : ℚ) ^ (A + 1) * ((x.den : ℚ) / (2 : ℚ) ^ B) := by
      field_simp
      ring
    rw [this]
    have h1 : (1 : ℚ) ≤ (x.den : ℚ) / (2 : ℚ) ^ B := by
      rw [le_div_iff₀ pB]
      linarith
    have h2 : (0 : ℚ) < (2 : ℚ) ^ (A + 1) := by positivity
    nlinarith
  have lo : F64.pow2 ((A : Int) - (B : Int) + (-1)) ≤ x := by
    rw [pk (-1), F64.pow2_eq (-1), hxe, le_div_iff₀ hdq]
    have : (2 : ℚ) ^ A / (2 : ℚ) ^ B * (2 : ℚ) ^ (-1 : Int) * (x.den : ℚ)
        = (2 : ℚ) ^ A * ((x.den : ℚ) / (2 : ℚ) ^ (B + 1)) := by
      rw [zpow_neg_one, pow_succ]
      field_simp
    rw [this]
    have h1 : (x.den : ℚ) / (2 : ℚ) ^ (B + 1) ≤ 1 := by
      rw [div_le_iff₀ (by positivity)]
      linarith
    have h2 : (0 : ℚ) < (2 : ℚ) ^ A := by positivity
    nlinarith
  unfold F64.ilog2
  simp only [hA, hB]
  split_ifs with h
  · exact ⟨h, up⟩
  · push_neg at h
    have e1 : (A : Int) - (B : Int) - 1 = (A : Int) - (B : Int) + (-1) := by ring
    have e2 : (A : Int) - (B : Int) - 1 + 1 = (A : Int) - (B : Int) := by ring
    rw [e2, e1]
    exact ⟨lo, h⟩

/-- Rounding on a grid of the magnitudes: when `x / 2^(j - 1074)` lies from `2^52` to
`2^53`, or below `2^52` with `j` zero, the bits `round (x / 2^(j - 1074)) + j * 2^52`
stand for the rounded multiple of `2^(j - 1074)`, and no magnitude is nearer to `x`. -/
theorem F64.grid_nearest (j : Nat) (x : ℚ) (hx : 0 < x)
    (hr : (j = 0 ∧ x / F64.pow2 ((j : Int) - 1074) < 4503599627370496) ∨
      (4503599627370496 ≤ x / F64.pow2 ((j : Int) - 1074) ∧
        x / F64.pow2 ((j : Int) - 1074) < 9007199254740992)) :
    F64.mag ((roundHalfEven (x / F64.pow2 ((j : Int) - 1074))).toNat + j * 4503599627370496)
      = (roundHalfEven (x / F64.pow2 ((j : Int) - 1074)) : ℚ) * F64.pow2 ((j : Int) - 1074) ∧
    ∀ c : Nat,
      |F64.mag ((roundHalfEven (x / F64.pow2 ((j : Int) - 1074))).toNat
          + j * 4503599627370496) - x| ≤ |F64.mag c - x| := by
  have hg := F64.pow2_pos ((j : Int) - 1074)
  generalize hgd : F64.pow2 ((j : Int) - 1074) = g at hg hr ⊢
  have ht0 : 0 < x / g := div_pos hx hg
  have hxt : x = x / g * g := by field_simp
  generalize x / g = t at hr ht0 hxt
  subst hxt
  -- the integer part of `t`
  have hfl0 : 0 ≤ ⌊t⌋ := Int.floor_nonneg.mpr ht0.le
  obtain ⟨fl, hfl⟩ := Int.eq_ofNat_of_zero_le hfl0
  have f1 : (fl : ℚ) ≤ t := by
    have := Int.floor_le t
    rw [hfl] at this
    exact_mod_cast this
  have f2 : t < (fl : ℚ) + 1 := by
    have := Int.lt_floor_add_one t
    rw [hfl] at this
    exact_mod_cast this
  have hflr : (j = 0 ∧ fl < 4503599627370496) ∨
      (4503599627370496 ≤ fl ∧ fl < 9007199254740992) := by
    rcases hr with ⟨h1, h2⟩ | ⟨h1, h2⟩
    · left
      refine ⟨h1, ?_⟩
      have : (fl : ℚ) < 4503599627370496 := by linarith
      exact_mod_cast this
    · right
      constructor
      · have h3 : ((4503599627370496 : Int) : ℚ) ≤ t := by exact_mod_cast h1
        have := Int.le_floor.mpr h3
        omega
      · have : (fl : ℚ) < 9007199254740992 := by linarith
        exact_mod_cast this
  have elo := F64.mag_encode j fl (by omega)
  have ehi := F64.mag_encode j (fl + 1) (by omega)
  rw [hgd] at elo ehi
  have n1 := roundHalfEven_nearest t fl
  have n2 := roundHalfEven_nearest t (fl + 1)
  have c1 : (((fl : Int)) : ℚ) = (fl : ℚ) := Int.cast_natCast fl
  have c2 : (((fl + 1 : Int)) : ℚ) = (fl : ℚ) + 1 := by push_cast; rfl
  rw [c1, abs_of_nonpos (by linarith : (fl : ℚ) - t ≤ 0)] at n1
  rw [c2, abs_of_nonneg (by linarith : 0 ≤ (fl : ℚ) + 1 - t)] at n2
  have hval : F64.mag ((roundHalfEven t).toNat + j * 4503599627370496)
      = (roundHalfEven t : ℚ) * g := by
    rcases roundHalfEven_floor t with h | h
    · rw [h, hfl, Int.toNat_ofNat, elo, c1]
    · have e : (⌊t⌋ + 1).toNat = fl + 1 := by omega
      rw [h, e, ehi, hfl, c2]
      push_cast
      ring
  refine ⟨hval, fun c => ?_⟩
  rw [hval]
  have hd : |(roundHalfEven t : ℚ) * g - t * g| = |(roundHalfEven t : ℚ) - t| * g := by
    rw [← sub_mul, abs_mul, abs_of_pos hg]
  rw [hd]
  by_cases hc : c ≤ fl + j * 4503599627370496
  · have h1 := F64.mag_mono hc
    rw [elo] at h1
    have h2 : t * g - F64.mag c ≤ |F64.mag c - t * g| := by
      rw [abs_sub_comm]
      exact le_abs_self _
    have h3 : |(roundHalfEven t : ℚ) - t| * g ≤ (-((fl : ℚ) - t)) * g :=
      mul_le_mul_of_nonneg_right n1 hg.le
    linarith
  · have h1 := F64.mag_mono (by omega : fl + 1 + j * 4503599627370496 ≤ c)
    rw [ehi] at h1
    have h2 : F64.mag c - t * g ≤ |F64.mag c - t * g| := le_abs_self _
    have h3 : |(roundHalfEven t : ℚ) - t| * g ≤ ((fl : ℚ) + 1 - t) * g :=
      mul_le_mul_of_nonneg_right n2 hg.le
    push_cast at h1
    linarith

theorem F64.pow2_52 : F64.pow2 52 = 4503599627370496 := by
  rw [F64.pow2_eq]
  norm_num

/-- No `float64` magnitude is nearer to `x` than the one `roundBits` gives. -/
theorem F64.roundBits_nearest (x : ℚ) (hx : 0 ≤ x) (c : Nat) :
    |F64.mag (F64.roundBits x) - x| ≤ |F64.mag c - x| := by
  rcases hx.eq_or_lt with h0 | hpos
  · subst h0
    simp [F64.roundBits, F64.mag_zero]
  obtain ⟨k1, k2⟩ := F64.ilog2_spec x hpos
  unfold F64.roundBits
  rw [if_neg (not_le.mpr hpos)]
  simp only
  generalize F64.ilog2 x = k at k1 k2
  by_cases hk : -1074 ≤ k - 52
  · -- a normal value: the grid of the binade
    have hee : max (k - 52) (-1074) = k - 52 := max_eq_left hk
    rw [hee]
    obtain ⟨j, hj⟩ := Int.eq_ofNat_of_zero_le (by omega : 0 ≤ k - 52 + 1074)
    have hj2 : k - 52 = (j : Int) - 1074 := by omega
    rw [hj, Int.toNat_ofNat, hj2]
    have g := F64.pow2_pos ((j : Int) - 1074)
    refine (F64.grid_nearest j x hpos (Or.inr ⟨?_, ?_⟩)).2 c
    · rw [le_div_iff₀ g, ← F64.pow2_52, ← F64.pow2_add]
      have : (52 : Int) + ((j : Int) - 1074) = k := by omega
      rw [this]
      exact k1
    · rw [div_lt_iff₀ g]
      have e : (9007199254740992 : ℚ) = F64.pow2 (52 + 1) := by
        rw [F64.pow2_succ, F64.pow2_52]
        norm_num
      rw [e, ← F64.pow2_add]
      have : (52 : Int) + 1 + ((j : Int) - 1074) = k + 1 := by omega
      rw [this]
      exact k2
  · -- a subnormal value: the grid of `2^-1074`
    have hee : max (k - 52) (-1074) = -1074 := max_eq_right (by omega)
    rw [hee]
    have g := F64.pow2_pos (((0 : Nat) : Int) - 1074)
    have := (F64.grid_nearest 0 x hpos (Or.inl ⟨rfl, ?_⟩)).2 c
    · simpa using this
    · rw [div_lt_iff₀ g, ← F64.pow2_52, ← F64.pow2_add]
      exact lt_of_lt_of_le k2 (F64.pow2_le (by push_cast; omega))

/-- A `float64` magnitude is rounded to itself. -/
theorem F64.roundBits_mag (b : Nat) : F64.roundBits (F64.mag b) = b := by
  have h := F64.roundBits_nearest (F64.mag b) (F64.mag_nonneg b) b
  rw [sub_self, abs_zero] at h
  have h2 := abs_nonneg (F64.mag (F64.roundBits (F64.mag b)) - F64.mag b)
  have h3 : F64.mag (F64.roundBits (F64.mag b)) - F64.mag b = 0 :=
    abs_eq_zero.mp (le_antisymm h h2)
  exact F64.mag_inj (by linarith)

theorem F64.ofMag_mag (s : Bool) (b : Fin 9218868437227405312) :
    F64.ofMag s (F64.mag b.val) = F64.finite s b := by
  unfold F64.ofMag
  have h := F64.roundBits_mag b.val
  rw [dif_pos (by rw [h]; exact b.isLt)]
  congr 1
  exact Fin.ext h

/-! ## Facts about float64 values -/

theorem F64.toRat_zero : F64.toRat F64.zero = 0 := by
  simp [F64.toRat, F64.zero, F64.mag_zero]

theorem F64.toRat_minusOne : F64.toRat F64.minusOne = -1 := by decide!

theorem F64.gt_zero_finite {s : Bool} {b : Fin 9218868437227405312}
    (h : F64.gt (F64.finite s b) F64.zero = true) : s = false ∧ b.val ≠ 0 := by
  simp only [F64.gt, F64.lt, F64.zero, F64.toRat, F64.mag_zero, decide_eq_true_eq,
    Bool.false_eq_true, if_false] at h
  cases s
  · refine ⟨rfl, fun hb => ?_⟩
    rw [hb, F64.mag_zero] at h
    simp at h
  · have := F64.mag_nonneg b.val
    simp only [if_true] at h
    linarith

theorem F64.gt_zero_of_finite {b : Fin 9218868437227405312} (h : b.val ≠ 0) :
    F64.gt (F64.finite false b) F64.zero = true := by
  simp only [F64.gt, F64.lt, F64.zero, F64.toRat, F64.mag_zero, decide_eq_true_eq,
    Bool.false_eq_true, if_false]
  exact F64.mag_pos h

theorem F64.lt_zero_of_gt_zero {v : F64} (h : F64.gt v F64.zero = true) :
    F64.lt v F64.zero = false := by
  cases v with
  | finite s b =>
    obtain ⟨rfl, -⟩ := F64.gt_zero_finite h
    have := F64.mag_nonneg b.val
    simp only [F64.lt, F64.zero, F64.toRat, F64.mag_zero, decide_eq_false_iff_not,
      Bool.false_eq_true, if_false]
    linarith
  | inf b => cases b <;> simp_all [F64.gt, F64.lt, F64.zero]
  | nan => simp [F64.lt, F64.zero]

theorem F64.gt_neg_of_gt_zero {v : F64} (h : F64.gt v F64.zero = true) :
    F64.gt (F64.neg v) F64.zero = false := by
  cases v with
  | finite s b =>
    obtain ⟨rfl, -⟩ := F64.gt_zero_finite h
    have := F64.mag_nonneg b.val
    simp only [F64.gt, F64.neg, F64.lt, F64.zero, F64.toRat, F64.mag_zero,
      decide_eq_false_iff_not, Bool.not_false, if_true, Bool.false_eq_true, if_false]
    linarith
  | inf b => cases b <;> simp_all [F64.gt, F64.lt, F64.zero, F64.neg]
  | nan => simp [F64.gt, F64.lt, F64.zero, F64.neg]

theorem F64.abs_neg_of_gt_zero {v : F64} (h : F64.gt v F64.zero = true) :
    F64.abs (F64.neg v) = v := by
  cases v with
  | finite s b =>
    obtain ⟨rfl, -⟩ := F64.gt_zero_finite h
    rfl
  | inf b => cases b <;> simp_all [F64.gt, F64.lt, F64.zero, F64.neg, F64.abs]
  | nan => simp [F64.gt, F64.lt, F64.zero] at h

theorem F64.abs_of_gt_zero {v : F64} (h : F64.gt v F64.zero = true) : F64.abs v = v := by
  cases v with
  | finite s b =>
    obtain ⟨rfl, -⟩ := F64.gt_zero_finite h
    rfl
  | inf b => cases b <;> simp_all [F64.gt, F64.lt, F64.zero, F64.abs]
  | nan => simp [F64.gt, F64.lt, F64.zero] at h

/-- A value that is not positive is the negation of its magnitude, except `+0`, whose
magnitude negated is `-0`. -/
theorem F64.neg_abs_of_not_gt_zero {v : F64} (h : F64.gt v F64.zero = false)
    (hz : v ≠ F64.zero) : F64.neg (F64.abs v) = v := by
  cases v with
  | finite s b =>
    cases s
    · exfalso
      by_cases hb : b.val = 0
      · apply hz
        unfold F64.zero
        congr 1
        exact Fin.ext hb
      · rw [F64.gt_zero_of_finite hb] at h
        cases h
    · rfl
  | inf b => cases b <;> simp_all [F64.gt, F64.lt, F64.zero, F64.neg, F64.abs]
  | nan => simp [F64.neg, F64.abs]

theorem F64.gt_zero_of_lt_zero {v : F64} (h : F64.lt v F64.zero = true) :
    F64.gt v F64.zero = false := by
  cases v with
  | finite s b =>
    simp only [F64.gt, F64.lt, F64.zero, decide_eq_true_eq, decide_eq_false_iff_not] at h ⊢
    exact not_lt.mpr h.le
  | inf b => cases b <;> simp_all [F64.gt, F64.lt, F64.zero]
  | nan => simp [F64.lt, F64.zero] at h

theorem F64.not_gt_zero_of_eq_minusOne {v : F64} (h : F64.eq v F64.minusOne = true) :
    F64.gt v F64.zero = false := by
  have hm : F64.minusOne = F64.finite true ⟨4607182418800017408, by decide⟩ := by decide!
  rw [hm] at h
  cases v with
  | finite s b =>
    have h1 := F64.toRat_minusOne
    rw [hm] at h1
    simp only [F64.eq, decide_eq_true_eq] at h
    have h0 := F64.toRat_zero
    unfold F64.zero at h0
    simp only [F64.gt, F64.lt, F64.zero, decide_eq_false_iff_not]
    rw [h, h1, h0]
    norm_num
  | inf b => simp [F64.eq] at h
  | nan => simp [F64.eq] at h

/-- A value equal to zero is one of the two zeros. -/
theorem F64.eq_zero {v : F64} (h : F64.eq v F64.zero = true) :
    v = F64.zero ∨ v = F64.neg F64.zero := by
  cases v with
  | finite s b =>
    have h0 := F64.toRat_zero
    unfold F64.zero at h0 h
    simp only [F64.eq, decide_eq_true_eq] at h
    rw [h0] at h
    have hb : b.val = 0 := by
      apply F64.mag_eq_zero
      cases s
      · simpa [F64.toRat] using h
      · simpa [F64.toRat] using h
    have hb2 : b = ⟨0, by decide⟩ := Fin.ext hb
    subst hb2
    cases s
    · left; rfl
    · right; rfl
  | inf b => simp [F64.eq, F64.zero] at h
  | nan => simp [F64.eq, F64.zero] at h

/-- Closed facts about the constants of the program. -/
theorem F64.constants :
    F64.eq F64.minusOne F64.minusOne = true ∧
    F64.gt F64.zero F64.zero = false ∧
    F64.lt F64.zero F64.zero = false ∧
    F64.gt F64.minusOne F64.zero = false ∧
    F64.lt F64.minusOne F64.zero = true ∧
    F64.abs F64.minusOne = F64.fin 1 ∧
    F64.eq F64.zero F64.zero = true ∧
    F64.eq F64.zero F64.minusOne = false ∧
    F64.fin 0 = F64.zero := by
  decide!

/-! ## Facts about maps -/

theorem GoMap.lookup_set_same (m : GoMap) (k : Time) (v : F64) :
    (m.set k v).lookup k = some v := by
  simp [GoMap.set]

theorem GoMap.lookup_set_ne (m : GoMap) {k k2 : Time} (v : F64) (h : k2 ≠ k) :
    (m.set k v).lookup k2 = m.lookup k2 := by
  simp [GoMap.set, AList.lookup_insert_ne h]

theorem GoMap.get_of_lookup {m : GoMap} {k : Time} {v : F64} (h : m.lookup k = some v) :
    m.get k = v := by
  simp [GoMap.get, h]

theorem GoMap.has_of_lookup {m : GoMap} {k : Time} {v : F64} (h : m.lookup k = some v) :
    m.has k = true := by
  simp [GoMap.has, h]

/-! ## Facts about the action and the loop body -/

/-- The value the action stores, as a function of what the resolver gave and of the
value held for the preceding frame. -/
theorem act_eq (api : Time → Except Abort F64) (des : GoMap) (sta : Time) (f64 : F64)
    (h : api sta = .ok f64) :
    act api des sta = .ok (des.set sta
      (if (F64.eq (if (F64.eq f64 F64.minusOne && F64.gt (des.get (sta.add (-dayLen))) F64.zero)
              then F64.neg (des.get (sta.add (-dayLen))) else f64) F64.minusOne
            && F64.lt (des.get (sta.add (-dayLen))) F64.zero)
        then des.get (sta.add (-dayLen))
        else (if (F64.eq f64 F64.minusOne && F64.gt (des.get (sta.add (-dayLen))) F64.zero)
              then F64.neg (des.get (sta.add (-dayLen))) else f64))) := by
  simp only [act, h, bind, Except.bind, pure, Except.pure]

theorem act_error (api : Time → Except Abort F64) (des : GoMap) (sta : Time) (a : Abort)
    (h : api sta = .error a) : act api des sta = .error a := by
  simp only [act, h, bind, Except.bind]

theorem act_ok_set {api : Time → Except Abort F64} {des d : GoMap} {sta : Time}
    (h : act api des sta = .ok d) : ∃ f, d = des.set sta f := by
  cases hf : api sta with
  | error a => rw [act_error api des sta a hf] at h; cases h
  | ok f64 =>
    rw [act_eq api des sta f64 hf] at h
    exact ⟨_, (Except.ok.inj h).symm⟩

@[simp] theorem afterErr_des (s : State) (e : BudErr) : (afterErr s e).des = s.des := by
  cases e <;> rfl

@[simp] theorem afterErr_cou (s : State) (e : BudErr) : (afterErr s e).cou = s.cou := by
  cases e <;> rfl

@[simp] theorem afterErr_calls (s : State) (e : BudErr) : (afterErr s e).calls = s.calls := by
  cases e <;> rfl

theorem execute_cou (W : World) (s : State) (sta : Time) : (execute W s sta).cou = s.cou := by
  unfold execute
  split
  · split <;> simp
  · simp

theorem execute_lookup_ne (W : World) (s : State) {sta k : Time} (h : k ≠ sta) :
    (execute W s sta).des.lookup k = s.des.lookup k := by
  unfold execute
  split
  · split
    · rfl
    · rename_i d hd
      obtain ⟨f, rfl⟩ := act_ok_set hd
      simpa using GoMap.lookup_set_ne _ _ h
  · simp

theorem execute_ran (W : World) (s : State) (sta : Time) (d : GoMap)
    (hr : (W.bud sta).ran = true) (ha : act W.api s.des sta = .ok d) :
    (execute W s sta).des = d ∧ (execute W s sta).calls = sta :: s.calls := by
  unfold execute
  simp [hr, ha]

theorem step_not_running (lim : Nat) (cur : GoMap) (W : World) (s : State) (sta : Time)
    (h : s.status ≠ .running) : step lim cur W s sta = s := by
  unfold step
  split
  · rename_i h2; exact absurd h2 h
  · rfl

theorem step_running (lim : Nat) (cur : GoMap) (W : World) (s : State) (sta : Time)
    (h : s.status = .running) :
    step lim cur W s sta =
      if cur.has sta && F64.gt (cur.get sta) F64.zero then
        { s with des := s.des.set sta (cur.get sta) }
      else if s.cou < lim then
        execute W { s with cou := if !cur.has sta then s.cou + 1 else s.cou } sta
      else s := by
  unfold step
  simp only [h]

theorem step_hit (lim : Nat) (cur : GoMap) (W : World) (s : State) (sta : Time) (v : F64)
    (hs : s.status = .running) (hc : cur.lookup sta = some v)
    (hv : F64.gt v F64.zero = true) :
    step lim cur W s sta = { s with des := s.des.set sta v } := by
  rw [step_running lim cur W s sta hs]
  simp [GoMap.get_of_lookup hc, GoMap.has_of_lookup hc, hv]

theorem step_ran (lim : Nat) (cur : GoMap) (W : World) (s : State) (sta : Time) (d : GoMap)
    (hs : s.status = .running)
    (hm : (cur.has sta && F64.gt (cur.get sta) F64.zero) = false) (hb : s.cou < lim)
    (hr : (W.bud sta).ran = true) (ha : act W.api s.des sta = .ok d) :
    (step lim cur W s sta).des = d ∧ (step lim cur W s sta).calls = sta :: s.calls := by
  rw [step_running lim cur W s sta hs]
  simp only [hm, hb, if_true, Bool.false_eq_true, if_false]
  exact execute_ran W _ sta d hr ha

theorem step_lookup_ne (lim : Nat) (cur : GoMap) (W : World) (s : State) {sta k : Time}
    (h : k ≠ sta) : (step lim cur W s sta).des.lookup k = s.des.lookup k := by
  by_cases hs : s.status = .running
  · rw [step_running lim cur W s sta hs]
    split
    · exact GoMap.lookup_set_ne _ _ h
    · split
      · exact execute_lookup_ne W _ h
      · rfl
  · rw [step_not_running lim cur W s sta hs]

theorem foldl_step_lookup (lim : Nat) (cur : GoMap) (W : World) (fra : List Time) (s : State)
    (k : Time) (h : k ∉ fra) :
    (fra.foldl (step lim cur W) s).des.lookup k = s.des.lookup k := by
  induction fra generalizing s with
  | nil => rfl
  | cons x xs ih =>
    rw [List.foldl_cons, ih _ (fun hk => h (List.mem_cons_of_mem _ hk))]
    exact step_lookup_ne lim cur W s (fun hk => h (hk ▸ List.mem_cons_self _ _))

/-! ## Facts about formatting and parsing -/

theorem digitChar_isDigit (k : Nat) (h : k < 10) :
    (Nat.digitChar k).isDigit = true ∧ (Nat.digitChar k).toNat - 48 = k := by
  interval_cases k <;> decide

/-- Reading digits from a value already read. -/
theorem foldlM_digits_from (b : List Char) (v : Nat) :
    b.foldlM (fun acc c => if c.isDigit then some (acc * 10 + (c.toNat - 48)) else none) v
      = (natOfDigits b).map (fun w => v * 10 ^ b.length + w) := by
  induction b generalizing v with
  | nil => simp [natOfDigits]
  | cons c b ih =>
    unfold natOfDigits
    rw [List.foldlM_cons, List.foldlM_cons]
    by_cases hc : c.isDigit = true
    · simp only [hc, if_true, Option.bind_eq_bind, Option.some_bind]
      rw [ih, ih (0 * 10 + (c.toNat - 48))]
      cases natOfDigits b with
      | none => rfl
      | some w =>
        simp only [Option.map_some', List.length_cons, Option.some.injEq]
        ring
    · simp [hc]

theorem natOfDigits_append (a b : List Char) :
    natOfDigits (a ++ b)
      = (natOfDigits a).bind (fun v => (natOfDigits b).map (fun w => v * 10 ^ b.length + w)) := by
  unfold natOfDigits
  rw [List.foldlM_append]
  cases h : a.foldlM (fun acc c => if c.isDigit then some (acc * 10 + (c.toNat - 48)) else none) 0 with
  | none => rfl
  | some v =>
    simp only [Option.bind_eq_bind, Option.some_bind]
    exact foldlM_digits_from b v

theorem toDigitsCore_acc (fuel n : Nat) (ds : List Char) :
    Nat.toDigitsCore 10 fuel n ds = Nat.toDigitsCore 10 fuel n [] ++ ds := by
  induction fuel generalizing n ds with
  | zero => simp [Nat.toDigitsCore]
  | succ f ih =>
    simp only [Nat.toDigitsCore]
    split
    · simp
    · rw [ih, ih (n / 10) [_]]
      simp

theorem natOfDigits_toDigitsCore (fuel n : Nat) (h : n < fuel) :
    natOfDigits (Nat.toDigitsCore 10 fuel n []) = some n := by
  induction fuel generalizing n with
  | zero => omega
  | succ f ih =>
    have hd := digitChar_isDigit (n % 10) (Nat.mod_lt _ (by decide))
    simp only [Nat.toDigitsCore]
    split
    · rename_i h0
      simp only [natOfDigits, List.foldlM_cons, List.foldlM_nil, hd.1, if_true, hd.2,
        Option.bind_eq_bind, Option.some_bind, pure, Option.some.injEq]
      omega
    · rename_i h0
      rw [toDigitsCore_acc, natOfDigits_append, ih (n / 10) (by omega)]
      simp only [Option.some_bind, natOfDigits, List.foldlM_cons, List.foldlM_nil, hd.1,
        if_true, hd.2, Option.bind_eq_bind, pure, Option.map_some', List.length_singleton,
        Option.some.injEq]
      omega

theorem natOfDigits_repr (n : Nat) : natOfDigits (Nat.repr n).data = some n :=
  natOfDigits_toDigitsCore (n + 1) n (Nat.lt_succ_self n)

theorem digits_all (l : List Char) (acc v : Nat)
    (h : l.foldlM (fun acc c => if c.isDigit then some (acc * 10 + (c.toNat - 48)) else none) acc
      = some v) : ∀ c ∈ l, c.isDigit = true := by
  induction l generalizing acc with
  | nil => simp
  | cons x l ih =>
    rw [List.foldlM_cons] at h
    by_cases hx : x.isDigit = true
    · simp only [hx, if_true, Option.bind_eq_bind, Option.some_bind] at h
      intro c hc
      rcases List.mem_cons.mp hc with rfl | hc
      · exact hx
      · exact ih _ h c hc
    · simp [hx] at h

theorem repr_ne_nil (n : Nat) : (Nat.repr n).data ≠ [] := by
  show Nat.toDigitsCore 10 (n + 1) n [] ≠ []
  simp only [Nat.toDigitsCore]
  split
  · simp
  · rw [toDigitsCore_acc]
    simp

theorem takeWhile_digits (a b : List Char) (x : Char) (ha : ∀ c ∈ a, c.isDigit = true)
    (hx : x.isDigit = false) :
    (a ++ x :: b).takeWhile Char.isDigit = a ∧ (a ++ x :: b).dropWhile Char.isDigit = x :: b := by
  induction a with
  | nil => simp [List.takeWhile, List.dropWhile, hx]
  | cons c a ih =>
    have hc := ha c (List.mem_cons_self _ _)
    have := ih (fun c hc => ha c (List.mem_cons_of_mem _ hc))
    simp [List.takeWhile, List.dropWhile, hc, this.1, this.2]

theorem takeWhile_all_digits (a : List Char) (ha : ∀ c ∈ a, c.isDigit = true) :
    a.takeWhile Char.isDigit = a ∧ a.dropWhile Char.isDigit = [] := by
  induction a with
  | nil => simp
  | cons c a ih =>
    have hc := ha c (List.mem_cons_self _ _)
    have := ih (fun c hc => ha c (List.mem_cons_of_mem _ hc))
    simp [List.takeWhile, List.dropWhile, hc, this.1, this.2]

theorem toLower_digit (c : Char) (hc : c.isDigit = true) : c.toLower = c := by
  simp only [Char.isDigit, Bool.and_eq_true, decide_eq_true_eq] at hc
  unfold Char.toLower
  have h1 : c.val.toNat ≤ 57 := by
    have := hc.2
    exact this
  have h2 : ¬ (c.toNat ≥ 65 ∧ c.toNat ≤ 90) := by
    intro h
    have : c.toNat = c.val.toNat := rfl
    omega
  simp only [h2, if_false]

/-- A decimal literal made of digits, a point and digits is read as the `float64`
nearest to its value. -/
theorem parseFloat_digits (D F : List Char) (ip fp : Nat) (hD : natOfDigits D = some ip)
    (hne : D ≠ []) (hF : natOfDigits F = some fp) :
    parseFloat (String.mk (D ++ '.' :: F))
      = ofLit false (((ip * 10 ^ F.length + fp : Nat) : ℚ) / (10 : ℚ) ^ F.length) := by
  have hDd := digits_all D 0 ip hD
  have hFd := digits_all F 0 fp hF
  obtain ⟨c, D', rfl⟩ := List.exists_cons_of_ne_nil hne
  have hc : c.isDigit = true := hDd c (List.mem_cons_self _ _)
  have hn : c ≠ 'n' := by rintro rfl; revert hc; decide
  have hi : c ≠ 'i' := by rintro rfl; revert hc; decide
  have hp : c ≠ '+' := by rintro rfl; revert hc; decide
  have hm : c ≠ '-' := by rintro rfl; revert hc; decide
  have hdot : ('.' : Char).isDigit = false := by decide
  have htw := takeWhile_digits (c :: D') F '.' hDd hdot
  have htf := takeWhile_all_digits F hFd
  have hval : natOfDigits (c :: D' ++ F) = some (ip * 10 ^ F.length + fp) := by
    rw [natOfDigits_append, hD, hF]
    rfl
  have hpu : parseUnsigned (c :: D' ++ '.' :: F)
      = some (((ip * 10 ^ F.length + fp : Nat) : ℚ) / (10 : ℚ) ^ F.length) := by
    unfold parseUnsigned
    simp only [htw.1, htw.2, htf.1, htf.2, hval, parseExp]
    simp
  have hd : ∀ (x : Char) (l : List Char), c ≠ x →
      ¬ ((String.mk (c :: D' ++ '.' :: F)).data.map Char.toLower = x :: l) := by
    intro x l hx h
    simp only [List.cons_append, List.map_cons, toLower_digit c hc, List.cons.injEq] at h
    exact hx h.1
  unfold parseFloat
  simp only
  rw [if_neg (hd _ _ hn), if_neg (by
    intro h
    rcases h with h | h | h | h
    · exact hd _ _ hi h
    · exact hd _ _ hp h
    · exact hd _ _ hi h
    · exact hd _ _ hp h), if_neg (by
    intro h
    rcases h with h | h
    · exact hd _ _ hm h
    · exact hd _ _ hm h)]
  show (match c :: D' ++ '.' :: F with
    | '-' :: cs => (parseUnsigned cs).bind (ofLit true)
    | '+' :: cs => (parseUnsigned cs).bind (ofLit false)
    | cs => (parseUnsigned cs).bind (ofLit false)) = _
  split
  · rename_i h
    simp at h
    exact absurd h.1 hm
  · rename_i h
    simp at h
    exact absurd h.1 hp
  · rw [hpu]
    rfl

theorem natOfDigits_zeros (j : Nat) : natOfDigits (List.replicate j '0') = some 0 := by
  induction j with
  | zero => rfl
  | succ j ih =>
    have h0 : ('0' : Char).isDigit = true := by decide
    have h1 : ('0' : Char).toNat - 48 = 0 := by decide
    rw [List.replicate_succ]
    unfold natOfDigits at ih ⊢
    rw [List.foldlM_cons]
    simp only [h0, if_true, h1, Option.bind_eq_bind, Option.some_bind]
    exact ih

theorem pad_data (w n : Nat) :
    (pad w n).data = List.replicate (w - (Nat.repr n).length) '0' ++ (Nat.repr n).data := by
  simp [pad, String.data_append]

theorem natOfDigits_pad (w n : Nat) : natOfDigits (pad w n).data = some n := by
  rw [pad_data, natOfDigits_append, natOfDigits_zeros, natOfDigits_repr]
  simp

theorem pad_length (w n : Nat) (hw : 0 < w) (h : n < 10 ^ w) : (pad w n).data.length = w := by
  have := Nat.repr_length n w hw h
  rw [pad_data, List.length_append, List.length_replicate]
  have e : (Nat.repr n).data.length = (Nat.repr n).length := rfl
  omega

theorem roundHalfEven_natCast (n : Nat) : roundHalfEven (n : ℚ) = n := by
  unfold roundHalfEven
  have hf : Int.floor (n : ℚ) = (n : Int) := Int.floor_natCast n
  simp only [hf]
  have h0 : ((n : ℚ) - ((n : Int) : ℚ)) = 0 := by simp
  rw [h0]
  norm_num

theorem yearDay_core (a n400 d q100 n100 d1 n4 d2 q1 n1 y yday : Int)
    (h1 : n400 = a / 146097) (h2 : d = a % 146097) (h3 : q100 = d / 36524)
    (h4 : n100 = q100 - q100 / 4) (h5 : d1 = d - 36524 * n100) (h6 : n4 = d1 / 1461)
    (h7 : d2 = d1 - 1461 * n4) (h8 : q1 = d2 / 365) (h9 : n1 = q1 - q1 / 4)
    (h10 : y = 400 * n400 + 100 * n100 + 4 * n4 + n1 + 1) (h11 : yday = d2 - 365 * n1) :
    0 ≤ yday ∧ yday ≤ (if isLeap y then 365 else 364) ∧
    365 * (y - 1) + (y - 1) / 4 - (y - 1) / 100 + (y - 1) / 400 + yday = a := by
  have b1 : 0 ≤ d ∧ d < 146097 ∧ a = 146097 * n400 + d := by omega
  have b2 : 0 ≤ q100 ∧ q100 ≤ 4 := by omega
  have b3 : 0 ≤ n100 ∧ n100 ≤ 3 ∧ 0 ≤ d1 ∧ d1 ≤ 36524 ∧ (n100 < 3 → d1 < 36524) := by omega
  have b4 : 0 ≤ n4 ∧ n4 ≤ 24 ∧ 0 ≤ d2 ∧ d2 ≤ 1460 ∧ (n4 = 24 → n100 < 3 → d2 < 1460) := by
    omega
  have b5 : 0 ≤ q1 ∧ q1 ≤ 4 := by omega
  have b6 : 0 ≤ n1 ∧ n1 ≤ 3 ∧ 0 ≤ yday ∧ yday ≤ 365 ∧ (yday = 365 → n1 = 3 ∧ d2 = 1460) := by
    omega
  have c4 : (y - 1) / 4 = 100 * n400 + 25 * n100 + n4 := by omega
  have c100 : (y - 1) / 100 = 4 * n400 + n100 := by omega
  have c400 : (y - 1) / 400 = n400 := by omega
  refine ⟨b6.2.2.1, ?_, by omega⟩
  unfold isLeap
  split
  · omega
  · rename_i hl
    simp only [decide_eq_true_eq] at hl
    omega

theorem yearDay_spec (z : Int) :
    0 ≤ (yearDay z).2 ∧
    (yearDay z).2 ≤ (if isLeap (yearDay z).1 then 365 else 364) ∧
    365 * ((yearDay z).1 - 1) + ((yearDay z).1 - 1) / 4 - ((yearDay z).1 - 1) / 100
      + ((yearDay z).1 - 1) / 400 + (yearDay z).2 = z + 719162 :=
  yearDay_core (z + 719162) _ _ _ _ _ _ _ _ _ _ _ rfl rfl rfl rfl rfl rfl rfl rfl rfl rfl rfl

theorem daysBefore_vals (leap : Bool) :
    daysBefore leap 1 = 0 ∧ daysBefore leap 2 = 31 ∧
    daysBefore leap 3 = 59 + (if leap then 1 else 0) ∧
    daysBefore leap 4 = 90 + (if leap then 1 else 0) ∧
    daysBefore leap 5 = 120 + (if leap then 1 else 0) ∧
    daysBefore leap 6 = 151 + (if leap then 1 else 0) ∧
    daysBefore leap 7 = 181 + (if leap then 1 else 0) ∧
    daysBefore leap 8 = 212 + (if leap then 1 else 0) ∧
    daysBefore leap 9 = 243 + (if leap then 1 else 0) ∧
    daysBefore leap 10 = 273 + (if leap then 1 else 0) ∧
    daysBefore leap 11 = 304 + (if leap then 1 else 0) ∧
    daysBefore leap 12 = 334 + (if leap then 1 else 0) ∧
    daysBefore leap 13 = 365 + (if leap then 1 else 0) := by
  cases leap <;> decide

theorem monthOf_spec (leap : Bool) (yday : Int) (h0 : 0 ≤ yday)
    (h1 : yday ≤ (if leap then 365 else 364)) :
    ∃ k, monthOf leap yday = k ∧ 1 ≤ k ∧ k ≤ 12 ∧
      daysBefore leap k ≤ yday ∧ yday < daysBefore leap (k + 1) := by
  have v1 : daysBefore leap 1 = 0 := (daysBefore_vals leap).1
  have v13 : yday < daysBefore leap (12 + 1) := by
    cases leap
    · have : daysBefore false (12 + 1) = 365 := by decide
      rw [this]
      have h := h1
      simp only [Bool.false_eq_true, if_false] at h
      omega
    · have : daysBefore true (12 + 1) = 366 := by decide
      rw [this]
      have h := h1
      simp only [if_true] at h
      omega
  unfold monthOf
  by_cases h2 : yday < daysBefore leap 2
  · exact ⟨1, by rw [if_pos h2], by decide, by decide, by rw [v1]; exact h0, h2⟩
  rw [if_neg h2]
  by_cases h3 : yday < daysBefore leap 3
  · exact ⟨2, by rw [if_pos h3], by decide, by decide, not_lt.mp h2, h3⟩
  rw [if_neg h3]
  by_cases h4 : yday < daysBefore leap 4
  · exact ⟨3, by rw [if_pos h4], by decide, by decide, not_lt.mp h3, h4⟩
  rw [if_neg h4]
  by_cases h5 : yday < daysBefore leap 5
  · exact ⟨4, by rw [if_pos h5], by decide, by decide, not_lt.mp h4, h5⟩
  rw [if_neg h5]
  by_cases h6 : yday < daysBefore leap 6
  · exact ⟨5, by rw [if_pos h6], by decide, by decide, not_lt.mp h5, h6⟩
  rw [if_neg h6]
  by_cases h7 : yday < daysBefore leap 7
  · exact ⟨6, by rw [if_pos h7], by decide, by decide, not_lt.mp h6, h7⟩
  rw [if_neg h7]
  by_cases h8 : yday < daysBefore leap 8
  · exact ⟨7, by rw [if_pos h8], by decide, by decide, not_lt.mp h7, h8⟩
  rw [if_neg h8]
  by_cases h9 : yday < daysBefore leap 9
  · exact ⟨8, by rw [if_pos h9], by decide, by decide, not_lt.mp h8, h9⟩
  rw [if_neg h9]
  by_cases h10 : yday < daysBefore leap 10
  · exact ⟨9, by rw [if_pos h10], by decide, by decide, not_lt.mp h9, h10⟩
  rw [if_neg h10]
  by_cases h11 : yday < daysBefore leap 11
  · exact ⟨10, by rw [if_pos h11], by decide, by decide, not_lt.mp h10, h11⟩
  rw [if_neg h11]
  by_cases h12 : yday < daysBefore leap 12
  · exact ⟨11, by rw [if_pos h12], by decide, by decide, not_lt.mp h11, h12⟩
  rw [if_neg h12]
  exact ⟨12, rfl, by decide, by decide, not_lt.mp h12, v13⟩

theorem daysBefore_succ (y m : Int) (h1 : 1 ≤ m) (h2 : m ≤ 12) :
    daysBefore (isLeap y) (m + 1) - daysBefore (isLeap y) m = daysIn y m := by
  have hl : isLeap y = decide (y % 4 = 0 ∧ (y % 100 ≠ 0 ∨ y % 400 = 0)) := rfl
  by_cases h : y % 4 = 0 ∧ (y % 100 ≠ 0 ∨ y % 400 = 0)
  · rw [hl, decide_eq_true h]
    simp only [daysIn, if_pos h]
    interval_cases m <;> simp [daysBefore]
  · rw [hl, decide_eq_false h]
    simp only [daysIn, if_neg h]
    interval_cases m <;> simp [daysBefore]

/-- The calendar date of a day number is a valid date, and it is the date of that day
number only. -/
theorem civil_spec (z : Int) :
    1 ≤ (daysToCivil z).2.1 ∧ (daysToCivil z).2.1 ≤ 12 ∧ 1 ≤ (daysToCivil z).2.2 ∧
    (daysToCivil z).2.2 ≤ daysIn (daysToCivil z).1 (daysToCivil z).2.1 ∧
    (daysToCivil z).2.2 ≤ 31 ∧
    civilToDays (daysToCivil z).1 (daysToCivil z).2.1 (daysToCivil z).2.2 = z := by
  obtain ⟨y0, y1, y2⟩ := yearDay_spec z
  obtain ⟨k, hk, m1, m2, m3, m4⟩ := monthOf_spec (isLeap (yearDay z).1) (yearDay z).2 y0 y1
  have hs := daysBefore_succ (yearDay z).1 k m1 m2
  have hd : daysIn (yearDay z).1 k ≤ 31 := by
    unfold daysIn
    split_ifs <;> omega
  simp only [daysToCivil, civilToDays, hk]
  refine ⟨m1, m2, by omega, by omega, by omega, by omega⟩

theorem list_len_two (l : List Char) (h : l.length = 2) : ∃ a b, l = [a, b] := by
  match l, h with
  | [a, b], _ => exact ⟨a, b, rfl⟩

theorem list_len_four (l : List Char) (h : l.length = 4) : ∃ a b c d, l = [a, b, c, d] := by
  match l, h with
  | [a, b, c, d], _ => exact ⟨a, b, c, d, rfl⟩

/-- The reference parser on a string laid out as `YYYY-MM-DDThh:mm:ssZ`. -/
theorem parseTime_layout (Y M D H N S : List Char) (y m d h n c : Nat)
    (lY : Y.length = 4) (lM : M.length = 2) (lD : D.length = 2) (lH : H.length = 2)
    (lN : N.length = 2) (lS : S.length = 2)
    (vY : natOfDigits Y = some y) (vM : natOfDigits M = some m) (vD : natOfDigits D = some d)
    (vH : natOfDigits H = some h) (vN : natOfDigits N = some n) (vS : natOfDigits S = some c)
    (ok : 1 ≤ m ∧ m ≤ 12 ∧ 1 ≤ d ∧ (d : Int) ≤ daysIn y m ∧ h < 24 ∧ n < 60 ∧ c < 60) :
    parseTime (String.mk
        (Y ++ '-' :: (M ++ '-' :: (D ++ 'T' :: (H ++ ':' :: (N ++ ':' :: (S ++ ['Z'])))))))
      = some (civilToDays y m d * 86400 + h * 3600 + n * 60 + c) := by
  obtain ⟨y1, y2, y3, y4, rfl⟩ := list_len_four Y lY
  obtain ⟨m1, m2, rfl⟩ := list_len_two M lM
  obtain ⟨d1, d2, rfl⟩ := list_len_two D lD
  obtain ⟨h1, h2, rfl⟩ := list_len_two H lH
  obtain ⟨n1, n2, rfl⟩ := list_len_two N lN
  obtain ⟨s1, s2, rfl⟩ := list_len_two S lS
  unfold parseTime
  simp only [List.cons_append, List.nil_append, List.length_cons, List.length_nil,
    List.get?_cons_succ, List.get?_cons_zero, List.take_succ_cons, List.take_zero,
    List.drop_succ_cons, List.drop_zero, true_and, and_self, if_true, vY, vM, vD, vH, vN, vS,
    Option.bind_eq_bind, Option.some_bind, Nat.reduceAdd]
  rw [if_pos ok]

theorem fmtTime_data (t : Time) (hy : 0 ≤ t.year) :
    fmtTime t = String.mk ((pad 4 t.year.toNat).data ++ '-' :: ((pad 2 t.month.toNat).data ++
      '-' :: ((pad 2 t.day.toNat).data ++ 'T' :: ((pad 2 ((t % 86400).toNat / 3600)).data ++
      ':' :: ((pad 2 ((t % 86400).toNat % 3600 / 60)).data ++
      ':' :: ((pad 2 ((t % 86400).toNat % 60)).data ++ ['Z'])))))) := by
  apply String.ext
  simp [fmtTime, fmtYear, fmtMonth, not_lt.mpr hy, String.data_append]

/-- An instant of the years 0 to 9999 is read back from its RFC3339 form. -/
theorem parseTime_fmtTime (t : Time) (h0 : 0 ≤ t.year) (h1 : t.year ≤ 9999) :
    parseTime (fmtTime t) = some t := by
  obtain ⟨c1, c2, c3, c4, c5, c6⟩ := civil_spec (t / 86400)
  have e0 : 0 ≤ t % 86400 := Int.emod_nonneg _ (by decide)
  have e1 : t % 86400 < 86400 := Int.emod_lt_of_pos _ (by decide)
  have hy : ((t.year.toNat : Nat) : Int) = t.year := Int.toNat_of_nonneg h0
  have hm : ((t.month.toNat : Nat) : Int) = t.month :=
    Int.toNat_of_nonneg (le_trans (by decide) c1)
  have hd : ((t.day.toNat : Nat) : Int) = t.day :=
    Int.toNat_of_nonneg (le_trans (by decide) c3)
  have hs : (((t % 86400).toNat : Nat) : Int) = t % 86400 := Int.toNat_of_nonneg e0
  rw [fmtTime_data t h0, parseTime_layout _ _ _ _ _ _ t.year.toNat t.month.toNat t.day.toNat
    ((t % 86400).toNat / 3600) ((t % 86400).toNat % 3600 / 60) ((t % 86400).toNat % 60)
    (pad_length 4 _ (by decide) (by omega)) (pad_length 2 _ (by decide) (by
      have : t.month ≤ 12 := c2
      omega))
    (pad_length 2 _ (by decide) (by
      have : t.day ≤ 31 := c5
      omega))
    (pad_length 2 _ (by decide) (by omega)) (pad_length 2 _ (by decide) (by omega))
    (pad_length 2 _ (by decide) (by omega))
    (natOfDigits_pad _ _) (natOfDigits_pad _ _) (natOfDigits_pad _ _) (natOfDigits_pad _ _)
    (natOfDigits_pad _ _) (natOfDigits_pad _ _)
    (by
      have a1 : 1 ≤ t.month := c1
      have a2 : t.month ≤ 12 := c2
      have a3 : 1 ≤ t.day := c3
      have a4 : t.day ≤ daysIn t.year t.month := c4
      rw [hy, hm, hd]
      refine ⟨by omega, by omega, by omega, a4, by omega, by omega, by omega⟩)]
  have a6 : civilToDays t.year t.month t.day = t / 86400 := c6
  rw [hy, hm, hd, a6]
  congr 1
  omega

/-! ## Facts about writing a magnitude with five digits and reading it -/

/-- The five-digit rounding of a magnitude, read to the nearest `float64`, has the same
five-digit rounding: the magnitude it came from is a `float64` at least as near. -/
theorem digits_stable (b : Nat) :
    roundHalfEven (F64.mag (F64.roundBits
        (((roundHalfEven (F64.mag b * 100000)).toNat : ℚ) / 100000)) * 100000)
      = roundHalfEven (F64.mag b * 100000) := by
  have hu := F64.mag_nonneg b
  obtain ⟨s1, s2⟩ := roundHalfEven_spec (F64.mag b * 100000)
  have hm := roundHalfEven_nonneg (F64.mag b * 100000) (by positivity)
  obtain ⟨n, hn⟩ := Int.eq_ofNat_of_zero_le hm
  rw [hn] at s1 s2 ⊢
  rw [Int.toNat_ofNat]
  have near := F64.roundBits_nearest ((n : ℚ) / 100000) (by positivity) b
  generalize F64.mag (F64.roundBits ((n : ℚ) / 100000)) = w at near ⊢
  generalize F64.mag b = u at hu s1 s2 near
  have c : (((n : Int)) : ℚ) = (n : ℚ) := Int.cast_natCast n
  rw [c] at s1 s2
  apply roundHalfEven_unique
  rw [c]
  have e1 : |(n : ℚ) - w * 100000| = |w - (n : ℚ) / 100000| * 100000 := by
    rw [abs_sub_comm, show w * 100000 - (n : ℚ) = (w - (n : ℚ) / 100000) * 100000 from by ring,
      abs_mul]
    norm_num
  have e2 : |(n : ℚ) - u * 100000| = |u - (n : ℚ) / 100000| * 100000 := by
    rw [abs_sub_comm, show u * 100000 - (n : ℚ) = (u - (n : ℚ) / 100000) * 100000 from by ring,
      abs_mul]
    norm_num
  have le : |(n : ℚ) - w * 100000| ≤ |(n : ℚ) - u * 100000| := by
    rw [e1, e2]
    exact mul_le_mul_of_nonneg_right near (by norm_num)
  rcases lt_or_eq_of_le (le_trans le s1) with h | h
  · exact Or.inl h
  · exact Or.inr ⟨h, s2 (le_antisymm s1 (h ▸ le))⟩

/-- The five-digit rounding of a finite magnitude is within the finite values. -/
theorem digits_finite (b : Nat) (hb : b < 9218868437227405312) :
    F64.roundBits (((roundHalfEven (F64.mag b * 100000)).toNat : ℚ) / 100000)
      < 9218868437227405312 := by
  by_contra hc
  push_neg at hc
  obtain ⟨s1, -⟩ := roundHalfEven_spec (F64.mag b * 100000)
  have hm := roundHalfEven_nonneg (F64.mag b * 100000)
    (mul_nonneg (F64.mag_nonneg b) (by norm_num))
  obtain ⟨n, hn⟩ := Int.eq_ofNat_of_zero_le hm
  rw [hn] at s1
  rw [hn, Int.toNat_ofNat] at hc
  have near := F64.roundBits_nearest ((n : ℚ) / 100000) (by positivity) b
  have h1 := F64.mag_mono hc
  have h2 := F64.mag_mono (by omega : b ≤ 9218868437227405311)
  have t1 := F64.mag_encode 2046 4503599627370496 (Or.inr ⟨by omega, by omega⟩)
  have t2 := F64.mag_encode 2045 9007199254740991 (Or.inr ⟨by omega, by omega⟩)
  have e1 : 4503599627370496 + 2046 * 4503599627370496 = 9218868437227405312 := by norm_num
  have e2 : 9007199254740991 + 2045 * 4503599627370496 = 9218868437227405311 := by norm_num
  rw [e1] at t1
  rw [e2] at t2
  have e3 : (((2046 : Nat) : Int) - 1074) = (((2045 : Nat) : Int) - 1074) + 1 := by norm_num
  rw [e3, F64.pow2_succ] at t1
  have g1 : (1 : ℚ) ≤ F64.pow2 (((2045 : Nat) : Int) - 1074) := by
    have := F64.pow2_le (by norm_num : (0 : Int) ≤ ((2045 : Nat) : Int) - 1074)
    rw [F64.pow2_eq 0] at this
    simpa using this
  generalize F64.pow2 (((2045 : Nat) : Int) - 1074) = g at t1 t2 g1
  generalize F64.mag (F64.roundBits ((n : ℚ) / 100000)) = w at near h1
  generalize F64.mag b = u at s1 near h2
  rw [t1] at h1
  rw [t2] at h2
  have c : (((n : Int)) : ℚ) = (n : ℚ) := Int.cast_natCast n
  rw [c] at s1
  have a1 := abs_le.mp s1
  have a2 : |u - (n : ℚ) / 100000| ≤ 1 / 200000 := by
    rw [abs_le]
    constructor <;> linarith [a1.1, a1.2]
  have a3 := abs_le.mp (le_trans near a2)
  have a4 := abs_le.mp a2
  push_cast at h1 h2
  linarith [a3.1, a3.2, a4.1, a4.2]

theorem fmt5_finite (b : Fin 9218868437227405312) :
    fmt5 (F64.finite false b) = String.mk
      ((Nat.repr ((roundHalfEven (F64.mag b.val * 100000)).toNat / 100000)).data ++
        '.' :: (pad 5 ((roundHalfEven (F64.mag b.val * 100000)).toNat % 100000)).data) := by
  unfold fmt5
  apply String.ext
  simp [String.data_append]

theorem ofMag_of_lt (s : Bool) (q : ℚ) (h : F64.roundBits q < 9218868437227405312) :
    F64.ofMag s q = F64.finite s ⟨F64.roundBits q, h⟩ := by
  unfold F64.ofMag
  rw [dif_pos h]

theorem ofLit_of_lt (s : Bool) (q : ℚ) (h : F64.roundBits q < 9218868437227405312) :
    ofLit s q = some (F64.ofMag s q) := by
  unfold ofLit
  rw [ofMag_of_lt s q h]

theorem round5_finite (s : Bool) (b : Fin 9218868437227405312) :
    round5 (F64.finite s b) = F64.finite false
      ⟨F64.roundBits (((roundHalfEven (F64.mag b.val * 100000)).toNat : ℚ) / 100000),
        digits_finite b.val b.isLt⟩ :=
  ofMag_of_lt false _ (digits_finite b.val b.isLt)

theorem parseFloat_words :
    parseFloat "+Inf" = some (F64.inf false) ∧ parseFloat "NaN" = some F64.nan := by
  decide!

/-- The magnitude of a value, written by `fmt5` and read by the reference parser, is
the `float64` nearest to the digits written. -/
theorem parseFloat_fmt5_round (v : F64) : parseFloat (fmt5 (F64.abs v)) = some (round5 v) := by
  cases v with
  | finite s b =>
    show parseFloat (fmt5 (F64.finite false b)) = some (F64.ofMag false
      (((roundHalfEven (F64.mag b.val * 100000)).toNat : ℚ) / 100000))
    rw [fmt5_finite]
    have hfin := digits_finite b.val b.isLt
    generalize (roundHalfEven (F64.mag b.val * 100000)).toNat = n at hfin ⊢
    rw [parseFloat_digits _ _ _ _ (natOfDigits_repr _) (repr_ne_nil _) (natOfDigits_pad 5 _),
      pad_length 5 (n % 100000) (by decide) (Nat.mod_lt _ (by decide))]
    have e : n / 100000 * 10 ^ 5 + n % 100000 = n := by
      have := Nat.div_add_mod n 100000
      omega
    rw [e]
    have e2 : ((n : ℚ) / (10 : ℚ) ^ 5) = (n : ℚ) / 100000 := by norm_num
    rw [e2, ofLit_of_lt _ _ hfin]
  | inf b => exact parseFloat_words.1
  | nan => exact parseFloat_words.2

/-- Writing the digits read gives the same digits. -/
theorem fmt5_round5 (v : F64) : fmt5 (F64.abs (round5 v)) = fmt5 (F64.abs v) := by
  cases v with
  | finite s b =>
    rw [round5_finite]
    simp only [F64.abs]
    rw [fmt5_finite, fmt5_finite]
    simp only [digits_stable]
  | inf b => rfl
  | nan => rfl

/-- Reading the digits of what was read gives the same value. -/
theorem round5_round5 (v : F64) : round5 (round5 v) = round5 v := by
  cases v with
  | finite s b =>
    rw [round5_finite, round5_finite]
    congr 1
    apply Fin.ext
    simp only [digits_stable]
  | inf b => rfl
  | nan => rfl

/-- A positive value whose magnitude is not written `0.00000` is read back positive. -/
theorem round5_pos (v : F64) (hv : F64.gt v F64.zero = true)
    (hz : fmt5 (F64.abs v) ≠ "0.00000") : F64.gt (round5 v) F64.zero = true := by
  cases v with
  | finite s b =>
    obtain ⟨rfl, hb⟩ := F64.gt_zero_finite hv
    rw [round5_finite]
    apply F64.gt_zero_of_finite
    simp only [F64.abs] at hz
    rw [fmt5_finite] at hz
    show F64.roundBits _ ≠ 0
    intro h0
    obtain ⟨s1, -⟩ := roundHalfEven_spec (F64.mag b.val * 100000)
    have hm := roundHalfEven_nonneg (F64.mag b.val * 100000)
      (mul_nonneg (F64.mag_nonneg b.val) (by norm_num))
    obtain ⟨n, hn⟩ := Int.eq_ofNat_of_zero_le hm
    rw [hn] at s1
    rw [hn, Int.toNat_ofNat] at hz h0
    have hn0 : n ≠ 0 := by
      rintro rfl
      exact hz (by decide)
    have near := F64.roundBits_nearest ((n : ℚ) / 100000) (by positivity) b.val
    rw [h0, F64.mag_zero] at near
    generalize F64.mag b.val = u at s1 near
    have c : (((n : Int)) : ℚ) = (n : ℚ) := Int.cast_natCast n
    rw [c] at s1
    have n1 : (1 : ℚ) ≤ (n : ℚ) := by exact_mod_cast Nat.one_le_iff_ne_zero.mpr hn0
    have a1 := abs_le.mp s1
    have a2 : |u - (n : ℚ) / 100000| ≤ 1 / 200000 := by
      rw [abs_le]
      constructor <;> linarith [a1.1, a1.2]
    rw [zero_sub, abs_neg, abs_of_nonneg (by positivity)] at near
    linarith
  | inf b => cases b <;> simp_all [F64.gt, F64.lt, F64.zero, round5]
  | nan => simp [F64.gt, F64.lt, F64.zero] at hv

/-! ## The claims -/

theorem fill_append (lim : Nat) (cur : GoMap) (W : World) (pre post : List Time) :
    fill lim cur W (pre ++ post) = post.foldl (step lim cur W) (fill lim cur W pre) := by
  simp [fill, List.foldl_append]

theorem mem_lisOf_of_lookup {des : GoMap} {k : Time} {v : F64} (h : des.lookup k = some v)
    {order : List (Sigma (fun _ : Time => F64))} (hp : order.Perm des.entries) :
    toRow ⟨k, v⟩ ∈ lisOf order := by
  have h1 : (⟨k, v⟩ : Sigma (fun _ : Time => F64)) ∈ des.entries := AList.mem_lookup_iff.mp h
  have h2 : (⟨k, v⟩ : Sigma (fun _ : Time => F64)) ∈ order := hp.mem_iff.mpr h1
  have h3 : toRow ⟨k, v⟩ ∈ order.map toRow := List.mem_map_of_mem toRow h2
  exact (List.perm_insertionSort _ _).mem_iff.mpr h3

/-- C1.  A frame that goes through the action, for which the resolver answers `-1`
(no figure) while the output map holds a value `v > 0` for the frame 24 hours earlier:
the action stores `-v` for the frame, the value is still there at the end of the loop
when the frame is not listed again, and the struct sorted for writing has
`Inflation = v` and `Updated = 0`, whatever order the map is iterated in. -/
theorem derive_from_confirmed (lim : Nat) (cur : GoMap) (W : World) (pre post : List Time)
    (sta : Time) (v : F64)
    (hs : (fill lim cur W pre).status = .running)
    (hm : (cur.has sta && F64.gt (cur.get sta) F64.zero) = false)
    (hb : (fill lim cur W pre).cou < lim)
    (hr : (W.bud sta).ran = true)
    (hu : W.api sta = .ok F64.minusOne)
    (hp : (fill lim cur W pre).des.lookup (sta.add (-dayLen)) = some v)
    (hv : F64.gt v F64.zero = true)
    (hn : sta ∉ post) :
    (fill lim cur W (pre ++ [sta])).des.lookup sta = some (F64.neg v) ∧
    (fill lim cur W (pre ++ sta :: post)).des.lookup sta = some (F64.neg v) ∧
    toRow ⟨sta, F64.neg v⟩ = { Dat := sta, Inflation := v, Updated := 0 } ∧
    ∀ order : List (Sigma (fun _ : Time => F64)),
      order.Perm (fill lim cur W (pre ++ sta :: post)).des.entries →
      ({ Dat := sta, Inflation := v, Updated := 0 } : csvrow) ∈ lisOf order := by
  have hact : act W.api (fill lim cur W pre).des sta
      = .ok ((fill lim cur W pre).des.set sta (F64.neg v)) := by
    rw [act_eq W.api _ sta F64.minusOne hu, GoMap.get_of_lookup hp]
    have e1 : F64.eq F64.minusOne F64.minusOne = true := F64.constants.1
    simp [e1, hv, F64.lt_zero_of_gt_zero hv]
  have h1 : (step lim cur W (fill lim cur W pre) sta).des.lookup sta = some (F64.neg v) := by
    rw [(step_ran lim cur W _ sta _ hs hm hb hr hact).1]
    exact GoMap.lookup_set_same _ _ _
  have h2 : (fill lim cur W (pre ++ sta :: post)).des.lookup sta = some (F64.neg v) := by
    rw [fill_append, List.foldl_cons, foldl_step_lookup lim cur W post _ sta hn]
    exact h1
  have h3 : toRow ⟨sta, F64.neg v⟩ = { Dat := sta, Inflation := v, Updated := 0 } := by
    simp [toRow, F64.abs_neg_of_gt_zero hv, F64.gt_neg_of_gt_zero hv]
  refine ⟨?_, h2, h3, ?_⟩
  · rw [fill_append]
    exact h1
  · intro order ho
    rw [← h3]
    exact mem_lisOf_of_lookup h2 ho

/-- C1, the example of the specification: the cache holds 2021-01-01 confirmed at 0.03,
the resolver has no figure for 2021-01-02; the value stored for 2021-01-02 is -0.03 and
its struct has `Inflation = 0.03` and `Updated = 0`. -/
theorem derive_from_confirmed_witness :
    (fill reqlim januaryCache unavailableWorld ([1609459200] ++ [1609545600])).des.lookup
        1609545600 = some (F64.neg (F64.fin (3 / 100))) ∧
    toRow ⟨1609545600, F64.neg (F64.fin (3 / 100))⟩
      = { Dat := 1609545600, Inflation := F64.fin (3 / 100), Updated := 0 } :=
  have h := derive_from_confirmed reqlim januaryCache unavailableWorld [1609459200] []
    1609545600 (F64.fin (3 / 100)) (by decide!) (by decide!) (by decide!) (by decide!)
    (by decide!) (by decide!) (by decide!) (by decide!)
  ⟨h.1, h.2.2.1⟩

theorem execute_calls (W : World) (s : State) (sta : Time) :
    (execute W s sta).calls = s.calls ∨ (execute W s sta).calls = sta :: s.calls := by
  unfold execute
  split
  · split <;> simp
  · simp

/-- The number of recorded frames that are absent from the cache. -/
theorem step_budget (lim : Nat) (cur : GoMap) (W : World) (s : State) (sta : Time)
    (h : (s.calls.filter (fun t => !cur.has t)).length ≤ s.cou ∧ s.cou ≤ lim) :
    ((step lim cur W s sta).calls.filter (fun t => !cur.has t)).length
        ≤ (step lim cur W s sta).cou ∧ (step lim cur W s sta).cou ≤ lim := by
  by_cases hs : s.status = .running
  · rw [step_running lim cur W s sta hs]
    split
    · exact h
    · split
      · rename_i hb
        rw [execute_cou]
        rcases execute_calls W { s with cou := if !cur.has sta then s.cou + 1 else s.cou } sta
          with hc | hc
        · rw [hc]
          constructor
          · have := h.1
            dsimp only
            split <;> omega
          · dsimp only
            split <;> omega
        · rw [hc]
          dsimp only
          cases hh : cur.has sta
          · simp only [List.filter_cons, hh, Bool.not_false, if_true, List.length_cons]
            have := h.1
            constructor <;> omega
          · simp only [List.filter_cons, hh, Bool.not_true, Bool.false_eq_true, if_false]
            have := h.1
            constructor <;> omega
      · exact h
  · rw [step_not_running lim cur W s sta hs]
    exact h

theorem foldl_budget (lim : Nat) (cur : GoMap) (W : World) (fra : List Time) (s : State)
    (h : (s.calls.filter (fun t => !cur.has t)).length ≤ s.cou ∧ s.cou ≤ lim) :
    ((fra.foldl (step lim cur W) s).calls.filter (fun t => !cur.has t)).length
        ≤ (fra.foldl (step lim cur W) s).cou ∧ (fra.foldl (step lim cur W) s).cou ≤ lim := by
  induction fra generalizing s with
  | nil => exact h
  | cons x xs ih => exact ih _ (step_budget lim cur W s x h)

theorem step_cou (lim : Nat) (cur : GoMap) (W : World) (s : State) (sta : Time) :
    (step lim cur W s sta).cou = s.cou ∨
      (cur.has sta = false ∧ (step lim cur W s sta).cou = s.cou + 1) := by
  by_cases hs : s.status = .running
  · rw [step_running lim cur W s sta hs]
    split
    · exact Or.inl rfl
    · split
      · rw [execute_cou]
        cases hh : cur.has sta
        · exact Or.inr ⟨rfl, by simp⟩
        · exact Or.inl (by simp)
      · exact Or.inl rfl
  · rw [step_not_running lim cur W s sta hs]
    exact Or.inl rfl

/-- C2.  In one pass of the loop with the limit `reqlim`, which is 10, the frames that
are absent from the loaded cache and for which the resolver was called are at most as
many as the counter `cou`, and the counter never exceeds `reqlim`; the body of the loop
leaves the counter as it is or, only for a frame absent from the cache, adds one. -/
theorem budget_invariant (cur : GoMap) (W : World) (fra : List Time) :
    (((fill reqlim cur W fra).calls.filter (fun t => !cur.has t)).length
        ≤ (fill reqlim cur W fra).cou) ∧
    (fill reqlim cur W fra).cou ≤ reqlim ∧ reqlim = 10 ∧
    ∀ (s : State) (sta : Time),
      (step reqlim cur W s sta).cou = s.cou ∨
        (cur.has sta = false ∧ (step reqlim cur W s sta).cou = s.cou + 1) := by
  have h := foldl_budget reqlim cur W fra State.init
    (by simp [State.init])
  exact ⟨h.1, h.2, rfl, fun s sta => step_cou reqlim cur W s sta⟩

theorem foldl_step_hit_lookup (lim : Nat) (cur : GoMap) (W : World) (fra : List Time)
    (s : State) (sta : Time) (v : F64) (hc : cur.lookup sta = some v)
    (hv : F64.gt v F64.zero = true) (h : s.des.lookup sta = some v) :
    (fra.foldl (step lim cur W) s).des.lookup sta = some v := by
  induction fra generalizing s with
  | nil => exact h
  | cons x xs ih =>
    rw [List.foldl_cons]
    apply ih
    by_cases hx : x = sta
    · subst hx
      by_cases hs : s.status = .running
      · rw [step_hit lim cur W s x v hs hc hv]
        exact GoMap.lookup_set_same _ _ _
      · rw [step_not_running lim cur W s x hs]
        exact h
    · rw [step_lookup_ne lim cur W s (Ne.symm hx)]
      exact h

/-- C3.  A frame the loop reaches whose start is in the loaded cache with a value
`v > 0`: after the body of the loop the output map holds `v` for it, the record of the
resolver calls and the counter are what they were, and the output map still holds `v`
for it at the end of the loop, whatever frames follow. -/
theorem cache_hit (lim : Nat) (cur : GoMap) (W : World) (pre post : List Time)
    (sta : Time) (v : F64)
    (hs : (fill lim cur W pre).status = .running)
    (hc : cur.lookup sta = some v) (hv : F64.gt v F64.zero = true) :
    (fill lim cur W (pre ++ [sta])).des.lookup sta = some v ∧
    (fill lim cur W (pre ++ [sta])).calls = (fill lim cur W pre).calls ∧
    (fill lim cur W (pre ++ [sta])).cou = (fill lim cur W pre).cou ∧
    (fill lim cur W (pre ++ sta :: post)).des.lookup sta = some v := by
  have h1 : step lim cur W (fill lim cur W pre) sta
      = { fill lim cur W pre with des := (fill lim cur W pre).des.set sta v } :=
    step_hit lim cur W _ sta v hs hc hv
  refine ⟨?_, ?_, ?_, ?_⟩
  · rw [fill_append, List.foldl_cons, List.foldl_nil, h1]
    exact GoMap.lookup_set_same _ _ _
  · rw [fill_append, List.foldl_cons, List.foldl_nil, h1]
  · rw [fill_append, List.foldl_cons, List.foldl_nil, h1]
  · rw [fill_append, List.foldl_cons]
    apply foldl_step_hit_lookup lim cur W post _ sta v hc hv
    rw [h1]
    exact GoMap.lookup_set_same _ _ _

/-- C3 at the example of the specification: 2021-01-01 is in the cache at 0.03, and a
pass over 2021-01-01 and 2021-01-02 holds 0.03 for it without a call of the resolver
for it and with the counter where it was. -/
theorem cache_hit_witness :
    (fill reqlim januaryCache unavailableWorld ([] ++ [1609459200])).des.lookup 1609459200
        = some (F64.fin (3 / 100)) ∧
    (fill reqlim januaryCache unavailableWorld ([] ++ [1609459200])).calls
        = (fill reqlim januaryCache unavailableWorld []).calls ∧
    (fill reqlim januaryCache unavailableWorld ([] ++ [1609459200])).cou
        = (fill reqlim januaryCache unavailableWorld []).cou ∧
    (fill reqlim januaryCache unavailableWorld ([] ++ 1609459200 :: [1609545600])).des.lookup
        1609459200 = some (F64.fin (3 / 100)) :=
  cache_hit reqlim januaryCache unavailableWorld [] [1609545600] 1609459200
    (F64.fin (3 / 100)) (by decide!) (by decide!) (by decide!)

/-- C4, as stated, fails: on 2021-02-10 the resolver computes `198.0 / 200.0 - 1`, about
-0.01, for the frame 2021-01-01 from the remote data, a value and not `-1`; the struct
written for the frame has `Updated = 0` and the magnitude of that value, and the row
written is `0.01000` with the flag `0`. -/
theorem negative_value_written_unconfirmed :
    (musapi goParsers 1612915200 deflationRemote 1609459200).out
        = .ok (deflationValue) ∧
    F64.eq (deflationValue) F64.minusOne = false ∧
    lisOf (fill reqlim ∅ deflationWorld [1609459200]).des.entries
        = [{ Dat := 1609459200, Inflation := F64.abs deflationValue, Updated := 0 }] ∧
    rowsOf (fill reqlim ∅ deflationWorld [1609459200]).des.entries
        = [header, ["2021-01-01T00:00:00Z", "0.01000", "0"]] := by
  decide!

theorem toRow_updated (k : Time) (d : F64) :
    ((toRow ⟨k, d⟩).Updated = 1 ↔ F64.gt d F64.zero = true) ∧
    ((toRow ⟨k, d⟩).Updated = 0 ↔ F64.gt d F64.zero = false) := by
  cases h : F64.gt d F64.zero <;> simp [toRow, h]

/-- The value the action stores is greater than zero exactly when the value of the
resolver is, and it is the value of the resolver when that is not `-1`. -/
theorem act_value (api : Time → Except Abort F64) (des : GoMap) (sta : Time) (f : F64)
    (h : api sta = .ok f) :
    ∃ d, act api des sta = .ok (des.set sta d) ∧
      F64.gt d F64.zero = F64.gt f F64.zero ∧ (F64.eq f F64.minusOne = false → d = f) := by
  refine ⟨_, act_eq api des sta f h, ?_, ?_⟩
  · cases he : F64.eq f F64.minusOne
    · simp [he]
    · cases hg : F64.gt (des.get (sta.add (-dayLen))) F64.zero
      · cases hl : F64.lt (des.get (sta.add (-dayLen))) F64.zero
        · simp [he]
        · simp [he, hg, F64.not_gt_zero_of_eq_minusOne he]
      · simp [he, F64.lt_zero_of_gt_zero hg, F64.gt_neg_of_gt_zero hg,
          F64.not_gt_zero_of_eq_minusOne he]
  · intro he
    simp [he]

/-- C4, amended.  A frame that goes through the action and for which the resolver
returns the value `f`: the value `d` stored for it is still there at the end of the loop
when the frame is not listed again; its struct has `Updated = 1` exactly when `f > 0`
and `Updated = 0` exactly when not; and when `f` is not `-1`, `d` is `f` and the struct
has `Inflation = |f|`. -/
theorem updated_flag (lim : Nat) (cur : GoMap) (W : World) (pre post : List Time)
    (sta : Time) (f : F64)
    (hs : (fill lim cur W pre).status = .running)
    (hm : (cur.has sta && F64.gt (cur.get sta) F64.zero) = false)
    (hb : (fill lim cur W pre).cou < lim)
    (hr : (W.bud sta).ran = true)
    (ha : W.api sta = .ok f)
    (hn : sta ∉ post) :
    ∃ d, (fill lim cur W (pre ++ sta :: post)).des.lookup sta = some d ∧
      ((toRow ⟨sta, d⟩).Updated = 1 ↔ F64.gt f F64.zero = true) ∧
      ((toRow ⟨sta, d⟩).Updated = 0 ↔ F64.gt f F64.zero = false) ∧
      (F64.eq f F64.minusOne = false → d = f ∧ (toRow ⟨sta, d⟩).Inflation = F64.abs f) ∧
      ∀ order : List (Sigma (fun _ : Time => F64)),
        order.Perm (fill lim cur W (pre ++ sta :: post)).des.entries →
        toRow ⟨sta, d⟩ ∈ lisOf order := by
  obtain ⟨d, hd, hg, he⟩ := act_value W.api (fill lim cur W pre).des sta f ha
  have h2 : (fill lim cur W (pre ++ sta :: post)).des.lookup sta = some d := by
    rw [fill_append, List.foldl_cons, foldl_step_lookup lim cur W post _ sta hn,
      (step_ran lim cur W _ sta _ hs hm hb hr hd).1]
    exact GoMap.lookup_set_same _ _ _
  refine ⟨d, h2, ?_, ?_, ?_, ?_⟩
  · rw [← hg]
    exact (toRow_updated sta d).1
  · rw [← hg]
    exact (toRow_updated sta d).2
  · intro h
    have hdf := he h
    subst hdf
    exact ⟨rfl, rfl⟩
  · intro order ho
    exact mem_lisOf_of_lookup h2 ho

/-- C4, amended, at the frame 2021-01-01 with the index at 198.0 after 200.0: the
resolver gives `198.0 / 200.0 - 1`, about -0.01, which is stored, and the struct has
`Updated = 0`. -/
theorem updated_flag_witness :
    (∃ d, (fill reqlim ∅ deflationWorld ([] ++ 1609459200 :: [])).des.lookup 1609459200
        = some d ∧
      ((toRow ⟨1609459200, d⟩).Updated = 1 ↔ F64.gt (deflationValue) F64.zero = true) ∧
      ((toRow ⟨1609459200, d⟩).Updated = 0 ↔ F64.gt (deflationValue) F64.zero = false) ∧
      (F64.eq (deflationValue) F64.minusOne = false →
        d = deflationValue ∧ (toRow ⟨1609459200, d⟩).Inflation
          = F64.abs (deflationValue)) ∧
      ∀ order : List (Sigma (fun _ : Time => F64)),
        order.Perm (fill reqlim ∅ deflationWorld ([] ++ 1609459200 :: [])).des.entries →
        toRow ⟨1609459200, d⟩ ∈ lisOf order) :=
  updated_flag reqlim ∅ deflationWorld [] [] 1609459200 (deflationValue)
    (by decide!) (by decide!) (by decide!) (by decide!) (by decide!) (by decide!)

theorem getLast_filter_snoc {α : Type} (p : α → Bool) (l : List α) (x : α) :
    (List.filter p (l ++ [x])).getLast? = if p x then some x else (List.filter p l).getLast? := by
  cases h : p x <;> simp [List.filter_append, List.filter_cons, h]

/-- The loop over the data points, taken from any pair: when every data point that is
looked at parses, each variable ends at the value of the last data point for its year,
or where it started. -/
theorem scan_from (P : Parsers) (pry cyr mon : String) (dat : List resstrdat) (acc : F64 × F64)
    (hp : ∀ x ∈ dat, x.Period = mon → (x.Year = cyr ∨ x.Year = pry) →
      (P.float x.Value).isSome = true) :
    dat.foldlM (scanStep P pry cyr mon) acc = .ok
      (match (dat.filter (fun x => x.Year = pry ∧ x.Period = mon)).getLast? with
        | none => acc.1
        | some x => (P.float x.Value).getD F64.zero,
       match (dat.filter (fun x => x.Year = cyr ∧ x.Period = mon)).getLast? with
        | none => acc.2
        | some x => (P.float x.Value).getD F64.zero) := by
  induction dat using List.reverseRecOn with
  | nil => rfl
  | append_singleton l x ih =>
    have ih2 := ih (fun y hy => hp y (List.mem_append_left _ hy))
    have hx := hp x (List.mem_append_right _ (List.mem_singleton_self x))
    rw [List.foldlM_append, ih2, getLast_filter_snoc, getLast_filter_snoc]
    simp only [List.foldlM_cons, List.foldlM_nil, bind, Except.bind, scanStep, pure,
      Except.pure]
    by_cases h1 : x.Year = pry ∧ x.Period = mon
    · obtain ⟨f, hf⟩ := Option.isSome_iff_exists.mp (hx h1.2 (Or.inr h1.1))
      by_cases h2 : x.Year = cyr ∧ x.Period = mon
      · simp only [if_pos h1, if_pos h2, decide_eq_true h1, decide_eq_true h2, if_true,
          musf64, hf, Option.getD_some]
      · simp only [if_pos h1, if_neg h2, decide_eq_true h1, decide_eq_false h2, if_true,
          Bool.false_eq_true, if_false, musf64, hf, Option.getD_some]
    · by_cases h2 : x.Year = cyr ∧ x.Period = mon
      · obtain ⟨f, hf⟩ := Option.isSome_iff_exists.mp (hx h2.2 (Or.inl h2.1))
        simp only [if_neg h1, if_pos h2, decide_eq_false h1, decide_eq_true h2, if_true,
          Bool.false_eq_true, if_false, musf64, hf, Option.getD_some]
      · simp only [if_neg h1, if_neg h2, decide_eq_false h1, decide_eq_false h2,
          Bool.false_eq_true, if_false]

theorem scan_eq (P : Parsers) (pry cyr mon : String) (dat : List resstrdat)
    (hp : ∀ x ∈ dat, x.Period = mon → (x.Year = cyr ∨ x.Year = pry) →
      (P.float x.Value).isSome = true) :
    scan P pry cyr mon dat = .ok (pointValue P pry mon dat, pointValue P cyr mon dat) := by
  unfold scan
  rw [scan_from P pry cyr mon dat _ hp]
  rfl

/-- C5, as stated, fails, in two ways.  The response has exactly one series and the day,
2021-01-01, is not in the month of the clock, 2021-02-10, but the data point for January
2021 has the value `-`: the resolver ends the process by `log.Fatal` and returns nothing.
And with 200.0 and then 206.0, the witness of the claim, the resolver returns the
`float64` value `206.0 / 200.0 - 1`, which is not the `float64` value 0.03: the quotient
is rounded before the subtraction, and the result is above 0.03 while the `float64`
value 0.03 is below it.  It is written `0.03000`. -/
theorem unparsable_value_aborts :
    Time.month 1612915200 = 2 ∧ Time.month 1609459200 = 1 ∧
    (musapi goParsers 1612915200 dashRemote 1609459200).out = .error .fatal ∧
    (musapi goParsers 1612915200 inflationRemote 1609459200).out = .ok inflationValue ∧
    inflationValue ≠ F64.fin (3 / 100) ∧
    F64.eq inflationValue (F64.fin (3 / 100)) = false ∧
    3 / 100 < F64.toRat inflationValue ∧
    F64.toRat (F64.fin (3 / 100)) < 3 / 100 ∧
    fmt5 inflationValue = "0.03000" := by
  decide!

/-- C5, amended.  For a day whose month of the year is not that of the clock and a
response with exactly one series in which the value of every data point for the month
of the day, in the year of the day or the year before, parses: with `cur` and `pre` the
values for the year of the day and for the year before (the last data point for each,
zero when there is none), the resolver requests one URL and returns `-1` when both are
zero and `cur / pre - 1` otherwise, the division and the subtraction being those of
`float64`, each rounded to the nearest value. -/
theorem resolver_arithmetic (P : Parsers) (now des : Time) (remote : String → Fetch)
    (byt : String) (ser : resstrser)
    (hmon : now.month ≠ des.month)
    (hrem : remote (apifmt (fmtYear (des.addYears (-2)).year) (fmtYear des.year))
      = .ok byt { Results := { Series := [ser] } })
    (hp : ∀ x ∈ ser.Data, x.Period = "M" ++ fmtMonth des.month →
      (x.Year = fmtYear des.year ∨ x.Year = fmtYear (des.addYears (-1)).year) →
      (P.float x.Value).isSome = true) :
    musapi P now remote des =
      { urls := [apifmt (fmtYear (des.addYears (-2)).year) (fmtYear des.year)],
        out := .ok
          (if F64.eq (pointValue P (fmtYear (des.addYears (-1)).year)
                  ("M" ++ fmtMonth des.month) ser.Data) F64.zero
              && F64.eq (pointValue P (fmtYear des.year)
                  ("M" ++ fmtMonth des.month) ser.Data) F64.zero
            then F64.minusOne
            else F64.sub
              (F64.div
                (pointValue P (fmtYear des.year) ("M" ++ fmtMonth des.month) ser.Data)
                (pointValue P (fmtYear (des.addYears (-1)).year)
                  ("M" ++ fmtMonth des.month) ser.Data))
              (F64.fin 1)) } := by
  unfold musapi
  rw [if_neg hmon]
  simp only [hrem]
  rw [scan_eq P _ _ _ ser.Data hp]
  rfl

/-- C5, amended, at the two examples of the specification, for the day 2021-01-01 seen
from 2021-02-10: 200.0 and then 206.0 give the `float64` value `206.0 / 200.0 - 1`; no
data point at all gives `-1`. -/
theorem resolver_arithmetic_witness :
    (musapi goParsers 1612915200 inflationRemote 1609459200).out = .ok inflationValue ∧
    (musapi goParsers 1612915200 emptyRemote 1609459200).out = .ok F64.minusOne :=
  ⟨(congrArg ApiRun.out (resolver_arithmetic goParsers 1612915200 1609459200 inflationRemote
      "" _ (by decide!) rfl (by decide!))).trans (by decide!),
   (congrArg ApiRun.out (resolver_arithmetic goParsers 1612915200 1609459200 emptyRemote
      "" _ (by decide!) rfl (by decide!))).trans (by decide!)⟩

/-- C6: the code at a day in the month of the clock of an earlier year.  The clock is at
2026-11-04 and the day is 2021-11-15; `musapi` compares the months only, requests no URL
and returns `-1`, whatever the remote side would have answered. -/
theorem same_month_of_earlier_year :
    Time.year 1793750400 = 2026 ∧ Time.month 1793750400 = 11 ∧
    Time.year 1636934400 = 2021 ∧ Time.month 1636934400 = 11 ∧
    ∀ remote : String → Fetch,
      musapi goParsers 1793750400 remote 1636934400 = { urls := [], out := .ok F64.minusOne } :=
  ⟨by decide!, by decide!, by decide!, by decide!, fun _ => rfl⟩

theorem load_cons (P : Parsers) (hd : List String) (rows : List (List String)) :
    load P (hd :: rows) = rows.foldlM (loadRow P) ∅ := rfl

theorem load_snoc (P : Parsers) (hd : List String) (pre : List (List String))
    (x : List String) (m : GoMap) (h : load P (hd :: pre) = .ok m) :
    load P (hd :: (pre ++ [x])) = loadRow P m x := by
  rw [load_cons] at h
  rw [load_cons, List.foldlM_append, h]
  simp [bind, Except.bind, pure, Except.pure]
  cases loadRow P m x <;> rfl

theorem loadRow_zero (P : Parsers) (m : GoMap) (x0 x1 : String) (more : List String)
    (t : Time) (f : F64) (ht : P.time x0 = some t) (hf : P.float x1 = some f) :
    loadRow P m (x0 :: x1 :: "0" :: more) = .ok (m.set t (F64.neg f)) := by
  have h01 : ¬ ("0" = "1") := by decide
  simp only [loadRow, mustim, musf64, ht, hf, if_true, if_neg h01, bind, Except.bind, pure,
    Except.pure]

theorem loadRow_one (P : Parsers) (m : GoMap) (x0 x1 : String) (more : List String)
    (t : Time) (f : F64) (ht : P.time x0 = some t) (hf : P.float x1 = some f) :
    loadRow P m (x0 :: x1 :: "1" :: more) = .ok (m.set t f) := by
  have h10 : ¬ ("1" = "0") := by decide
  simp only [loadRow, mustim, musf64, ht, hf, if_true, if_neg h10, bind, Except.bind, pure,
    Except.pure]

theorem loadRow_other (P : Parsers) (m : GoMap) (y0 y1 x2 : String) (more : List String)
    (h0 : x2 ≠ "0") (h1 : x2 ≠ "1") : loadRow P m (y0 :: y1 :: x2 :: more) = .ok m := by
  simp only [loadRow, if_neg h0, if_neg h1, bind, Except.bind, pure, Except.pure]

theorem foldlM_loadRow_other (P : Parsers) (pre post : List (List String)) (m : GoMap)
    (y0 y1 x2 : String) (more : List String) (h0 : x2 ≠ "0") (h1 : x2 ≠ "1") :
    (pre ++ (y0 :: y1 :: x2 :: more) :: post).foldlM (loadRow P) m
      = (pre ++ post).foldlM (loadRow P) m := by
  rw [List.foldlM_append, List.foldlM_append]
  congr 1
  funext a
  rw [List.foldlM_cons, loadRow_other P a y0 y1 x2 more h0 h1]
  rfl

/-- C7, as stated, fails: a data row whose flag is `2` does not make the loader fail;
the load succeeds with the empty map. -/
theorem malformed_flag_passes :
    load goParsers [header, ["2021-01-01T00:00:00Z", "0.03000", "2"]] = .ok ∅ := by
  decide!

/-- C7, amended.  After rows that load into the map `m`, a row whose date parses to `t`
and whose magnitude parses to `f` stores `-f` at `t` when its flag is `0` and `f` when
its flag is `1`; a row with at least three fields whose flag is any other string does
not make the load fail and leaves the map as it was, whatever its first two fields, and
taking it out of the row sequence, wherever it stands, does not change the load. -/
theorem flag_rows (P : Parsers) (hd : List String) (pre post : List (List String))
    (m : GoMap) (x0 x1 y0 y1 x2 : String) (more : List String) (t : Time) (f : F64)
    (hm : load P (hd :: pre) = .ok m)
    (ht : P.time x0 = some t) (hf : P.float x1 = some f)
    (h0 : x2 ≠ "0") (h1 : x2 ≠ "1") :
    load P (hd :: (pre ++ [x0 :: x1 :: "0" :: more])) = .ok (m.set t (F64.neg f)) ∧
    load P (hd :: (pre ++ [x0 :: x1 :: "1" :: more])) = .ok (m.set t f) ∧
    load P (hd :: (pre ++ [y0 :: y1 :: x2 :: more])) = .ok m ∧
    load P (hd :: (pre ++ (y0 :: y1 :: x2 :: more) :: post)) = load P (hd :: (pre ++ post)) := by
  refine ⟨?_, ?_, ?_, ?_⟩
  · rw [load_snoc P hd pre _ m hm]
    exact loadRow_zero P m x0 x1 more t f ht hf
  · rw [load_snoc P hd pre _ m hm]
    exact loadRow_one P m x0 x1 more t f ht hf
  · rw [load_snoc P hd pre _ m hm]
    exact loadRow_other P m y0 y1 x2 more h0 h1
  · rw [load_cons, load_cons]
    exact foldlM_loadRow_other P pre post ∅ y0 y1 x2 more h0 h1

/-- C7, amended, on rows for 2021-01-01 at 0.03: flag `0` stores -0.03, flag `1` stores
0.03, and a row with the flag `2`, a date that is no date and a magnitude that is no
number is passed over. -/
theorem flag_rows_witness :
    load goParsers (header :: ([] ++ [["2021-01-01T00:00:00Z", "0.03000", "0"]]))
      = .ok ((∅ : GoMap).set 1609459200 (F64.neg (F64.fin (3 / 100)))) ∧
    load goParsers (header :: ([] ++ [["2021-01-01T00:00:00Z", "0.03000", "1"]]))
      = .ok ((∅ : GoMap).set 1609459200 (F64.fin (3 / 100))) ∧
    load goParsers (header :: ([] ++ [["yesterday", "much", "2"]])) = .ok ∅ ∧
    load goParsers (header :: ([] ++ ["yesterday", "much", "2"] :: []))
      = load goParsers (header :: ([] ++ [])) :=
  flag_rows goParsers header [] [] ∅ "2021-01-01T00:00:00Z" "0.03000" "yesterday" "much" "2"
    [] 1609459200 (F64.fin (3 / 100)) (by decide!) (by decide!) (by decide!) (by decide!)
    (by decide!)

theorem sorted_dates (l : List csvrow) :
    ((sortRows l).map csvrow.Dat).Sorted (· ≤ ·) := by
  have h : (sortRows l).Sorted (fun a b => a.Dat ≤ b.Dat) :=
    List.sorted_insertionSort (fun a b : csvrow => a.Dat ≤ b.Dat) l
  exact List.pairwise_map.mpr h

theorem dates_perm (des : GoMap) (order : List (Sigma (fun _ : Time => F64)))
    (ho : order.Perm des.entries) : ((lisOf order).map csvrow.Dat).Perm des.keys := by
  have h1 : (lisOf order).Perm (order.map toRow) := List.perm_insertionSort _ _
  have h2 : ((lisOf order).map csvrow.Dat).Perm ((order.map toRow).map csvrow.Dat) :=
    h1.map _
  have h3 : (order.map toRow).map csvrow.Dat = order.map Sigma.fst := by
    rw [List.map_map]
    rfl
  rw [h3] at h2
  exact h2.trans (ho.map _)

/-- The sorted list of structs: its dates have no repetition, and every struct is the
conversion of the entry of `des` for its date. -/
theorem lisOf_entries (des : GoMap) (order : List (Sigma (fun _ : Time => F64)))
    (ho : order.Perm des.entries) :
    ((lisOf order).map csvrow.Dat).Nodup ∧
    ∀ r ∈ lisOf order, ∃ v, des.lookup r.Dat = some v ∧ r = toRow ⟨r.Dat, v⟩ := by
  refine ⟨(dates_perm des order ho).nodup_iff.mpr des.keys_nodup, ?_⟩
  intro r hr
  have h1 : r ∈ order.map toRow := (List.perm_insertionSort _ _).mem_iff.mp hr
  obtain ⟨e, he, rfl⟩ := List.mem_map.mp h1
  have h2 : e ∈ des.entries := ho.mem_iff.mp he
  exact ⟨e.2, AList.mem_lookup_iff.mpr h2, rfl⟩

/-- C9.  Whatever order the map `des` is iterated in, the rows handed to the writer are
the header and then, for the keys of `des` taken in strictly ascending order, each one
once and no other date, the row of the key: its date in RFC3339, the magnitude of its
value with five fractional digits, and its flag.  When the keys are dates of the years 0
to 9999, the dates read from the first fields of the rows after the header are these
keys, strictly ascending. -/
theorem rows_sorted_unique (des : GoMap) (order : List (Sigma (fun _ : Time => F64)))
    (ho : order.Perm des.entries) :
    ∃ ks : List Time, ks.Sorted (· < ·) ∧ ks.Perm des.keys ∧ ks.Nodup ∧
      rowsOf order = header :: ks.map (fun k =>
        [fmtTime k, fmt5 (F64.abs (des.get k)),
          fmtInt (if F64.gt (des.get k) F64.zero then 1 else 0)]) ∧
      ((∀ k ∈ des.keys, 0 ≤ Time.year k ∧ Time.year k ≤ 9999) →
        (rowsOf order).tail.map (fun r => r.head?.bind parseTime) = ks.map some) := by
  obtain ⟨hnd, hrows⟩ := lisOf_entries des order ho
  have hperm := dates_perm des order ho
  have hrow : (lisOf order).map render = ((lisOf order).map csvrow.Dat).map (fun k =>
      [fmtTime k, fmt5 (F64.abs (des.get k)),
        fmtInt (if F64.gt (des.get k) F64.zero then 1 else 0)]) := by
    rw [List.map_map]
    apply List.map_congr_left
    intro r hr
    obtain ⟨v, hl, hre⟩ := hrows r hr
    have hg : des.get r.Dat = v := GoMap.get_of_lookup hl
    show render r = _
    rw [hre]
    show _ = [fmtTime r.Dat, fmt5 (F64.abs (des.get r.Dat)),
      fmtInt (if F64.gt (des.get r.Dat) F64.zero then 1 else 0)]
    rw [hg]
    rfl
  refine ⟨(lisOf order).map csvrow.Dat, (sorted_dates _).lt_of_le hnd, hperm, hnd, ?_, ?_⟩
  · show header :: (lisOf order).map render = _
    rw [hrow]
  · intro hy
    show ((lisOf order).map render).map (fun r => r.head?.bind parseTime) = _
    rw [hrow, List.map_map]
    apply List.map_congr_left
    intro k hk
    have hk2 : k ∈ des.keys := hperm.mem_iff.mp hk
    simp only [Function.comp_apply, List.head?_cons, Option.some_bind, Option.bind_eq_bind]
    exact parseTime_fmtTime k (hy k hk2).1 (hy k hk2).2

/-- C9 on a map with two entries that is iterated from the later date, 2021-01-02, to
the earlier one: the rows written are the header, the row of 2021-01-01 and the row of
2021-01-02. -/
theorem rows_sorted_unique_witness :
    twoDayOutput.entries.map Sigma.fst = [1609545600, 1609459200] ∧
    rowsOf twoDayOutput.entries = [header, ["2021-01-01T00:00:00Z", "0.03000", "1"],
      ["2021-01-02T00:00:00Z", "0.03000", "0"]] ∧
    ∃ ks : List Time, ks.Sorted (· < ·) ∧ ks.Perm twoDayOutput.keys ∧
      (rowsOf twoDayOutput.entries).tail.map (fun r => r.head?.bind parseTime)
        = ks.map some :=
  have h := rows_sorted_unique twoDayOutput twoDayOutput.entries (List.Perm.refl _)
  ⟨by decide!, by decide!, h.elim (fun ks hks =>
    ⟨ks, hks.1, hks.2.1, hks.2.2.2.2 (by decide!)⟩)⟩

theorem round5_abs (v : F64) : round5 (F64.abs v) = round5 v := by
  cases v <;> rfl

theorem round5_neg (v : F64) : round5 (F64.neg v) = round5 v := by
  cases v <;> rfl

/-- What is read from a magnitude, negated, is not positive. -/
theorem gt_neg_round5 (v : F64) : F64.gt (F64.neg (round5 v)) F64.zero = false := by
  cases v with
  | finite s b =>
    rw [round5_finite]
    have := F64.mag_nonneg (F64.roundBits
      (((roundHalfEven (F64.mag b.val * 100000)).toNat : ℚ) / 100000))
    simp only [F64.gt, F64.neg, F64.lt, F64.zero, F64.toRat, F64.mag_zero,
      decide_eq_false_iff_not, Bool.not_false, if_true, Bool.false_eq_true, if_false]
    linarith
  | inf b => rfl
  | nan => rfl

theorem rereadRow_toRow (e : Sigma (fun _ : Time => F64)) :
    rereadRow (toRow e) = reread e.2 := by
  cases h : F64.gt e.2 F64.zero <;> simp [rereadRow, toRow, reread, h, round5_abs]

/-- A value that is not confirmed is read back not confirmed. -/
theorem reread_not_gt (v : F64) (h : F64.gt v F64.zero = false) :
    F64.gt (reread v) F64.zero = false := by
  unfold reread
  rw [h]
  exact gt_neg_round5 v

/-- A value that was read from the rows, as a value that is not confirmed or as a
confirmed one, is read back as it is. -/
theorem reread_reread (v : F64)
    (h : F64.gt v F64.zero = false ∨ F64.gt (reread v) F64.zero = true) :
    reread (reread v) = reread v := by
  cases hv : F64.gt v F64.zero
  · have h1 := reread_not_gt v hv
    have e : reread v = F64.neg (round5 v) := by simp [reread, hv]
    rw [e] at h1 ⊢
    unfold reread
    rw [h1]
    simp only [Bool.false_eq_true, if_false]
    rw [round5_neg, round5_round5]
  · rcases h with h | h
    · rw [hv] at h
      cases h
    · have e : reread v = round5 v := by simp [reread, hv]
      rw [e] at h ⊢
      unfold reread
      rw [h]
      simp only [if_true]
      exact round5_round5 v

theorem loadRow_render (m : GoMap) (e : Sigma (fun _ : Time => F64))
    (hy : 0 ≤ Time.year e.1 ∧ Time.year e.1 ≤ 9999) :
    loadRow goParsers m (render (toRow e)) = .ok (m.set e.1 (reread e.2)) := by
  have f1 : fmtInt 1 = "1" := by decide
  have f0 : fmtInt 0 = "0" := by decide
  have et : goParsers.time = parseTime := rfl
  have ef : goParsers.float = parseFloat := rfl
  have ht : goParsers.time (fmtTime e.1) = some e.1 := by
    rw [et]
    exact parseTime_fmtTime e.1 hy.1 hy.2
  have hf : goParsers.float (fmt5 (F64.abs e.2)) = some (round5 e.2) := by
    rw [ef]
    exact parseFloat_fmt5_round e.2
  cases h : F64.gt e.2 F64.zero
  · simp only [render, toRow, reread, h, Bool.false_eq_true, if_false, f0]
    exact loadRow_zero goParsers m _ _ [] e.1 (round5 e.2) ht hf
  · simp only [render, toRow, reread, h, if_true, f1]
    exact loadRow_one goParsers m _ _ [] e.1 (round5 e.2) ht hf

theorem foldlM_render (R : List csvrow) (m : GoMap)
    (h : ∀ r ∈ R, ∃ v, r = toRow ⟨r.Dat, v⟩ ∧ 0 ≤ Time.year r.Dat ∧ Time.year r.Dat ≤ 9999) :
    (R.map render).foldlM (loadRow goParsers) m
      = .ok (R.foldl (fun m r => m.set r.Dat (rereadRow r)) m) := by
  induction R generalizing m with
  | nil => rfl
  | cons r R ih =>
    obtain ⟨v, hr, hy⟩ := h _ (List.mem_cons_self _ _)
    have hl : loadRow goParsers m (render r) = .ok (m.set r.Dat (rereadRow r)) := by
      have h1 := loadRow_render m ⟨r.Dat, v⟩ hy
      have h2 := rereadRow_toRow ⟨r.Dat, v⟩
      rw [← hr] at h1 h2
      rw [h1, h2]
    rw [List.map_cons, List.foldlM_cons, hl]
    exact ih _ (fun r hr => h r (List.mem_cons_of_mem _ hr))

theorem lookup_foldl_set_of (φ : csvrow → F64) (R : List csvrow) (m : GoMap) (k : Time)
    (hnd : (R.map csvrow.Dat).Nodup) :
    (R.foldl (fun m r => m.set r.Dat (φ r)) m).lookup k
      = match R.find? (fun r => r.Dat = k) with
        | some r => some (φ r)
        | none => m.lookup k := by
  induction R generalizing m with
  | nil => rfl
  | cons r R ih =>
    rw [List.map_cons, List.nodup_cons] at hnd
    rw [List.foldl_cons, ih _ hnd.2]
    by_cases hr : r.Dat = k
    · have hnone : R.find? (fun r => r.Dat = k) = none := by
        rw [List.find?_eq_none]
        intro x hx hxk
        apply hnd.1
        rw [hr]
        exact List.mem_map.mpr ⟨x, hx, by simpa using hxk⟩
      rw [hnone, List.find?_cons_of_pos _ (by simpa using hr)]
      simp only
      rw [← hr]
      exact GoMap.lookup_set_same _ _ _
    · rw [List.find?_cons_of_neg _ (by simpa using hr)]
      cases R.find? (fun r => r.Dat = k) with
      | some x => rfl
      | none => exact GoMap.lookup_set_ne _ _ (Ne.symm hr)

/-- Loading what the writer builds from a map whose dates are of the years 0 to 9999:
the loaded map holds, for each key of the map and no other, what is read from the row
of its value. -/
theorem load_rows (des : GoMap) (order : List (Sigma (fun _ : Time => F64)))
    (ho : order.Perm des.entries)
    (hk : ∀ e ∈ des.entries, 0 ≤ Time.year e.1 ∧ Time.year e.1 ≤ 9999) :
    ∃ m, load goParsers (rowsOf order) = .ok m ∧
      ∀ k, m.lookup k = (des.lookup k).map reread := by
  obtain ⟨hnd, hrows⟩ := lisOf_entries des order ho
  refine ⟨(lisOf order).foldl (fun (m : GoMap) r => m.set r.Dat (rereadRow r))
    (∅ : GoMap), ?_, ?_⟩
  · show load goParsers (header :: (lisOf order).map render) = _
    rw [load_cons]
    apply foldlM_render
    intro r hr
    obtain ⟨v, hl, hre⟩ := hrows r hr
    exact ⟨v, hre, hk ⟨r.Dat, v⟩ (AList.mem_lookup_iff.mp hl)⟩
  · intro k
    rw [lookup_foldl_set_of _ _ _ k hnd]
    cases hf : (lisOf order).find? (fun r => r.Dat = k) with
    | some r =>
      have hr : r ∈ lisOf order := List.mem_of_find?_eq_some hf
      have hrk : r.Dat = k := by simpa using List.find?_some hf
      obtain ⟨v, hl, hre⟩ := hrows r hr
      have h2 := rereadRow_toRow ⟨r.Dat, v⟩
      rw [← hre] at h2
      simp only
      rw [← hrk, hl, h2]
      rfl
    | none =>
      simp only [AList.lookup_empty]
      cases hd : des.lookup k with
      | none => rfl
      | some v =>
        exfalso
        have hm := mem_lisOf_of_lookup hd ho
        have := List.find?_eq_none.mp hf _ hm
        simp [toRow] at this

/-- C8, as stated, fails, for the values the resolver computes as for others.  The
output map holds `206.0 / 200.0 - 1` for 2021-01-01; it is written `0.03000` with the
flag 1, and loading the rows gives the `float64` value 0.03, another value.  And the
output map that holds 0.000001, confirmed, is written `0.00000` with the flag 1 and
loads as 0, which is not even a confirmed value. -/
theorem round_trip_loses_digits :
    fetchedOutput.lookup 1609459200 = some inflationValue ∧
    rowsOf fetchedOutput.entries = [header, ["2021-01-01T00:00:00Z", "0.03000", "1"]] ∧
    (load goParsers (rowsOf fetchedOutput.entries)).map (fun m => m.lookup 1609459200)
      = .ok (some (F64.fin (3 / 100))) ∧
    F64.fin (3 / 100) ≠ inflationValue ∧
    F64.eq (F64.fin (3 / 100)) inflationValue = false ∧
    tinyOutput.lookup 1609459200 = some (F64.fin (1 / 1000000)) ∧
    rowsOf tinyOutput.entries = [header, ["2021-01-01T00:00:00Z", "0.00000", "1"]] ∧
    (load goParsers (rowsOf tinyOutput.entries)).map (fun m => m.lookup 1609459200)
      = .ok (some (F64.fin 0)) ∧
    F64.gt (F64.fin (1 / 1000000)) F64.zero = true ∧
    F64.gt (F64.fin 0) F64.zero = false := by
  decide!

/-- C8, amended.  For an output map (the empty one too) whose dates are instants of the
years 0 to 9999, and whatever order the map is iterated in: loading, with the reference
parsers, the rows the writer builds succeeds and gives a map with the same keys; the
value of a key is what is read from the row of the original value `v`, the `float64`
nearest to the five fractional digits written for its magnitude, negated when `v` is
not confirmed.  That is `v` itself when `v` is such a value; a value that is not
confirmed is read as one that is not confirmed, a confirmed one as a confirmed one
unless its magnitude is written `0.00000`; and a value that was read from rows, as one
that is not confirmed or as a confirmed one, is read from its own row as it is. -/
theorem round_trip (des : GoMap) (order : List (Sigma (fun _ : Time => F64)))
    (ho : order.Perm des.entries)
    (hk : ∀ e ∈ des.entries, 0 ≤ Time.year e.1 ∧ Time.year e.1 ≤ 9999) :
    ∃ m, load goParsers (rowsOf order) = .ok m ∧ (∀ k, k ∈ m ↔ k ∈ des) ∧
      (∀ k, m.lookup k = (des.lookup k).map reread) ∧
      (∀ k v, des.lookup k = some v → reread v = v → m.lookup k = some v) ∧
      (∀ k v, des.lookup k = some v → F64.gt v F64.zero = false →
        ∃ w, m.lookup k = some w ∧ F64.gt w F64.zero = false) ∧
      (∀ k v, des.lookup k = some v → F64.gt v F64.zero = true →
        fmt5 (F64.abs v) ≠ "0.00000" →
        ∃ w, m.lookup k = some w ∧ F64.gt w F64.zero = true) ∧
      ∀ v, (F64.gt v F64.zero = false ∨ F64.gt (reread v) F64.zero = true) →
        reread (reread v) = reread v := by
  obtain ⟨m, hload, hlook⟩ := load_rows des order ho hk
  refine ⟨m, hload, ?_, hlook, ?_, ?_, ?_, reread_reread⟩
  · intro k
    rw [← AList.lookup_isSome, ← AList.lookup_isSome, hlook k]
    cases des.lookup k <;> rfl
  · intro k v hl hv
    rw [hlook k, hl]
    show some (reread v) = some v
    rw [hv]
  · intro k v hl hv
    refine ⟨reread v, ?_, reread_not_gt v hv⟩
    rw [hlook k, hl]
    rfl
  · intro k v hl hv hz
    refine ⟨reread v, ?_, ?_⟩
    · rw [hlook k, hl]
      rfl
    · have e : reread v = round5 v := by simp [reread, hv]
      rw [e]
      exact round5_pos v hv hz

/-- C8, amended, on the map with 2021-01-01 at the `float64` value 0.03, confirmed, and
2021-01-02 at its negation: written and loaded, it comes back with the same keys and
values. -/
theorem round_trip_witness :
    ∃ m, load goParsers (rowsOf twoDayOutput.entries) = .ok m ∧
      (∀ k, k ∈ m ↔ k ∈ twoDayOutput) ∧
      m.lookup 1609459200 = some (F64.fin (3 / 100)) ∧
      m.lookup 1609545600 = some (F64.fin (-3 / 100)) :=
  have h := round_trip twoDayOutput twoDayOutput.entries (List.Perm.refl _) (by decide!)
  h.elim (fun m hm => ⟨m, hm.1, hm.2.1,
    hm.2.2.2.1 1609459200 (F64.fin (3 / 100)) (by decide!) (by decide!),
    hm.2.2.2.1 1609545600 (F64.fin (-3 / 100)) (by decide!) (by decide!)⟩)

theorem foldl_step_not_running (lim : Nat) (cur : GoMap) (W : World) (fra : List Time)
    (s : State) (h : s.status ≠ .running) : fra.foldl (step lim cur W) s = s := by
  induction fra with
  | nil => rfl
  | cons x xs ih => rw [List.foldl_cons, step_not_running lim cur W s x h, ih]

/-- A pass that is still running at its end was running after every part of it. -/
theorem running_of_fill_append (lim : Nat) (cur : GoMap) (W : World) (pre post : List Time)
    (h : (fill lim cur W (pre ++ post)).status = .running) :
    (fill lim cur W pre).status = .running := by
  by_contra hn
  rw [fill_append, foldl_step_not_running lim cur W post _ hn] at h
  exact hn h

/-- C10, as stated, fails: the cache holds an entry for 2021-01-12 that is not
confirmed; the ten frames from 2021-01-01 on use up the budget, the pass runs to its
end, and the output map has no entry for 2021-01-12. -/
theorem unconfirmed_entry_dropped :
    staleCache.lookup 1610409600 = some (F64.fin (-3 / 100)) ∧
    1610409600 ∈ twelveDays ∧
    (fill reqlim staleCache unavailableWorld twelveDays).status = .running ∧
    (fill reqlim staleCache unavailableWorld twelveDays).cou = 10 ∧
    (fill reqlim staleCache unavailableWorld twelveDays).des.lookup 1610409600 = none ∧
    1610409600 ∉ (fill reqlim staleCache unavailableWorld twelveDays).des.keys := by
  decide!

/-- C10, amended.  When the pass over the frames runs to its end, every frame start of
the list that is a key of the loaded cache with a value `v > 0` is a key of the output
map, with the value `v`, and its struct, with `Updated = 1`, is written whatever order
the map is iterated in. -/
theorem confirmed_entries_kept (lim : Nat) (cur : GoMap) (W : World) (fra : List Time)
    (k : Time) (v : F64)
    (hs : (fill lim cur W fra).status = .running)
    (hk : k ∈ fra) (hc : cur.lookup k = some v) (hv : F64.gt v F64.zero = true) :
    (fill lim cur W fra).des.lookup k = some v ∧ k ∈ (fill lim cur W fra).des ∧
    ∀ order : List (Sigma (fun _ : Time => F64)),
      order.Perm (fill lim cur W fra).des.entries →
      ({ Dat := k, Inflation := v, Updated := 1 } : csvrow) ∈ lisOf order := by
  obtain ⟨pre, post, rfl⟩ := List.append_of_mem hk
  have hpre := running_of_fill_append lim cur W pre (k :: post) hs
  have h1 : (fill lim cur W (pre ++ k :: post)).des.lookup k = some v := by
    rw [fill_append, List.foldl_cons]
    apply foldl_step_hit_lookup lim cur W post _ k v hc hv
    rw [step_hit lim cur W _ k v hpre hc hv]
    exact GoMap.lookup_set_same _ _ _
  refine ⟨h1, ?_, ?_⟩
  · rw [← AList.lookup_isSome, h1]
    rfl
  · intro order ho
    have h3 : toRow ⟨k, v⟩ = { Dat := k, Inflation := v, Updated := 1 } := by
      simp [toRow, F64.abs_of_gt_zero hv, hv]
    rw [← h3]
    exact mem_lisOf_of_lookup h1 ho

/-- C10, amended, at the example of the specification: 2021-01-01 is in the cache at
0.03, confirmed, and a pass over 2021-01-01 and 2021-01-02 keeps it. -/
theorem confirmed_entries_kept_witness :
    (fill reqlim januaryCache unavailableWorld [1609459200, 1609545600]).des.lookup 1609459200
      = some (F64.fin (3 / 100)) ∧
    1609459200 ∈ (fill reqlim januaryCache unavailableWorld [1609459200, 1609545600]).des :=
  have h := confirmed_entries_kept reqlim januaryCache unavailableWorld
    [1609459200, 1609545600] 1609459200 (F64.fin (3 / 100))
    (by decide!) (by decide!) (by decide!) (by decide!)
  ⟨h.1, h.2.1⟩

/-- C15.  A frame that goes through the action, for which the resolver answers `-1`
while the output map holds a value `p < 0` for the frame 24 hours earlier: the action
stores `p` itself for the frame, the value is still there at the end of the loop when
the frame is not listed again, and its struct has the magnitude of `p` and
`Updated = 0`. -/
theorem derive_from_unconfirmed (lim : Nat) (cur : GoMap) (W : World) (pre post : List Time)
    (sta : Time) (p : F64)
    (hs : (fill lim cur W pre).status = .running)
    (hm : (cur.has sta && F64.gt (cur.get sta) F64.zero) = false)
    (hb : (fill lim cur W pre).cou < lim)
    (hr : (W.bud sta).ran = true)
    (hu : W.api sta = .ok F64.minusOne)
    (hp : (fill lim cur W pre).des.lookup (sta.add (-dayLen)) = some p)
    (hv : F64.lt p F64.zero = true)
    (hn : sta ∉ post) :
    (fill lim cur W (pre ++ [sta])).des.lookup sta = some p ∧
    (fill lim cur W (pre ++ sta :: post)).des.lookup sta = some p ∧
    toRow ⟨sta, p⟩ = { Dat := sta, Inflation := F64.abs p, Updated := 0 } := by
  have hact : act W.api (fill lim cur W pre).des sta
      = .ok ((fill lim cur W pre).des.set sta p) := by
    rw [act_eq W.api _ sta F64.minusOne hu, GoMap.get_of_lookup hp]
    have e1 : F64.eq F64.minusOne F64.minusOne = true := F64.constants.1
    simp [e1, hv, F64.gt_zero_of_lt_zero hv]
  have h1 : (step lim cur W (fill lim cur W pre) sta).des.lookup sta = some p := by
    rw [(step_ran lim cur W _ sta _ hs hm hb hr hact).1]
    exact GoMap.lookup_set_same _ _ _
  refine ⟨?_, ?_, ?_⟩
  · rw [fill_append]
    exact h1
  · rw [fill_append, List.foldl_cons, foldl_step_lookup lim cur W post _ sta hn]
    exact h1
  · simp [toRow, F64.gt_zero_of_lt_zero hv]

/-- C15 on three days: 2021-01-01 is cached at 0.03, the resolver has no figure, so
2021-01-02 gets -0.03, and 2021-01-03, whose predecessor is not confirmed, gets the same
-0.03. -/
theorem derive_from_unconfirmed_witness :
    (fill reqlim januaryCache unavailableWorld
        ([1609459200, 1609545600] ++ [1609632000])).des.lookup 1609632000
      = some (F64.fin (-3 / 100)) ∧
    toRow ⟨1609632000, F64.fin (-3 / 100)⟩
      = { Dat := 1609632000, Inflation := F64.abs (F64.fin (-3 / 100)), Updated := 0 } :=
  have h := derive_from_unconfirmed reqlim januaryCache unavailableWorld
    [1609459200, 1609545600] [] 1609632000 (F64.fin (-3 / 100))
    (by decide!) (by decide!) (by decide!) (by decide!) (by decide!) (by decide!)
    (by decide!) (by decide!)
  ⟨h.1, h.2.2⟩

/-- C16, as stated, fails: the cache is empty and the resolver has no figure for
2021-01-01, the first frame; the value stored is the `-1` of the resolver, and the row
written has the magnitude `1.00000`, not zero, with the flag 0. -/
theorem missing_predecessor_writes_one :
    (fill reqlim ∅ unavailableWorld [1609459200]).des.lookup 1609459200
      = some (F64.fin (-1)) ∧
    (fill reqlim ∅ unavailableWorld [1609459200]).des.lookup (1609459200 - 86400) = none ∧
    lisOf (fill reqlim ∅ unavailableWorld [1609459200]).des.entries
      = [{ Dat := 1609459200, Inflation := F64.fin 1, Updated := 0 }] ∧
    rowsOf (fill reqlim ∅ unavailableWorld [1609459200]).des.entries
      = [header, ["2021-01-01T00:00:00Z", "1.00000", "0"]] := by
  decide!

/-- C16, amended.  A frame that goes through the action, for which the resolver answers
`-1` while the output map has no entry for the frame 24 hours earlier: the action stores
the `-1` as it is, the value is still there at the end of the loop when the frame is not
listed again, and the struct sorted for writing has `Inflation = 1` and `Updated = 0`,
whatever order the map is iterated in. -/
theorem missing_predecessor (lim : Nat) (cur : GoMap) (W : World) (pre post : List Time)
    (sta : Time)
    (hs : (fill lim cur W pre).status = .running)
    (hm : (cur.has sta && F64.gt (cur.get sta) F64.zero) = false)
    (hb : (fill lim cur W pre).cou < lim)
    (hr : (W.bud sta).ran = true)
    (hu : W.api sta = .ok F64.minusOne)
    (hp : (fill lim cur W pre).des.lookup (sta.add (-dayLen)) = none)
    (hn : sta ∉ post) :
    (fill lim cur W (pre ++ sta :: post)).des.lookup sta = some F64.minusOne ∧
    toRow ⟨sta, F64.minusOne⟩ = { Dat := sta, Inflation := F64.fin 1, Updated := 0 } ∧
    ∀ order : List (Sigma (fun _ : Time => F64)),
      order.Perm (fill lim cur W (pre ++ sta :: post)).des.entries →
      ({ Dat := sta, Inflation := F64.fin 1, Updated := 0 } : csvrow) ∈ lisOf order := by
  have hact : act W.api (fill lim cur W pre).des sta
      = .ok ((fill lim cur W pre).des.set sta F64.minusOne) := by
    rw [act_eq W.api _ sta F64.minusOne hu]
    have hg : (fill lim cur W pre).des.get (sta.add (-dayLen)) = F64.zero := by
      simp [GoMap.get, hp]
    rw [hg]
    have e1 : F64.gt F64.zero F64.zero = false := F64.constants.2.1
    have e2 : F64.lt F64.zero F64.zero = false := F64.constants.2.2.1
    simp [e1, e2]
  have h2 : (fill lim cur W (pre ++ sta :: post)).des.lookup sta = some F64.minusOne := by
    rw [fill_append, List.foldl_cons, foldl_step_lookup lim cur W post _ sta hn,
      (step_ran lim cur W _ sta _ hs hm hb hr hact).1]
    exact GoMap.lookup_set_same _ _ _
  have h3 : toRow ⟨sta, F64.minusOne⟩ = { Dat := sta, Inflation := F64.fin 1, Updated := 0 } := by
    simp [toRow, F64.constants.2.2.2.1, F64.constants.2.2.2.2.2.1]
  refine ⟨h2, h3, ?_⟩
  intro order ho
  rw [← h3]
  exact mem_lisOf_of_lookup h2 ho

/-- C16, amended, at the first frame of an empty cache: 2021-01-01 has no predecessor in
the output map and gets `-1`, written with the magnitude 1 and the flag 0. -/
theorem missing_predecessor_witness :
    (fill reqlim ∅ unavailableWorld ([] ++ 1609459200 :: [])).des.lookup 1609459200
      = some F64.minusOne ∧
    toRow ⟨1609459200, F64.minusOne⟩
      = { Dat := 1609459200, Inflation := F64.fin 1, Updated := 0 } :=
  have h := missing_predecessor reqlim ∅ unavailableWorld [] [] 1609459200
    (by decide!) (by decide!) (by decide!) (by decide!) (by decide!) (by decide!) (by decide!)
  ⟨h.1, h.2.1⟩

/-- With the counter at the limit, the body of the loop does nothing for a frame that is
not a confirmed cache hit. -/
theorem step_exhausted (lim : Nat) (cur : GoMap) (W : World) (s : State) (sta : Time)
    (hb : lim ≤ s.cou) :
    (step lim cur W s sta).cou = s.cou ∧ (step lim cur W s sta).calls = s.calls ∧
    (step lim cur W s sta).status = s.status ∧
    ((cur.has sta && F64.gt (cur.get sta) F64.zero) = false → step lim cur W s sta = s) := by
  by_cases hs : s.status = .running
  · rw [step_running lim cur W s sta hs]
    split
    · rename_i h
      exact ⟨rfl, rfl, rfl, fun h2 => by rw [h2] at h; cases h⟩
    · rw [if_neg (Nat.not_lt.mpr hb)]
      exact ⟨rfl, rfl, rfl, fun _ => rfl⟩
  · rw [step_not_running lim cur W s sta hs]
    exact ⟨rfl, rfl, rfl, fun _ => rfl⟩

theorem foldl_exhausted (lim : Nat) (cur : GoMap) (W : World) (fra : List Time) (s : State)
    (hb : lim ≤ s.cou) :
    (fra.foldl (step lim cur W) s).cou = s.cou ∧
    (fra.foldl (step lim cur W) s).calls = s.calls ∧
    ∀ k, (cur.has k && F64.gt (cur.get k) F64.zero) = false →
      (fra.foldl (step lim cur W) s).des.lookup k = s.des.lookup k := by
  induction fra generalizing s with
  | nil => exact ⟨rfl, rfl, fun _ _ => rfl⟩
  | cons x xs ih =>
    obtain ⟨h1, h2, -, h4⟩ := step_exhausted lim cur W s x hb
    obtain ⟨i1, i2, i3⟩ := ih (step lim cur W s x) (by rw [h1]; exact hb)
    rw [List.foldl_cons]
    refine ⟨i1.trans h1, i2.trans h2, ?_⟩
    intro k hk
    rw [i3 k hk]
    by_cases hx : k = x
    · subst hx
      rw [h4 hk]
    · exact step_lookup_ne lim cur W s hx

theorem fill_lookup_of_not_mem (lim : Nat) (cur : GoMap) (W : World) (fra : List Time)
    (k : Time) (h : k ∉ fra) : (fill lim cur W fra).des.lookup k = none := by
  unfold fill
  rw [foldl_step_lookup lim cur W fra _ k h]
  rfl

/-- C17.  Once the counter has reached the limit after the frames `pre`, the frames
`post` that follow leave the counter and the record of the resolver calls as they are,
and a frame among them that is not a confirmed cache hit, absent from the cache or
present with a value that is not positive, and that was not met before, has no entry in
the output map at the end of the loop. -/
theorem budget_exhausted (lim : Nat) (cur : GoMap) (W : World) (pre post : List Time)
    (sta : Time)
    (hb : lim ≤ (fill lim cur W pre).cou)
    (hm : (cur.has sta && F64.gt (cur.get sta) F64.zero) = false)
    (_hin : sta ∈ post) (hnp : sta ∉ pre) :
    (fill lim cur W (pre ++ post)).calls = (fill lim cur W pre).calls ∧
    (fill lim cur W (pre ++ post)).cou = (fill lim cur W pre).cou ∧
    sta ∉ (fill lim cur W (pre ++ post)).calls ∧
    (fill lim cur W (pre ++ post)).des.lookup sta = none := by
  obtain ⟨h1, h2, h3⟩ := foldl_exhausted lim cur W post (fill lim cur W pre) hb
  have hcalls : ∀ (fra : List Time) (s : State) (k : Time), k ∉ fra → k ∉ s.calls →
      k ∉ (fra.foldl (step lim cur W) s).calls := by
    intro fra
    induction fra with
    | nil => intro s k _ hk; exact hk
    | cons x xs ih =>
      intro s k hk hs
      rw [List.foldl_cons]
      apply ih _ k (fun h => hk (List.mem_cons_of_mem _ h))
      by_cases hr : s.status = .running
      · rw [step_running lim cur W s x hr]
        split
        · exact hs
        · split
          · rcases execute_calls W { s with cou := if !cur.has x then s.cou + 1 else s.cou } x
              with hc | hc
            · rw [hc]; exact hs
            · rw [hc]
              intro hmem
              rcases List.mem_cons.mp hmem with h | h
              · exact hk (h ▸ List.mem_cons_self _ _)
              · exact hs h
          · exact hs
      · rw [step_not_running lim cur W s x hr]
        exact hs
  rw [fill_append]
  refine ⟨h2, h1, ?_, ?_⟩
  · rw [h2]
    exact hcalls pre State.init sta hnp (by simp [State.init])
  · rw [h3 sta hm]
    exact fill_lookup_of_not_mem lim cur W pre sta hnp

/-- C17 on twelve days with a cache that holds 2021-01-12 not confirmed: the first ten
frames use up the budget, and 2021-01-12 gets no resolver call and no entry. -/
theorem budget_exhausted_witness :
    (fill reqlim staleCache unavailableWorld (twelveDays.take 10 ++ twelveDays.drop 10)).calls
      = (fill reqlim staleCache unavailableWorld (twelveDays.take 10)).calls ∧
    1610409600 ∉
      (fill reqlim staleCache unavailableWorld (twelveDays.take 10 ++ twelveDays.drop 10)).calls ∧
    (fill reqlim staleCache unavailableWorld
      (twelveDays.take 10 ++ twelveDays.drop 10)).des.lookup 1610409600 = none :=
  have h := budget_exhausted reqlim staleCache unavailableWorld (twelveDays.take 10)
    (twelveDays.drop 10) 1610409600 (by decide!) (by decide!) (by decide!) (by decide!)
  ⟨h.1, h.2.2.1, h.2.2.2⟩

theorem execute_stop (W : World) (s : State) (sta : Time)
    (he : (W.bud sta).err = .cancel ∨ (W.bud sta).err = .passed)
    (hok : (W.bud sta).ran = true → ∃ f, W.api sta = .ok f) :
    (execute W s sta).status = .stopped := by
  unfold execute
  by_cases hr : (W.bud sta).ran = true
  · obtain ⟨f, hf⟩ := hok hr
    rw [if_pos hr, act_eq W.api s.des sta f hf]
    rcases he with h | h <;> simp [h, afterErr]
  · rw [if_neg hr]
    rcases he with h | h <;> simp [h, afterErr]

/-- C18.  A frame that reaches the executor, for which the executor returns the error of
a cancel or of a passed budget: the loop ends there, in the state `break` leaves, so
that the frames after it change nothing; a later frame that was not met before has no
entry in the output map, confirmed in the cache or not; and the run goes on to the
writer and returns rows, those of the output map at that frame. -/
theorem terminal_stop (cur : GoMap) (W : World) (pre post : List Time) (sta : Time)
    (hs : (fill reqlim cur W pre).status = .running)
    (hm : (cur.has sta && F64.gt (cur.get sta) F64.zero) = false)
    (hb : (fill reqlim cur W pre).cou < reqlim)
    (he : (W.bud sta).err = .cancel ∨ (W.bud sta).err = .passed)
    (hok : (W.bud sta).ran = true → ∃ f, W.api sta = .ok f) :
    (fill reqlim cur W (pre ++ [sta])).status = .stopped ∧
    fill reqlim cur W (pre ++ sta :: post) = fill reqlim cur W (pre ++ [sta]) ∧
    (∀ k ∈ post, k ∉ pre → k ≠ sta →
      (fill reqlim cur W (pre ++ sta :: post)).des.lookup k = none) ∧
    ∀ (P : Parsers) (row : List (List String)), load P row = .ok cur →
      run P W (pre ++ sta :: post) row
        = .ok (rowsOf (fill reqlim cur W (pre ++ [sta])).des.entries) := by
  have h1 : (fill reqlim cur W (pre ++ [sta])).status = .stopped := by
    rw [fill_append, List.foldl_cons, List.foldl_nil, step_running reqlim cur W _ sta hs]
    simp only [hm, hb, if_true, Bool.false_eq_true, if_false]
    exact execute_stop W _ sta he hok
  have h2 : fill reqlim cur W (pre ++ sta :: post) = fill reqlim cur W (pre ++ [sta]) := by
    have e : pre ++ sta :: post = (pre ++ [sta]) ++ post := by simp
    rw [e, fill_append reqlim cur W (pre ++ [sta]) post]
    apply foldl_step_not_running
    rw [h1]
    intro h
    cases h
  refine ⟨h1, h2, ?_, ?_⟩
  · intro k _ hkp hks
    rw [h2]
    apply fill_lookup_of_not_mem
    intro hmem
    rcases List.mem_append.mp hmem with h | h
    · exact hkp h
    · exact hks (List.mem_singleton.mp h)
  · intro P row hl
    unfold run
    rw [hl]
    simp only [bind, Except.bind]
    rw [h2, h1]
    rfl

/-- C18 on three days: the executor reports a passed budget for 2021-01-02; the loop
ends there, and 2021-01-03, which the cache holds confirmed at 0.03, has no entry. -/
theorem terminal_stop_witness :
    (fill reqlim laterCache stopWorld ([1609459200] ++ [1609545600])).status = .stopped ∧
    (∀ k ∈ [1609632000], k ∉ [1609459200] → k ≠ 1609545600 →
      (fill reqlim laterCache stopWorld
        ([1609459200] ++ 1609545600 :: [1609632000])).des.lookup k = none) :=
  have h := terminal_stop laterCache stopWorld [1609459200] [1609632000] 1609545600
    (by decide!) (by decide!) (by decide!) (Or.inr (by decide!)) (fun _ => ⟨_, rfl⟩)
  ⟨h.1, h.2.2.1⟩

theorem musf64_error (P : Parsers) (str : String) (a : Abort)
    (h : musf64 P str = .error a) : a = .fatal := by
  unfold musf64 at h
  cases hf : P.float str with
  | none =>
    rw [hf] at h
    exact (Except.error.inj h).symm
  | some f =>
    rw [hf] at h
    cases h

theorem scanStep_error (P : Parsers) (pry cyr mon : String) (acc : F64 × F64)
    (x : resstrdat) (a : Abort) (h : scanStep P pry cyr mon acc x = .error a) :
    a = .fatal := by
  unfold scanStep at h
  cases hm : musf64 P x.Value with
  | ok f =>
    simp only [hm, bind, Except.bind, pure, Except.pure] at h
    split_ifs at h
  | error c =>
    have hc := musf64_error P x.Value c hm
    subst hc
    simp only [hm, bind, Except.bind, pure, Except.pure] at h
    split_ifs at h <;> exact (Except.error.inj h).symm

theorem scan_error (P : Parsers) (pry cyr mon : String) (dat : List resstrdat)
    (acc : F64 × F64) (a : Abort)
    (h : dat.foldlM (scanStep P pry cyr mon) acc = .error a) : a = .fatal := by
  induction dat generalizing acc with
  | nil => cases h
  | cons x xs ih =>
    rw [List.foldlM_cons] at h
    cases hx : scanStep P pry cyr mon acc x with
    | ok acc2 =>
      rw [hx] at h
      exact ih acc2 h
    | error b =>
      rw [hx] at h
      have hb : b = a := Except.error.inj h
      subst hb
      exact scanStep_error P pry cyr mon acc x b hx

/-- What `musapi` does once the months differ and the response is there. -/
theorem musapi_response (P : Parsers) (now des : Time) (remote : String → Fetch)
    (byt : String) (dat : resstr) (hmon : now.month ≠ des.month)
    (hrem : remote (apifmt (fmtYear (des.addYears (-2)).year) (fmtYear des.year))
      = .ok byt dat) :
    (musapi P now remote des).out =
      match dat.Results.Series with
      | [ser] => (scan P (fmtYear (des.addYears (-1)).year) (fmtYear des.year)
          ("M" ++ fmtMonth des.month) ser.Data).map (fun pc => ratio pc.1 pc.2)
      | _ => .error (.panicBody byt) := by
  unfold musapi
  rw [if_neg hmon]
  simp only [hrem]
  rcases dat.Results.Series with _ | ⟨ser, _ | ⟨s2, rest⟩⟩ <;> rfl

theorem musapi_ratio (P : Parsers) (now des : Time) (remote : String → Fetch)
    (byt : String) (ser : resstrser) (hmon : now.month ≠ des.month)
    (hrem : remote (apifmt (fmtYear (des.addYears (-2)).year) (fmtYear des.year))
      = .ok byt { Results := { Series := [ser] } })
    (hp : ∀ x ∈ ser.Data, x.Period = "M" ++ fmtMonth des.month →
      (x.Year = fmtYear des.year ∨ x.Year = fmtYear (des.addYears (-1)).year) →
      (P.float x.Value).isSome = true) :
    (musapi P now remote des).out = .ok
      (ratio (pointValue P (fmtYear (des.addYears (-1)).year) ("M" ++ fmtMonth des.month)
          ser.Data)
        (pointValue P (fmtYear des.year) ("M" ++ fmtMonth des.month) ser.Data)) := by
  rw [musapi_response P now des remote byt _ hmon hrem]
  simp only
  rw [scan_eq P _ _ _ ser.Data hp]
  rfl

/-- C12, as stated, fails: the response has the index for January 2021, 206.0, and none
for January 2020, so that the previous value is zero and the current one is not; the
resolver divides and returns an infinity, not `-1`.  With `-0.0` for January 2020 the
previous value is the negative zero, which is equal to zero, and the infinity is the
negative one. -/
theorem zero_previous_gives_infinity :
    pointValue goParsers "2020" "M01"
        [{ Period := "M01", Value := "206.0", Year := "2021" }] = F64.fin 0 ∧
    pointValue goParsers "2021" "M01"
        [{ Period := "M01", Value := "206.0", Year := "2021" }] = F64.fin 206 ∧
    (musapi goParsers 1612915200 noPreviousRemote 1609459200).out = .ok (F64.inf false) ∧
    (musapi goParsers 1612915200 negZeroRemote 1609459200).out = .ok (F64.inf true) := by
  decide!

theorem F64.one_bits :
    F64.fin 1 = F64.finite false ⟨4607182418800017408, by decide⟩ ∧
    F64.minusOne = F64.finite true ⟨4607182418800017408, by decide⟩ := by
  decide!

/-- A finite value that is not equal to zero has bits other than zero. -/
theorem F64.bits_ne_zero {s : Bool} {b : Fin 9218868437227405312}
    (h : F64.eq (F64.finite s b) F64.zero = false) : b.val ≠ 0 := by
  intro hb
  have hb2 : b = ⟨0, by decide⟩ := Fin.ext hb
  subst hb2
  cases s <;> revert h <;> decide!

/-- C12, amended.  For a day whose month of the year is not that of the clock and a
response with exactly one series whose values parse, in which the previous value is
equal to zero, missing or written as a zero, and the current one is not: the resolver
returns the result of its division minus one, which is an infinity or NaN, no finite
value and not `-1`: NaN when the current value is NaN, otherwise the infinity whose
sign is that of the current value, turned round when the previous value is the negative
zero. -/
theorem zero_previous_divides (P : Parsers) (now des : Time) (remote : String → Fetch)
    (byt : String) (ser : resstrser)
    (hmon : now.month ≠ des.month)
    (hrem : remote (apifmt (fmtYear (des.addYears (-2)).year) (fmtYear des.year))
      = .ok byt { Results := { Series := [ser] } })
    (hp : ∀ x ∈ ser.Data, x.Period = "M" ++ fmtMonth des.month →
      (x.Year = fmtYear des.year ∨ x.Year = fmtYear (des.addYears (-1)).year) →
      (P.float x.Value).isSome = true)
    (hpre : F64.eq (pointValue P (fmtYear (des.addYears (-1)).year)
      ("M" ++ fmtMonth des.month) ser.Data) F64.zero = true)
    (hcur : F64.eq (pointValue P (fmtYear des.year) ("M" ++ fmtMonth des.month) ser.Data)
      F64.zero = false) :
    ∃ r, (musapi P now remote des).out = .ok r ∧
      r = F64.sub (F64.div (pointValue P (fmtYear des.year) ("M" ++ fmtMonth des.month)
          ser.Data)
        (pointValue P (fmtYear (des.addYears (-1)).year) ("M" ++ fmtMonth des.month)
          ser.Data)) (F64.fin 1) ∧
      (r = F64.nan ∨ r = F64.inf false ∨ r = F64.inf true) ∧
      F64.eq r F64.minusOne = false ∧
      (pointValue P (fmtYear des.year) ("M" ++ fmtMonth des.month) ser.Data = F64.nan →
        r = F64.nan) ∧
      (pointValue P (fmtYear des.year) ("M" ++ fmtMonth des.month) ser.Data ≠ F64.nan →
        r = F64.inf
          (F64.signBit (pointValue P (fmtYear des.year) ("M" ++ fmtMonth des.month) ser.Data)
            != F64.signBit (pointValue P (fmtYear (des.addYears (-1)).year)
              ("M" ++ fmtMonth des.month) ser.Data))) := by
  have h := musapi_ratio P now des remote byt ser hmon hrem hp
  have hz := F64.eq_zero hpre
  generalize pointValue P (fmtYear des.year) ("M" ++ fmtMonth des.month) ser.Data = cur at *
  generalize pointValue P (fmtYear (des.addYears (-1)).year) ("M" ++ fmtMonth des.month)
    ser.Data = pre at *
  have hr : ratio pre cur = F64.sub (F64.div cur pre) (F64.fin 1) := by
    unfold ratio
    rw [hcur]
    simp
  rw [hr] at h
  refine ⟨_, h, rfl, ?_⟩
  have h1 := F64.one_bits.1
  have hm1 := F64.one_bits.2
  rw [h1, hm1]
  rcases hz with hz | hz
  · subst hz
    cases cur with
    | finite s b =>
      have hb := F64.bits_ne_zero hcur
      cases s <;> simp [F64.div, F64.sub, F64.eq, F64.zero, F64.signBit, hb]
    | inf b => cases b <;> simp [F64.div, F64.sub, F64.eq, F64.zero, F64.signBit]
    | nan => simp [F64.div, F64.sub, F64.eq, F64.zero]
  · subst hz
    cases cur with
    | finite s b =>
      have hb := F64.bits_ne_zero hcur
      cases s <;> simp [F64.div, F64.sub, F64.eq, F64.zero, F64.neg, F64.signBit, hb]
    | inf b => cases b <;> simp [F64.div, F64.sub, F64.eq, F64.zero, F64.neg, F64.signBit]
    | nan => simp [F64.div, F64.sub, F64.eq, F64.zero, F64.neg]

/-- C12, amended, for the day 2021-01-01 seen from 2021-02-10 with 206.0 for January
2021: with nothing for January 2020 the resolver returns the positive infinity, with
`-0.0` for January 2020 the negative one. -/
theorem zero_previous_divides_witness :
    (musapi goParsers 1612915200 noPreviousRemote 1609459200).out = .ok (F64.inf false) ∧
    (musapi goParsers 1612915200 negZeroRemote 1609459200).out = .ok (F64.inf true) :=
  ⟨(zero_previous_divides goParsers 1612915200 1609459200 noPreviousRemote "" _
      (by decide!) rfl (by decide!) (by decide!) (by decide!)).elim
      (fun _ hr => hr.1.trans (congrArg Except.ok
        ((hr.2.2.2.2.2 (by decide!)).trans (by decide!)))),
   (zero_previous_divides goParsers 1612915200 1609459200 negZeroRemote "" _
      (by decide!) rfl (by decide!) (by decide!) (by decide!)).elim
      (fun _ hr => hr.1.trans (congrArg Except.ok
        ((hr.2.2.2.2.2 (by decide!)).trans (by decide!))))⟩

/-- C13, as stated, fails in its last part: the response, for the day 2021-03-15 seen
from 2021-04-10, is decoded and has exactly one series, but the value for March 2020 is
`n/a`; the resolver returns neither a value nor `-1`, it ends the process by
`log.Fatal`, without the body. -/
theorem one_series_not_a_number :
    Time.month 1618012800 = 4 ∧ Time.month 1615766400 = 3 ∧
    (musapi goParsers 1618012800 notNumberRemote 1615766400).out = .error .fatal := by
  decide!

/-- C13, amended.  For a day whose month of the year is not that of the clock and a
decoded response: the resolver ends the process with the body of the response exactly
when the number of series is not one; with exactly one series it returns a value, `-1`
included, or ends the process by `log.Fatal`, and it returns when every value it reads
parses. -/
theorem series_count (P : Parsers) (now des : Time) (remote : String → Fetch)
    (byt : String) (dat : resstr)
    (hmon : now.month ≠ des.month)
    (hrem : remote (apifmt (fmtYear (des.addYears (-2)).year) (fmtYear des.year))
      = .ok byt dat) :
    ((musapi P now remote des).out = .error (.panicBody byt) ↔
      dat.Results.Series.length ≠ 1) ∧
    (dat.Results.Series.length = 1 →
      (∃ f, (musapi P now remote des).out = .ok f) ∨
        (musapi P now remote des).out = .error .fatal) ∧
    ∀ ser, dat.Results.Series = [ser] →
      (∀ x ∈ ser.Data, x.Period = "M" ++ fmtMonth des.month →
        (x.Year = fmtYear des.year ∨ x.Year = fmtYear (des.addYears (-1)).year) →
        (P.float x.Value).isSome = true) →
      ∃ f, (musapi P now remote des).out = .ok f := by
  have h := musapi_response P now des remote byt dat hmon hrem
  have hone : ∀ ser, dat.Results.Series = [ser] →
      (∃ f, (musapi P now remote des).out = .ok f) ∨
        (musapi P now remote des).out = .error .fatal := by
    intro ser hser
    rw [h, hser]
    simp only
    cases hs : scan P (fmtYear (des.addYears (-1)).year) (fmtYear des.year)
        ("M" ++ fmtMonth des.month) ser.Data with
    | ok pc => exact Or.inl ⟨_, rfl⟩
    | error a =>
      have ha := scan_error P _ _ _ ser.Data _ a hs
      subst ha
      exact Or.inr rfl
  refine ⟨⟨?_, ?_⟩, ?_, ?_⟩
  · intro hout hlen
    obtain ⟨ser, hser⟩ := List.length_eq_one.mp hlen
    rcases hone ser hser with ⟨f, hf⟩ | hf
    · rw [hf] at hout
      cases hout
    · rw [hf] at hout
      cases hout
  · intro hlen
    rw [h]
    split
    · rename_i ser hser
      rw [hser] at hlen
      exact absurd rfl hlen
    · rfl
  · intro hlen
    obtain ⟨ser, hser⟩ := List.length_eq_one.mp hlen
    exact hone ser hser
  · intro ser hser hp
    have hd : dat = { Results := { Series := [ser] } } := by
      cases dat with
      | mk res =>
        cases res with
        | mk srs =>
          simp only at hser
          rw [hser]
    rw [hd] at hrem
    exact ⟨_, musapi_ratio P now des remote byt ser hmon hrem hp⟩

/-- C13, amended, for the day 2021-01-01 seen from 2021-02-10: a response with two
series ends the process with its body, and a response with one series gives 0.03. -/
theorem series_count_witness :
    ((musapi goParsers 1612915200 twoSeriesRemote 1609459200).out
        = .error (.panicBody "body") ↔
      ({ Results := { Series := [{ Data := [] }, { Data := [] }] } } : resstr).Results.Series.length
        ≠ 1) ∧
    ∃ f, (musapi goParsers 1612915200 inflationRemote 1609459200).out = .ok f :=
  ⟨(series_count goParsers 1612915200 1609459200 twoSeriesRemote "body" _
      (by decide!) rfl).1,
   (series_count goParsers 1612915200 1609459200 inflationRemote "" _
      (by decide!) rfl).2.2 _ rfl (by decide!)⟩

/-- C14, as stated, fails: the remote side cannot be reached when the first frame,
2021-01-01, is resolved; the resolver ends the process by `log.Fatal` inside the action,
the loop is left with the process gone and the run writes nothing. -/
theorem failed_call_is_fatal :
    (musapi goParsers 1612915200 downRemote 1609459200).out = .error .fatal ∧
    (fill reqlim ∅ downWorld [1609459200, 1609545600]).status = .aborted .fatal ∧
    run goParsers downWorld [1609459200, 1609545600] [header] = .error .fatal := by
  decide!

/-- C14, amended.  For a frame that goes through the action, whatever error the executor
would return, when the request of the resolver fails, in `cli.Get` or in reading the
body: the resolver ends the process by `log.Fatal`; the action does not return, so that
the executor has nothing to retry; the loop is left with the process gone whatever
frames follow, and the run returns no rows. -/
theorem remote_failure_fatal (P : Parsers) (now : Time) (remote : String → Fetch)
    (cur : GoMap) (W : World) (pre post : List Time) (sta : Time)
    (hmon : now.month ≠ sta.month)
    (hrem : remote (apifmt (fmtYear (sta.addYears (-2)).year) (fmtYear sta.year)) = .getErr ∨
      remote (apifmt (fmtYear (sta.addYears (-2)).year) (fmtYear sta.year)) = .readErr)
    (hapi : W.api sta = (musapi P now remote sta).out)
    (hs : (fill reqlim cur W pre).status = .running)
    (hm : (cur.has sta && F64.gt (cur.get sta) F64.zero) = false)
    (hb : (fill reqlim cur W pre).cou < reqlim)
    (hr : (W.bud sta).ran = true) :
    (musapi P now remote sta).out = .error .fatal ∧
    act W.api (fill reqlim cur W pre).des sta = .error .fatal ∧
    (fill reqlim cur W (pre ++ sta :: post)).status = .aborted .fatal ∧
    ∀ (Q : Parsers) (row : List (List String)), load Q row = .ok cur →
      run Q W (pre ++ sta :: post) row = .error .fatal := by
  have h1 : (musapi P now remote sta).out = .error .fatal := by
    unfold musapi
    rw [if_neg hmon]
    rcases hrem with h | h <;> simp only [h]
  have h2 : act W.api (fill reqlim cur W pre).des sta = .error .fatal :=
    act_error W.api _ sta _ (hapi.trans h1)
  have h3 : (step reqlim cur W (fill reqlim cur W pre) sta).status = .aborted .fatal := by
    rw [step_running reqlim cur W _ sta hs]
    simp only [hm, hb, if_true, Bool.false_eq_true, if_false]
    unfold execute
    rw [if_pos hr]
    simp only [h2]
  have h4 : (fill reqlim cur W (pre ++ sta :: post)).status = .aborted .fatal := by
    rw [fill_append, List.foldl_cons, foldl_step_not_running reqlim cur W post _
      (by rw [h3]; intro h; cases h)]
    exact h3
  refine ⟨h1, h2, h4, ?_⟩
  intro Q row hl
  unfold run
  rw [hl]
  simp only [bind, Except.bind]
  rw [h4]

/-- C14, amended, with the remote side out of reach at the first frame, 2021-01-01, on
2021-02-10: the loop is left with the process gone. -/
theorem remote_failure_fatal_witness :
    (musapi goParsers 1612915200 downRemote 1609459200).out = .error .fatal ∧
    (fill reqlim ∅ downWorld ([] ++ 1609459200 :: [1609545600])).status = .aborted .fatal :=
  have h := remote_failure_fatal goParsers 1612915200 downRemote ∅ downWorld [] [1609545600]
    1609459200 (by decide!) (Or.inl rfl) rfl (by decide!) (by decide!) (by decide!)
    (by decide!)
  ⟨h.1, h.2.2.1⟩

/-- Zero over a finite value other than zero is a zero. -/
theorem F64.div_zero (s t : Bool) (b : Fin 9218868437227405312) (hb : b.val ≠ 0) :
    F64.div (F64.finite s ⟨0, by decide⟩) (F64.finite t b)
      = F64.finite (s != t) ⟨0, by decide⟩ := by
  unfold F64.div
  simp only [hb, if_false]
  unfold F64.ofMag
  have h0 : F64.roundBits (F64.mag 0 / F64.mag b.val) = 0 := by
    rw [F64.mag_zero, zero_div]
    simp [F64.roundBits]
  rw [dif_pos (by rw [h0]; decide)]
  congr 1
  exact Fin.ext h0

/-- A zero less one is `-1`. -/
theorem F64.sub_zero_one (u : Bool) :
    F64.sub (F64.finite u ⟨0, by decide⟩) (F64.fin 1) = F64.minusOne := by
  cases u <;> decide!

/-- C19, as stated, fails: the response has nothing for January 2021 and a data point for
January 2020 whose value is `NaN`; the previous value is not zero, the current one is
zero, and the resolver returns NaN, not `-1`. -/
theorem nan_previous_is_not_sentinel :
    pointValue goParsers "2020" "M01"
        [{ Period := "M01", Value := "NaN", Year := "2020" }] = F64.nan ∧
    F64.eq F64.nan F64.zero = false ∧
    pointValue goParsers "2021" "M01"
        [{ Period := "M01", Value := "NaN", Year := "2020" }] = F64.fin 0 ∧
    (musapi goParsers 1612915200 nanRemote 1609459200).out = .ok F64.nan ∧
    F64.eq F64.nan F64.minusOne = false := by
  decide!

/-- C19, amended.  For a day whose month of the year is not that of the clock and a
response with exactly one series whose values parse, in which the current value is zero
or missing and the previous one is a number other than zero: the resolver returns
exactly `-1`, and the action does for the frame what it does for a frame without a
figure: with `v > 0` held for the frame 24 hours earlier it stores `-v`, with `p < 0`
held there it stores `p`. -/
theorem sentinel_collision (P : Parsers) (now sta : Time) (remote : String → Fetch)
    (byt : String) (ser : resstrser)
    (hmon : now.month ≠ sta.month)
    (hrem : remote (apifmt (fmtYear (sta.addYears (-2)).year) (fmtYear sta.year))
      = .ok byt { Results := { Series := [ser] } })
    (hp : ∀ x ∈ ser.Data, x.Period = "M" ++ fmtMonth sta.month →
      (x.Year = fmtYear sta.year ∨ x.Year = fmtYear (sta.addYears (-1)).year) →
      (P.float x.Value).isSome = true)
    (hcur : F64.eq (pointValue P (fmtYear sta.year) ("M" ++ fmtMonth sta.month) ser.Data)
      F64.zero = true)
    (hpre : F64.eq (pointValue P (fmtYear (sta.addYears (-1)).year)
      ("M" ++ fmtMonth sta.month) ser.Data) F64.zero = false)
    (hnan : pointValue P (fmtYear (sta.addYears (-1)).year)
      ("M" ++ fmtMonth sta.month) ser.Data ≠ F64.nan) :
    (musapi P now remote sta).out = .ok F64.minusOne ∧
    (∀ des : GoMap, act (fun t => (musapi P now remote t).out) des sta
      = act (fun _ => .ok F64.minusOne) des sta) ∧
    (∀ (des : GoMap) (v : F64), des.lookup (sta.add (-dayLen)) = some v →
      F64.gt v F64.zero = true →
      act (fun t => (musapi P now remote t).out) des sta = .ok (des.set sta (F64.neg v))) ∧
    ∀ (des : GoMap) (p : F64), des.lookup (sta.add (-dayLen)) = some p →
      F64.lt p F64.zero = true →
      act (fun t => (musapi P now remote t).out) des sta = .ok (des.set sta p) := by
  have h := musapi_ratio P now sta remote byt ser hmon hrem hp
  have hz := F64.eq_zero hcur
  have hr : ratio (pointValue P (fmtYear (sta.addYears (-1)).year)
      ("M" ++ fmtMonth sta.month) ser.Data)
      (pointValue P (fmtYear sta.year) ("M" ++ fmtMonth sta.month) ser.Data)
      = F64.minusOne := by
    generalize pointValue P (fmtYear (sta.addYears (-1)).year)
      ("M" ++ fmtMonth sta.month) ser.Data = pre at *
    generalize pointValue P (fmtYear sta.year) ("M" ++ fmtMonth sta.month) ser.Data
      = cur at *
    unfold ratio
    rw [hpre]
    simp only [Bool.false_and, Bool.false_eq_true, if_false]
    have hc : ∃ u, cur = F64.finite u ⟨0, by decide⟩ := by
      rcases hz with hz | hz
      · exact ⟨false, hz⟩
      · exact ⟨true, hz⟩
    obtain ⟨u, rfl⟩ := hc
    cases pre with
    | finite t b =>
      rw [F64.div_zero u t b (F64.bits_ne_zero hpre)]
      exact F64.sub_zero_one _
    | inf b => exact F64.sub_zero_one _
    | nan => exact absurd rfl hnan
  rw [hr] at h
  have e1 : F64.eq F64.minusOne F64.minusOne = true := F64.constants.1
  refine ⟨h, ?_, ?_, ?_⟩
  · intro des
    rw [act_eq _ des sta F64.minusOne h,
      act_eq (fun _ => Except.ok F64.minusOne) des sta F64.minusOne rfl]
  · intro des v hv hg
    rw [act_eq _ des sta F64.minusOne h, GoMap.get_of_lookup hv]
    simp [e1, hg, F64.lt_zero_of_gt_zero hg]
  · intro des p hv hl
    rw [act_eq _ des sta F64.minusOne h, GoMap.get_of_lookup hv]
    simp [e1, hl, F64.gt_zero_of_lt_zero hl]

/-- C19, amended, for the day 2021-01-01 seen from 2021-02-10 with 200.0 for January
2020 and nothing for January 2021: the resolver returns `-1`. -/
theorem sentinel_collision_witness :
    (musapi goParsers 1612915200 noCurrentRemote 1609459200).out = .ok F64.minusOne :=
  (sentinel_collision goParsers 1612915200 1609459200 noCurrentRemote "" _
    (by decide!) rfl (by decide!) (by decide!) (by decide!) (by decide!)).1

theorem loadRow_three (P : Parsers) (m : GoMap) (x : List String) (h : 3 ≤ x.length) :
    ((∃ m2, loadRow P m x = .ok m2) ∨ loadRow P m x = .error .fatal) ∧
    (rowParses P x = true → ∃ m2, loadRow P m x = .ok m2) := by
  match x, h with
  | x0 :: x1 :: x2 :: more, _ =>
    by_cases h0 : x2 = "0"
    · subst h0
      cases ht : P.time x0 with
      | none =>
        refine ⟨Or.inr ?_, ?_⟩
        · simp [loadRow, mustim, ht, bind, Except.bind]
        · intro hr
          simp [rowParses, ht] at hr
      | some t =>
        cases hf : P.float x1 with
        | none =>
          refine ⟨Or.inr ?_, ?_⟩
          · simp [loadRow, mustim, musf64, ht, hf, bind, Except.bind]
          · intro hr
            simp [rowParses, hf] at hr
        | some f =>
          have := loadRow_zero P m x0 x1 more t f ht hf
          exact ⟨Or.inl ⟨_, this⟩, fun _ => ⟨_, this⟩⟩
    · by_cases h1 : x2 = "1"
      · subst h1
        cases ht : P.time x0 with
        | none =>
          refine ⟨Or.inr ?_, ?_⟩
          · simp [loadRow, mustim, ht, bind, Except.bind, pure, Except.pure]
          · intro hr
            simp [rowParses, ht] at hr
        | some t =>
          cases hf : P.float x1 with
          | none =>
            refine ⟨Or.inr ?_, ?_⟩
            · simp [loadRow, mustim, musf64, ht, hf, bind, Except.bind, pure, Except.pure]
            · intro hr
              simp [rowParses, hf] at hr
          | some f =>
            have := loadRow_one P m x0 x1 more t f ht hf
            exact ⟨Or.inl ⟨_, this⟩, fun _ => ⟨_, this⟩⟩
      · have := loadRow_other P m x0 x1 x2 more h0 h1
        exact ⟨Or.inl ⟨_, this⟩, fun _ => ⟨_, this⟩⟩

theorem foldlM_loadRow_three (P : Parsers) (rows : List (List String)) (m : GoMap)
    (h : ∀ x ∈ rows, 3 ≤ x.length) :
    ((∃ m2, rows.foldlM (loadRow P) m = .ok m2) ∨
      rows.foldlM (loadRow P) m = .error .fatal) ∧
    ((∀ x ∈ rows, rowParses P x = true) → ∃ m2, rows.foldlM (loadRow P) m = .ok m2) := by
  induction rows generalizing m with
  | nil => exact ⟨Or.inl ⟨m, rfl⟩, fun _ => ⟨m, rfl⟩⟩
  | cons x xs ih =>
    have hx := loadRow_three P m x (h x (List.mem_cons_self _ _))
    have hxs := fun m2 => ih m2 (fun y hy => h y (List.mem_cons_of_mem _ hy))
    rw [List.foldlM_cons]
    refine ⟨?_, ?_⟩
    · rcases hx.1 with ⟨m2, h2⟩ | h2
      · rw [h2]
        exact (hxs m2).1
      · rw [h2]
        exact Or.inr rfl
    · intro hall
      obtain ⟨m2, h2⟩ := hx.2 (hall x (List.mem_cons_self _ _))
      rw [h2]
      exact (hxs m2).2 (fun y hy => hall y (List.mem_cons_of_mem _ hy))

/-- C20, as stated, fails in its first part: the row sequence is not empty and its rows
have three fields, but the date of the data row is no date; the loader does not return
a map, it ends the process by `log.Fatal`. -/
theorem three_fields_no_map :
    load goParsers [header, ["yesterday", "0.03000", "1"]] = .error .fatal := by
  decide!

/-- C20, amended.  On the empty row sequence the loader fails on the slice `row[1:]`,
out of range.  On a row sequence that is not empty and whose rows have at least three
fields it skips the first row and never fails out of range: it returns a map, or ends
the process by `log.Fatal`; and it returns a map when the date and the magnitude of
every data row with the flag `0` or `1` parse. -/
theorem loader_header (P : Parsers) (rows : List (List String)) (hne : rows ≠ [])
    (h3 : ∀ x ∈ rows, 3 ≤ x.length) :
    load P [] = .error .outOfRange ∧
    load P rows = rows.tail.foldlM (loadRow P) ∅ ∧
    load P rows ≠ .error .outOfRange ∧
    ((∃ m, load P rows = .ok m) ∨ load P rows = .error .fatal) ∧
    ((∀ x ∈ rows.tail, rowParses P x = true) → ∃ m, load P rows = .ok m) := by
  match rows, hne with
  | hd :: rest, _ =>
    have h := foldlM_loadRow_three P rest ∅ (fun x hx => h3 x (List.mem_cons_of_mem _ hx))
    refine ⟨rfl, rfl, ?_, h.1, h.2⟩
    rw [load_cons]
    rcases h.1 with ⟨m, hm⟩ | hm
    · rw [hm]
      intro hc
      cases hc
    · rw [hm]
      intro hc
      cases hc

/-- C20, amended, on the file of the example, a header and one row: the loader returns
a map; and on no rows at all it fails out of range. -/
theorem loader_header_witness :
    load goParsers [] = .error .outOfRange ∧
    load goParsers [header, ["2021-01-01T00:00:00Z", "0.03000", "1"]]
      ≠ .error .outOfRange ∧
    ∃ m, load goParsers [header, ["2021-01-01T00:00:00Z", "0.03000", "1"]] = .ok m :=
  have h := loader_header goParsers [header, ["2021-01-01T00:00:00Z", "0.03000", "1"]]
    (by decide!) (by decide!)
  ⟨h.1, h.2.2.1, h.2.2.2.2 (by decide!)⟩

theorem foldl_exhausted_status (lim : Nat) (cur : GoMap) (W : World) (fra : List Time)
    (s : State) (hb : lim ≤ s.cou) :
    (fra.foldl (step lim cur W) s).status = s.status := by
  induction fra generalizing s with
  | nil => rfl
  | cons x xs ih =>
    obtain ⟨h1, -, h3, -⟩ := step_exhausted lim cur W s x hb
    rw [List.foldl_cons, ih (step lim cur W s x) (by rw [h1]; exact hb), h3]

/-- A pass with the limit 0: it runs to its end without a call of the resolver, and its
output map holds the confirmed entries of the cache for the frames of the list and
nothing else. -/
theorem fill_zero (cur : GoMap) (W : World) (fra : List Time) :
    (fill 0 cur W fra).status = .running ∧ (fill 0 cur W fra).calls = [] ∧
    ∀ k, (fill 0 cur W fra).des.lookup k
      = if k ∈ fra then (cur.lookup k).filter (fun v => F64.gt v F64.zero) else none := by
  have hst : ∀ l : List Time, (fill 0 cur W l).status = .running := fun l =>
    foldl_exhausted_status 0 cur W l State.init (Nat.zero_le _)
  obtain ⟨-, h2, h3⟩ := foldl_exhausted 0 cur W fra State.init (Nat.zero_le _)
  refine ⟨hst fra, h2, ?_⟩
  intro k
  by_cases hk : k ∈ fra
  · rw [if_pos hk]
    cases hc : cur.lookup k with
    | none =>
      have := h3 k (by simp [GoMap.has, hc])
      simpa [fill, State.init] using this
    | some v =>
      cases hv : F64.gt v F64.zero
      · have := h3 k (by simp [GoMap.get_of_lookup hc, hv])
        simpa [fill, State.init, Option.filter, hv] using this
      · obtain ⟨pre, post, rfl⟩ := List.append_of_mem hk
        simp only [Option.filter, hv, if_true]
        rw [fill_append, List.foldl_cons]
        apply foldl_step_hit_lookup 0 cur W post _ k v hc hv
        rw [step_hit 0 cur W _ k v (hst pre) hc hv]
        exact GoMap.lookup_set_same _ _ _
  · rw [if_neg hk]
    exact fill_lookup_of_not_mem 0 cur W fra k hk

/-- The sorted list of structs is strictly ascending by date. -/
theorem lisOf_strict (des : GoMap) (order : List (Sigma (fun _ : Time => F64)))
    (ho : order.Perm des.entries) : (lisOf order).Sorted (fun a b => a.Dat < b.Dat) := by
  have h1 : (lisOf order).Pairwise (fun a b => a.Dat ≤ b.Dat) :=
    List.sorted_insertionSort (fun a b : csvrow => a.Dat ≤ b.Dat) _
  have h2 : (lisOf order).Pairwise (fun a b => a.Dat ≠ b.Dat) :=
    List.pairwise_map.mp (lisOf_entries des order ho).1
  exact (h1.and h2).imp (fun h => lt_of_le_of_ne h.1 h.2)

theorem mem_lisOf_iff (des : GoMap) (order : List (Sigma (fun _ : Time => F64)))
    (ho : order.Perm des.entries) (r : csvrow) :
    r ∈ lisOf order ↔ ∃ v, des.lookup r.Dat = some v ∧ r = toRow ⟨r.Dat, v⟩ := by
  constructor
  · exact (lisOf_entries des order ho).2 r
  · rintro ⟨v, hl, hr⟩
    rw [hr]
    exact mem_lisOf_of_lookup hl ho

/-- Two lists of structs, each strictly ascending by date and with the same members,
are the same list. -/
theorem eq_of_strict {L M : List csvrow} (hL : L.Sorted (fun a b => a.Dat < b.Dat))
    (hM : M.Sorted (fun a b => a.Dat < b.Dat)) (h : ∀ r, r ∈ L ↔ r ∈ M) : L = M := by
  have nd : ∀ {X : List csvrow}, X.Sorted (fun a b => a.Dat < b.Dat) → X.Nodup := fun hX =>
    List.Pairwise.imp (fun hab he => by rw [he] at hab; exact lt_irrefl _ hab) hX
  exact List.eq_of_perm_of_sorted ((List.perm_ext_iff_of_nodup (nd hL) (nd hM)).mpr h) hL hM

/-- The order in which the map is iterated has no effect on what is written. -/
theorem lisOf_order (des : GoMap) (order : List (Sigma (fun _ : Time => F64)))
    (ho : order.Perm des.entries) : lisOf order = lisOf des.entries :=
  eq_of_strict (lisOf_strict des order ho) (lisOf_strict des _ (List.Perm.refl _))
    (fun r => (mem_lisOf_iff des order ho r).trans
      (mem_lisOf_iff des _ (List.Perm.refl _) r).symm)

/-- Two maps with the same keys, the values of the second being what is read from the
rows of the values of the first: the structs written for the second are those of the
first with what is read from their rows. -/
theorem lisOf_reread (d1 d2 : GoMap)
    (h : ∀ k, d2.lookup k = (d1.lookup k).map reread) :
    lisOf d2.entries = (lisOf d1.entries).map (fun r => toRow ⟨r.Dat, rereadRow r⟩) := by
  apply eq_of_strict (lisOf_strict d2 _ (List.Perm.refl _))
  · exact List.pairwise_map.mpr (lisOf_strict d1 _ (List.Perm.refl _))
  · intro r
    rw [mem_lisOf_iff d2 _ (List.Perm.refl _), List.mem_map]
    constructor
    · rintro ⟨v, hl, hr⟩
      rw [h] at hl
      cases hv1 : d1.lookup r.Dat with
      | none =>
        rw [hv1] at hl
        cases hl
      | some v1 =>
        rw [hv1] at hl
        have hg : reread v1 = v := Option.some.inj hl
        refine ⟨toRow ⟨r.Dat, v1⟩, mem_lisOf_of_lookup hv1 (List.Perm.refl _), ?_⟩
        rw [rereadRow_toRow]
        show toRow ⟨r.Dat, reread v1⟩ = r
        rw [hg]
        exact hr.symm
    · rintro ⟨r1, hr1, rfl⟩
      obtain ⟨v1, hv1, he⟩ := (mem_lisOf_iff d1 _ (List.Perm.refl _) r1).mp hr1
      refine ⟨reread v1, ?_, ?_⟩
      · show d2.lookup r1.Dat = _
        rw [h, hv1]
        rfl
      · have e := rereadRow_toRow ⟨r1.Dat, v1⟩
        rw [← he] at e
        rw [e]
        rfl

/-- C11, as stated, fails: the cache file holds 0.000001, confirmed, for 2021-01-01, the
only frame.  With the limit 0 the first run keeps the entry and writes it as `0.00000`
with the flag 1; the second run loads 0 for it, which is not a confirmed value, makes no
call, and writes the header alone: the frame of the first output is gone. -/
theorem second_run_drops_frame :
    load goParsers tinyRows = .ok tinyOutput ∧
    (fill 0 tinyOutput unavailableWorld [1609459200]).status = .running ∧
    rowsOf (fill 0 tinyOutput unavailableWorld [1609459200]).des.entries
      = [header, ["2021-01-01T00:00:00Z", "0.00000", "1"]] ∧
    (load goParsers [header, ["2021-01-01T00:00:00Z", "0.00000", "1"]]).map
        (fun cur2 => ((fill 0 cur2 unavailableWorld [1609459200]).status,
          rowsOf (fill 0 cur2 unavailableWorld [1609459200]).des.entries))
      = .ok (.running, [header]) ∧
    [header] ≠ [header, ["2021-01-01T00:00:00Z", "0.00000", "1"]] := by
  decide!

/-- C11, amended.  With the limit 0, a pass over the frames `fra`, whose dates are of the
years 0 to 9999, on any cache runs to its end without a call of the resolver.  If no row
written for its output map has the magnitude `0.00000`, then loading these rows with the
reference parsers succeeds, a second pass with the limit 0 over the same frames on the
loaded cache runs to its end without a call of the resolver, its output map has the same
keys, and the rows written for it are the rows of the first output, whatever order the
two maps are iterated in and whatever the resolver and the executor would do. -/
theorem idempotent_without_budget (cur1 : GoMap) (W1 W2 : World) (fra : List Time)
    (order1 : List (Sigma (fun _ : Time => F64)))
    (hy : ∀ k ∈ fra, 0 ≤ Time.year k ∧ Time.year k ≤ 9999)
    (ho1 : order1.Perm (fill 0 cur1 W1 fra).des.entries)
    (hz : ∀ r ∈ rowsOf order1, r.get? 1 ≠ some "0.00000") :
    (fill 0 cur1 W1 fra).status = .running ∧ (fill 0 cur1 W1 fra).calls = [] ∧
    ∃ cur2, load goParsers (rowsOf order1) = .ok cur2 ∧
      (fill 0 cur2 W2 fra).status = .running ∧ (fill 0 cur2 W2 fra).calls = [] ∧
      (∀ k, k ∈ (fill 0 cur2 W2 fra).des ↔ k ∈ (fill 0 cur1 W1 fra).des) ∧
      ∀ order2 : List (Sigma (fun _ : Time => F64)),
        order2.Perm (fill 0 cur2 W2 fra).des.entries → rowsOf order2 = rowsOf order1 := by
  obtain ⟨s1, c1, l1⟩ := fill_zero cur1 W1 fra
  have hp : ∀ k v, (fill 0 cur1 W1 fra).des.lookup k = some v →
      (0 ≤ Time.year k ∧ Time.year k ≤ 9999) ∧ F64.gt v F64.zero = true := by
    intro k v hl
    rw [l1 k] at hl
    by_cases hk : k ∈ fra
    · rw [if_pos hk] at hl
      obtain ⟨-, hw⟩ := Option.filter_eq_some.mp hl
      exact ⟨hy k hk, hw⟩
    · rw [if_neg hk] at hl
      cases hl
  have hnz : ∀ k v, (fill 0 cur1 W1 fra).des.lookup k = some v →
      fmt5 (F64.abs v) ≠ "0.00000" := by
    intro k v hl hf
    have hm : render (toRow ⟨k, v⟩) ∈ rowsOf order1 :=
      List.mem_cons_of_mem _ (List.mem_map_of_mem render (mem_lisOf_of_lookup hl ho1))
    apply hz _ hm
    show some (fmt5 (F64.abs v)) = _
    rw [hf]
  have hrr : ∀ k v, (fill 0 cur1 W1 fra).des.lookup k = some v →
      reread v = round5 v ∧ F64.gt (round5 v) F64.zero = true := by
    intro k v hl
    have hv := (hp k v hl).2
    exact ⟨by simp [reread, hv], round5_pos v hv (hnz k v hl)⟩
  obtain ⟨cur2, hload, l2⟩ := load_rows _ order1 ho1
    (fun e he => (hp e.1 e.2 (AList.mem_lookup_iff.mpr he)).1)
  obtain ⟨s2, c2, l3⟩ := fill_zero cur2 W2 fra
  have l4 : ∀ k, (fill 0 cur2 W2 fra).des.lookup k
      = ((fill 0 cur1 W1 fra).des.lookup k).map reread := by
    intro k
    rw [l3 k, l2 k]
    cases hd : (fill 0 cur1 W1 fra).des.lookup k with
    | none => simp
    | some v =>
      have hk : k ∈ fra := by
        by_contra hk
        rw [l1 k, if_neg hk] at hd
        cases hd
      obtain ⟨e, hpos⟩ := hrr k v hd
      simp [hk, Option.filter, e, hpos]
  refine ⟨s1, c1, cur2, hload, s2, c2, ?_, ?_⟩
  · intro k
    rw [← AList.lookup_isSome, ← AList.lookup_isSome, l4 k]
    cases (fill 0 cur1 W1 fra).des.lookup k <;> rfl
  · intro order2 ho2
    show header :: (lisOf order2).map render = header :: (lisOf order1).map render
    rw [lisOf_order _ order2 ho2, lisOf_order _ order1 ho1, lisOf_reread _ _ l4,
      List.map_map]
    congr 1
    apply List.map_congr_left
    intro r hr
    obtain ⟨v, hl, hre⟩ := (mem_lisOf_iff _ _ (List.Perm.refl _) r).mp hr
    have hv := (hp _ v hl).2
    obtain ⟨e, hpos⟩ := hrr _ v hl
    have e2 := rereadRow_toRow ⟨r.Dat, v⟩
    rw [← hre] at e2
    show render (toRow ⟨r.Dat, rereadRow r⟩) = render r
    rw [e2]
    show render (toRow ⟨r.Dat, reread v⟩) = render r
    rw [e, hre]
    simp only [render, toRow, hv, hpos, fmt5_round5]

/-- C11, amended, on the cache with 2021-01-01 confirmed at 0.03 and the frames
2021-01-01 and 2021-01-02: the first output is written, loaded, and the second pass
writes the same rows. -/
theorem idempotent_without_budget_witness :
    ∃ cur2,
      load goParsers
          (rowsOf (fill 0 januaryCache unavailableWorld [1609459200, 1609545600]).des.entries)
        = .ok cur2 ∧
      ∀ order2 : List (Sigma (fun _ : Time => F64)),
        order2.Perm (fill 0 cur2 deflationWorld [1609459200, 1609545600]).des.entries →
        rowsOf order2
          = rowsOf (fill 0 januaryCache unavailableWorld [1609459200, 1609545600]).des.entries :=
  have h := idempotent_without_budget januaryCache unavailableWorld deflationWorld
    [1609459200, 1609545600]
    (fill 0 januaryCache unavailableWorld [1609459200, 1609545600]).des.entries
    (by decide!) (List.Perm.refl _) (by decide!)
  h.2.2.elim (fun cur2 hc => ⟨cur2, hc.1, hc.2.2.2.2⟩)

end CPI
